import Mathlib

/-!
Shallow embedding of the tscache in-memory cache (Go) and proofs about its
specification. The definitions mirror the Go source files `shard.go`,
`cache.go`, `eviction.go` (the eviction lists) and the sizing helpers in
`utils.go`. Byte payloads are modelled as `List Nat`, wall-clock instants as
`Nat` (each operation receives the value `time.Now()` would return), Go `int`
fields as `Int`, and Go maps as association lists (the code never iterates
over its `data` map, so the list order is unobservable; the `frequencies` map
of the LFU list is iterated, and is modelled in insertion order).
The asynchronous `go s.Delete(key)` issued on an expired read is executed
synchronously, which is the single-threaded schedule of the Go code.
-/

namespace TSCache

/-- Byte sequences (Go `[]byte`). -/
abbrev Bytes := List Nat

/-- The `Compressor` interface of `compression.go`: `Compress` and
`Decompress` each return a payload or an error (modelled as `none`). -/
structure Compressor where
  compress : Bytes → Option Bytes
  decompress : Bytes → Option Bytes

/-- `NoCompressor` from `compression.go`: both directions are the identity. -/
def NewNoCompressor : Compressor :=
  { compress := fun data => some data, decompress := fun data => some data }

/-- `CacheItem` from `shard.go`: one cached entry. `ExpireAt = none` models
the Go zero `time.Time` (no expiration). -/
structure CacheItem where
  Key : String
  Value : Bytes
  Size : Nat
  ExpireAt : Option Nat
  CreatedAt : Nat
  AccessAt : Nat
  AccessCount : Nat
  Compressed : Bool
deriving DecidableEq, Repr

/-- First-match lookup in an association list (a Go map read). -/
def assocFind {α β : Type} [DecidableEq α] : List (α × β) → α → Option β
  | [], _ => none
  | (k, v) :: rest, key => if k = key then some v else assocFind rest key

/-- Go map write `m[k] = v`: replace the first binding of `k`, or append. -/
def assocSet {α β : Type} [DecidableEq α] : List (α × β) → α → β → List (α × β)
  | [], key, v => [(key, v)]
  | (k, w) :: rest, key, v =>
    if k = key then (key, v) :: rest else (k, w) :: assocSet rest key v

/-- Go map delete: remove the first binding of `k`. -/
def assocErase {α β : Type} [DecidableEq α] : List (α × β) → α → List (α × β)
  | [], _ => []
  | (k, w) :: rest, key => if k = key then rest else (k, w) :: assocErase rest key

/-- Find the first element with the given key (a `nodeMap` lookup). -/
def findKeyed {α : Type} (keyOf : α → String) : List α → String → Option α
  | [], _ => none
  | x :: rest, k => if keyOf x = k then some x else findKeyed keyOf rest k

/-- Remove the first element with the given key (unlink one node). -/
def eraseKeyed {α : Type} (keyOf : α → String) : List α → String → List α
  | [], _ => []
  | x :: rest, k => if keyOf x = k then rest else x :: eraseKeyed keyOf rest k

/-- Mutate the first element with the given key in place (a Go in-place
update through the `nodeMap` pointer). -/
def modifyKeyed {α : Type} (keyOf : α → String) (f : α → α) : List α → String → List α
  | [], _ => []
  | x :: rest, k => if keyOf x = k then f x :: rest else x :: modifyKeyed keyOf f rest k

/-! ## LRU eviction list (`eviction.go`) -/

/-- `LRUNode`: key plus a reference to the cache item. -/
structure LRUNode where
  Key : String
  Item : CacheItem
deriving DecidableEq, Repr

/-- `LRUList`: doubly linked list, most recently used at the front
(the list head is the front, the last element the back). -/
structure LRUList where
  nodes : List LRUNode
deriving DecidableEq, Repr

/-- `NewLRUList`. -/
def NewLRUList : LRUList := { nodes := [] }

/-- `LRUList.Add`: update the item and move the node to the front if the key
exists, else push a fresh node at the front. -/
def LRUList.Add (l : LRUList) (key : String) (item : CacheItem) : LRUList :=
  match findKeyed LRUNode.Key l.nodes key with
  | some _ => { nodes := ⟨key, item⟩ :: eraseKeyed LRUNode.Key l.nodes key }
  | none => { nodes := ⟨key, item⟩ :: l.nodes }

/-- `LRUList.Remove`: unlink the node of the key, if present. -/
def LRUList.Remove (l : LRUList) (key : String) : LRUList :=
  { nodes := eraseKeyed LRUNode.Key l.nodes key }

/-- `LRUList.Update`: replace the item and move to front; no-op if absent. -/
def LRUList.Update (l : LRUList) (key : String) (item : CacheItem) : LRUList :=
  match findKeyed LRUNode.Key l.nodes key with
  | some _ => { nodes := ⟨key, item⟩ :: eraseKeyed LRUNode.Key l.nodes key }
  | none => l

/-- `LRUList.RemoveLeast`: unlink the back node and return its key, or
return `""` when the list is empty. -/
def LRUList.RemoveLeast (l : LRUList) : String × LRUList :=
  match l.nodes.getLast? with
  | none => ("", l)
  | some n => (n.Key, { nodes := l.nodes.dropLast })

/-- `LRUList.Clear`. -/
def LRUList.Clear (_ : LRUList) : LRUList := { nodes := [] }

/-! ## FIFO eviction list (`eviction.go`) -/

/-- `FIFONode`: key, item reference and creation timestamp. -/
structure FIFONode where
  Key : String
  Item : CacheItem
  CreatedAt : Nat
deriving DecidableEq, Repr

/-- `FIFOList`: queue in insertion order, oldest at the head. -/
structure FIFOList where
  nodes : List FIFONode
deriving DecidableEq, Repr

/-- `NewFIFOList`. -/
def NewFIFOList : FIFOList := { nodes := [] }

/-- `FIFOList.Add`: update the item in place without moving the node when
the key exists, else push a new node at the back of the queue. -/
def FIFOList.Add (l : FIFOList) (key : String) (item : CacheItem) (now : Nat) :
    FIFOList :=
  match findKeyed FIFONode.Key l.nodes key with
  | some _ =>
    { nodes := modifyKeyed FIFONode.Key (fun n => { n with Item := item }) l.nodes key }
  | none => { nodes := l.nodes ++ [⟨key, item, now⟩] }

/-- `FIFOList.Remove`. -/
def FIFOList.Remove (l : FIFOList) (key : String) : FIFOList :=
  { nodes := eraseKeyed FIFONode.Key l.nodes key }

/-- `FIFOList.Update`: replace the item data without changing the position. -/
def FIFOList.Update (l : FIFOList) (key : String) (item : CacheItem) : FIFOList :=
  match findKeyed FIFONode.Key l.nodes key with
  | some _ =>
    { nodes := modifyKeyed FIFONode.Key (fun n => { n with Item := item }) l.nodes key }
  | none => l

/-- `FIFOList.RemoveLeast`: pop the head (oldest) node, or `""` if empty. -/
def FIFOList.RemoveLeast (l : FIFOList) : String × FIFOList :=
  match l.nodes with
  | [] => ("", l)
  | n :: rest => (n.Key, { nodes := rest })

/-- `FIFOList.Clear`. -/
def FIFOList.Clear (_ : FIFOList) : FIFOList := { nodes := [] }

/-! ## LFU eviction list (`eviction.go`)

The Go structure keeps `nodes : map[string]*LFUNode`,
`frequencies : map[int]*list.List` of node pointers, and `minFreq`.
Buckets are modelled as key lists (the Go buckets hold pointers to the
very nodes stored in `nodes`, so a bucket entry is identified by its key);
the `frequencies` map is an association list in insertion order, the order
its `range` loop is taken in. -/

/-- `LFUNode`. -/
structure LFUNode where
  Key : String
  Item : CacheItem
  Frequency : Nat
  LastUsed : Nat
deriving DecidableEq, Repr

/-- `LFUList`. -/
structure LFUList where
  nodes : List LFUNode
  frequencies : List (Nat × List String)
  minFreq : Nat
deriving DecidableEq, Repr

/-- `NewLFUList`. -/
def NewLFUList : LFUList := { nodes := [], frequencies := [], minFreq := 1 }

/-- `LFUList.addToFrequency`: push the node to the back of its frequency
bucket, creating the bucket if it does not exist. -/
def LFUList.addToFrequency (l : LFUList) (key : String) (frequency : Nat) : LFUList :=
  match assocFind l.frequencies frequency with
  | none => { l with frequencies := l.frequencies ++ [(frequency, [key])] }
  | some b => { l with frequencies := assocSet l.frequencies frequency (b ++ [key]) }

/-- `LFUList.removeFromFrequency`: remove the node from its bucket (the Go
code excises the first element whose pointer matches; here the first
occurrence of the key). An emptied bucket stays in the map, as in Go. -/
def LFUList.removeFromFrequency (l : LFUList) (key : String) (frequency : Nat) :
    LFUList :=
  match assocFind l.frequencies frequency with
  | none => l
  | some b => { l with frequencies := assocSet l.frequencies frequency (b.erase key) }

/-- `LFUList.isEmptyBucket` (`isEmpty` in Go): the bucket is missing or has
no elements. -/
def LFUList.isEmptyBucket (l : LFUList) (frequency : Nat) : Bool :=
  match assocFind l.frequencies frequency with
  | none => true
  | some b => b.length = 0

/-- `LFUList.updateMinFreq`: when the bucket at `minFreq` is empty, reset
`minFreq` to 1 and re-scan all buckets exactly as the Go `range` loop does
(`if freq < minFreq || minFreq == 1`). -/
def LFUList.updateMinFreq (l : LFUList) : LFUList :=
  if l.isEmptyBucket l.minFreq then
    { l with
      minFreq := l.frequencies.foldl
        (fun m fb => if fb.2.length > 0 then (if fb.1 < m ∨ m = 1 then fb.1 else m) else m)
        1 }
  else l

/-- `LFUList.Add`: for an existing key, move between buckets when the
frequency changed (not copying the item, as in the source), else refresh the
item and timestamp. For a new key, the starting frequency is the item's
access count, raised to 1 when it is 0. -/
def LFUList.Add (l : LFUList) (key : String) (item : CacheItem) (now : Nat) : LFUList :=
  match findKeyed LFUNode.Key l.nodes key with
  | some node =>
    let oldFreq := node.Frequency
    let newFreq := item.AccessCount
    if oldFreq ≠ newFreq then
      let l1 := l.removeFromFrequency key oldFreq
      let l2 := { l1 with
        nodes := modifyKeyed LFUNode.Key
          (fun n => { n with Frequency := newFreq, LastUsed := now }) l1.nodes key }
      let l3 := l2.addToFrequency key newFreq
      l3.updateMinFreq
    else
      { l with
        nodes := modifyKeyed LFUNode.Key
          (fun n => { n with Item := item, LastUsed := now }) l.nodes key }
  | none =>
    let frequency := if item.AccessCount = 0 then 1 else item.AccessCount
    let node : LFUNode := ⟨key, item, frequency, now⟩
    let l1 := { l with nodes := l.nodes ++ [node] }
    let l2 := l1.addToFrequency key frequency
    if frequency < l2.minFreq ∨ l2.isEmptyBucket l2.minFreq then
      { l2 with minFreq := frequency }
    else l2

/-- `LFUList.Remove`. -/
def LFUList.Remove (l : LFUList) (key : String) : LFUList :=
  match findKeyed LFUNode.Key l.nodes key with
  | some node =>
    let l1 := l.removeFromFrequency key node.Frequency
    let l2 := { l1 with nodes := eraseKeyed LFUNode.Key l1.nodes key }
    l2.updateMinFreq
  | none => l

/-- `LFUList.Update`: on access, move to the bucket of the new access count
when it differs, else refresh the item and timestamp. -/
def LFUList.Update (l : LFUList) (key : String) (item : CacheItem) (now : Nat) :
    LFUList :=
  match findKeyed LFUNode.Key l.nodes key with
  | some node =>
    let oldFreq := node.Frequency
    let newFreq := item.AccessCount
    if oldFreq ≠ newFreq then
      let l1 := l.removeFromFrequency key oldFreq
      let l2 := { l1 with
        nodes := modifyKeyed LFUNode.Key
          (fun n => { n with Item := item, Frequency := newFreq, LastUsed := now })
          l1.nodes key }
      let l3 := l2.addToFrequency key newFreq
      l3.updateMinFreq
    else
      { l with
        nodes := modifyKeyed LFUNode.Key
          (fun n => { n with Item := item, LastUsed := now }) l.nodes key }
  | none => l

/-- The scan inside `LFUList.RemoveLeast`: walk the bucket front to back and
keep the node with the strictly oldest `LastUsed` (ties keep the earlier
element). Bucket keys that had no node would be skipped; with the structure
well formed every key resolves, as the Go pointers do. -/
def pickOldestStep (l : LFUList) (acc : Option (String × Nat)) (k : String) :
    Option (String × Nat) :=
  match findKeyed LFUNode.Key l.nodes k with
  | none => acc
  | some n =>
    match acc with
    | none => some (k, n.LastUsed)
    | some (k0, t0) => if n.LastUsed < t0 then some (k, n.LastUsed) else some (k0, t0)

def LFUList.pickOldest (l : LFUList) (bucket : List String) : Option String :=
  (bucket.foldl (pickOldestStep l) none).map Prod.fst

/-- `LFUList.RemoveLeast`: evict the least recently used node among those at
the minimum frequency; `""` when there is nothing to evict. -/
def LFUList.RemoveLeast (l : LFUList) : String × LFUList :=
  if l.nodes.length = 0 then ("", l)
  else
    match assocFind l.frequencies l.minFreq with
    | none => ("", l)
    | some b =>
      if b.length = 0 then ("", l)
      else
        match l.pickOldest b with
        | none => ("", l)
        | some key =>
          let l1 := { l with frequencies := assocSet l.frequencies l.minFreq (b.erase key) }
          let l2 := { l1 with nodes := eraseKeyed LFUNode.Key l1.nodes key }
          (key, l2.updateMinFreq)

/-- `LFUList.Clear`. -/
def LFUList.Clear (_ : LFUList) : LFUList := NewLFUList

/-! ## The polymorphic eviction list -/

/-- The `EvictionList` interface with its three concrete implementations. -/
inductive EvictionList where
  | lru : LRUList → EvictionList
  | lfu : LFUList → EvictionList
  | fifo : FIFOList → EvictionList
deriving DecidableEq, Repr

/-- Dispatch `Add` (the LRU variant makes no use of the clock). -/
def EvictionList.Add (e : EvictionList) (key : String) (item : CacheItem) (now : Nat) :
    EvictionList :=
  match e with
  | lru l => lru (l.Add key item)
  | lfu l => lfu (l.Add key item now)
  | fifo l => fifo (l.Add key item now)

/-- Dispatch `Remove`. -/
def EvictionList.Remove (e : EvictionList) (key : String) : EvictionList :=
  match e with
  | lru l => lru (l.Remove key)
  | lfu l => lfu (l.Remove key)
  | fifo l => fifo (l.Remove key)

/-- Dispatch `Update`. -/
def EvictionList.Update (e : EvictionList) (key : String) (item : CacheItem) (now : Nat) :
    EvictionList :=
  match e with
  | lru l => lru (l.Update key item)
  | lfu l => lfu (l.Update key item now)
  | fifo l => fifo (l.Update key item)

/-- Dispatch `RemoveLeast`. -/
def EvictionList.RemoveLeast (e : EvictionList) : String × EvictionList :=
  match e with
  | lru l => (l.RemoveLeast.1, lru l.RemoveLeast.2)
  | lfu l => (l.RemoveLeast.1, lfu l.RemoveLeast.2)
  | fifo l => (l.RemoveLeast.1, fifo l.RemoveLeast.2)

/-- Dispatch `Clear`. -/
def EvictionList.Clear (e : EvictionList) : EvictionList :=
  match e with
  | lru l => lru l.Clear
  | lfu l => lfu l.Clear
  | fifo l => fifo l.Clear

/-- The key multiset an eviction list currently covers. -/
def EvictionList.keys : EvictionList → List String
  | lru l => l.nodes.map LRUNode.Key
  | lfu l => l.nodes.map LFUNode.Key
  | fifo l => l.nodes.map FIFONode.Key

/-! ## The cache shard (`shard.go`) -/

/-- The error values surfaced by the cache (`ErrKeyNotFound`, and a
decompression failure propagated from the compressor). -/
inductive CacheError where
  | keyNotFound
  | decompressFailed
deriving DecidableEq, Repr

/-- `CacheShard`: data map, eviction list, accounting and statistics.
The statistics counters live in a side structure in Go; they are inlined
here. Go `int` counters that are decremented are `Int`. -/
structure CacheShard where
  maxSize : Int
  evictionPolicy : String
  data : List (String × CacheItem)
  evictionList : EvictionList
  Hits : Nat
  Misses : Nat
  Evictions : Nat
  currentSize : Int
  currentCount : Int
  compressor : Option Compressor
  compressSize : Int

/-- `NewCacheShard`: pick the eviction list from the policy tag, defaulting
to LRU for unknown policies. -/
def NewCacheShard (maxSize : Int) (evictionPolicy : String)
    (compressor : Option Compressor) (compressSize : Int) : CacheShard :=
  let el : EvictionList :=
    if evictionPolicy = "LRU" then EvictionList.lru NewLRUList
    else if evictionPolicy = "LFU" then EvictionList.lfu NewLFUList
    else if evictionPolicy = "FIFO" then EvictionList.fifo NewFIFOList
    else EvictionList.lru NewLRUList
  let policy :=
    if evictionPolicy = "LRU" ∨ evictionPolicy = "LFU" ∨ evictionPolicy = "FIFO" then
      evictionPolicy
    else "LRU"
  { maxSize := maxSize
    evictionPolicy := policy
    data := []
    evictionList := el
    Hits := 0
    Misses := 0
    Evictions := 0
    currentSize := 0
    currentCount := 0
    compressor := compressor
    compressSize := compressSize }

/-- The compression decision at the top of `CacheShard.Set` (lines 111-126):
when the value is larger than the threshold and a compressor is configured,
compress; keep the compressed bytes only when strictly shorter. Returns
`(finalValue, size, compressed)`. -/
def compressDecision (compressor : Option Compressor) (compressSize : Int)
    (value : Bytes) : Bytes × Nat × Bool :=
  if (value.length : Int) > compressSize then
    match compressor with
    | some comp =>
      match comp.compress value with
      | some compressedData =>
        if compressedData.length < value.length then
          (compressedData, compressedData.length, true)
        else (value, value.length, false)
      | none => (value, value.length, false)
    | none => (value, value.length, false)
  else (value, value.length, false)

/-- `CacheShard.evictOne`: pop the least-valuable key from the eviction
list; when it names a stored entry, delete it, account, and count an
eviction. -/
def CacheShard.evictOne (s : CacheShard) : Bool × CacheShard :=
  let r := s.evictionList.RemoveLeast
  let keyToEvict := r.1
  let el := r.2
  if keyToEvict = "" then (false, { s with evictionList := el })
  else
    match assocFind s.data keyToEvict with
    | some item =>
      (true,
        { s with
          data := assocErase s.data keyToEvict
          evictionList := el
          currentSize := s.currentSize - (item.Size : Int)
          currentCount := s.currentCount - 1
          Evictions := s.Evictions + 1 })
    | none => (false, { s with evictionList := el })

/-- The body of `CacheShard.evictIfNeeded`, with explicit fuel. Each
iteration that continues has removed one entry from `data`, so
`data.length + 1` fuel (supplied by `CacheShard.evictIfNeeded`) always
reaches the Go loop's own exit condition first; the fuel never runs out. -/
def evictLoop : Nat → Int → CacheShard → CacheShard
  | 0, _, s => s
  | fuel + 1, newItemSize, s =>
    if s.maxSize > 0 ∧ s.currentSize + newItemSize > s.maxSize then
      match s.evictOne with
      | (true, s2) => evictLoop fuel newItemSize s2
      | (false, s2) => s2
    else s

/-- `CacheShard.evictIfNeeded`: evict until within budget (or nothing is
left to evict). -/
def CacheShard.evictIfNeeded (s : CacheShard) (newItemSize : Int) : CacheShard :=
  evictLoop (s.data.length + 1) newItemSize s

/-- `CacheShard.Set`: compress if worthwhile, compute the expiry, update or
insert the entry (preserving `CreatedAt` and `AccessCount` on overwrite),
update accounting and the eviction list, then enforce the budget. Always
returns a `none` error, as the Go method always returns `nil`. -/
def CacheShard.Set (s : CacheShard) (key : String) (value : Bytes) (ttl : Nat)
    (now : Nat) : Option CacheError × CacheShard :=
  let cd := compressDecision s.compressor s.compressSize value
  let finalValue := cd.1
  let size := cd.2.1
  let compressed := cd.2.2
  let expireAt : Option Nat := if ttl > 0 then some (now + ttl) else none
  let s2 :=
    match assocFind s.data key with
    | some oldItem =>
      let s1 := { s with
        currentSize := s.currentSize - (oldItem.Size : Int)
        evictionList := s.evictionList.Remove key }
      let newItem := { oldItem with
        Value := finalValue
        Size := size
        ExpireAt := expireAt
        AccessAt := now
        Compressed := compressed }
      { s1 with
        data := assocSet s1.data key newItem
        currentSize := s1.currentSize + (size : Int)
        evictionList := s1.evictionList.Add key newItem now }
    | none =>
      let item : CacheItem :=
        { Key := key, Value := finalValue, Size := size, ExpireAt := expireAt
          CreatedAt := now, AccessAt := now, AccessCount := 0, Compressed := compressed }
      { s with
        data := assocSet s.data key item
        currentSize := s.currentSize + (size : Int)
        currentCount := s.currentCount + 1
        evictionList := s.evictionList.Add key item now }
  (none, s2.evictIfNeeded 0)

/-- `CacheShard.Delete`: remove the entry if present and adjust the
accounting; idempotent. -/
def CacheShard.Delete (s : CacheShard) (key : String) : CacheShard :=
  match assocFind s.data key with
  | none => s
  | some item =>
    { s with
      data := assocErase s.data key
      currentSize := s.currentSize - (item.Size : Int)
      currentCount := s.currentCount - 1
      evictionList := s.evictionList.Remove key }

/-- `CacheShard.Get`: look the key up; on a missing key record a miss; on an
expired entry delete it (the Go code schedules `go s.Delete(key)`, run
synchronously here) and record a miss; otherwise refresh the access
metadata, touch the eviction list, record a hit, and return the payload,
decompressed when it was stored compressed. A `Compressed` entry with no
configured compressor cannot arise from the operations (the Go code would
dereference nil there); it is mapped to a decompression failure. -/
def CacheShard.Get (s : CacheShard) (key : String) (now : Nat) :
    Except CacheError Bytes × CacheShard :=
  match assocFind s.data key with
  | none => (Except.error CacheError.keyNotFound, { s with Misses := s.Misses + 1 })
  | some item =>
    match item.ExpireAt with
    | some e =>
      if now > e then
        let s1 := s.Delete key
        (Except.error CacheError.keyNotFound, { s1 with Misses := s1.Misses + 1 })
      else
        getHit s key item now
    | none => getHit s key item now
where
  /-- The hit path of `CacheShard.Get` (lines 207-222). -/
  getHit (s : CacheShard) (key : String) (item : CacheItem) (now : Nat) :
      Except CacheError Bytes × CacheShard :=
    let item1 := { item with AccessAt := now, AccessCount := item.AccessCount + 1 }
    let s1 := { s with
      data := assocSet s.data key item1
      evictionList := s.evictionList.Update key item1 now
      Hits := s.Hits + 1 }
    if item1.Compressed then
      match s.compressor with
      | some comp =>
        match comp.decompress item1.Value with
        | some v => (Except.ok v, s1)
        | none => (Except.error CacheError.decompressFailed, s1)
      | none => (Except.error CacheError.decompressFailed, s1)
    else (Except.ok item1.Value, s1)

/-- `CacheShard.Clear`: drop all entries, reset accounting and statistics. -/
def CacheShard.Clear (s : CacheShard) : CacheShard :=
  { s with
    data := []
    currentSize := 0
    currentCount := 0
    evictionList := s.evictionList.Clear
    Hits := 0
    Misses := 0
    Evictions := 0 }

/-! ## Operation sequences on one shard -/

/-- One external operation on a shard, carrying the instant `time.Now()`
yields while it runs. -/
inductive Op where
  | set (key : String) (value : Bytes) (ttl : Nat) (now : Nat)
  | get (key : String) (now : Nat)
  | del (key : String)
  | clear
deriving DecidableEq, Repr

/-- Apply one operation, keeping only the state. -/
def applyOp (s : CacheShard) : Op → CacheShard
  | Op.set key value ttl now => (s.Set key value ttl now).2
  | Op.get key now => (s.Get key now).2
  | Op.del key => s.Delete key
  | Op.clear => s.Clear

/-- Run a sequence of operations. -/
def runOps (s : CacheShard) (ops : List Op) : CacheShard :=
  ops.foldl applyOp s

/-- An operation whose `set` key (if any) is non-empty. -/
def Op.keysNonempty : Op → Bool
  | Op.set key _ _ _ => key ≠ ""
  | _ => true

/-- An operation that neither writes, deletes nor clears the key `k`
(reads are allowed). -/
def Op.avoids (k : String) : Op → Bool
  | Op.set key _ _ _ => key ≠ k
  | Op.del key => key ≠ k
  | Op.clear => false
  | Op.get _ _ => true

/-- An operation that is not a `set` on the key `k`. -/
def Op.noSetTo (k : String) : Op → Bool
  | Op.set key _ _ _ => key ≠ k
  | _ => true

/-! ## Sizing helpers (`utils.go`) and the cache (`cache.go`) -/

/-- The doubling loop of `roundToPowerOfTwo` (`for power < n: power <<= 1`),
with fuel; `n` doublings always suffice from a positive start. -/
def powLoop (n : Nat) : Nat → Nat → Nat
  | 0, power => power
  | fuel + 1, power => if power < n then powLoop n fuel (power * 2) else power

/-- `roundToPowerOfTwo` from `utils.go`: numbers at most 1 map to 1, exact
powers of two are kept, anything else is rounded up by doubling from 1. -/
def roundToPowerOfTwo (n : Nat) : Nat :=
  if n ≤ 1 then 1
  else if n &&& (n - 1) = 0 then n
  else powLoop n n 1

/-- `getOptimalShardCount` from `utils.go`, parametrised by
`runtime.NumCPU()`: double the CPU count, clamp into [4, 256], round up to
a power of two. -/
def getOptimalShardCount (numCPU : Nat) : Nat :=
  let shardCount := numCPU * 2
  let shardCount := if shardCount < 4 then 4 else shardCount
  let shardCount := if shardCount > 256 then 256 else shardCount
  roundToPowerOfTwo shardCount

/-- FNV-1a 32-bit hash of the key's UTF-8 bytes (`fnv1a` in `utils.go`). -/
def fnv1a (key : String) : Nat :=
  key.toUTF8.toList.foldl
    (fun hash b => ((hash ^^^ b.toNat) * 16777619) % 4294967296) 2166136261

/-- The option record built by `NewCache` before shard construction. -/
structure cacheOptions where
  maxSize : Int
  evictionPolicy : String
  compressor : Option Compressor
  compressSize : Int

/-- The defaults of `NewCache`: 100 MB, LRU, `NoCompressor`, 1 MB. -/
def defaultOptions : cacheOptions :=
  { maxSize := 1024 * 1024 * 100
    evictionPolicy := "LRU"
    compressor := some NewNoCompressor
    compressSize := 1024 * 1024 }

/-- `Cache` from `cache.go`. -/
structure Cache where
  maxSize : Int
  evictionPolicy : String
  shards : List CacheShard
  shardCount : Nat

/-- `NewCache`, parametrised by the CPU count and the already-applied
options: normalise the policy, choose the shard count, divide the budget
(Go truncated integer division), raising a zero per-shard budget to one
byte when the global budget is positive. -/
def NewCache (numCPU : Nat) (options : cacheOptions) : Cache :=
  let policy :=
    if options.evictionPolicy = "LRU" ∨ options.evictionPolicy = "LFU" ∨
        options.evictionPolicy = "FIFO" then
      options.evictionPolicy
    else "LRU"
  let shardCount := getOptimalShardCount numCPU
  let shardMaxSize := Int.tdiv options.maxSize (shardCount : Int)
  let shardMaxSize :=
    if shardMaxSize = 0 ∧ options.maxSize > 0 then 1 else shardMaxSize
  { maxSize := options.maxSize
    evictionPolicy := policy
    shardCount := shardCount
    shards := List.replicate shardCount
      (NewCacheShard shardMaxSize policy options.compressor options.compressSize) }

/-- `Cache.getShard` composed with `CacheShard.Set` (`Cache.Set`): route by
FNV-1a modulo the shard count and delegate. The out-of-range branch is
unreachable because the shard list has `shardCount` elements. -/
def Cache.Set (c : Cache) (key : String) (value : Bytes) (ttl : Nat) (now : Nat) :
    Option CacheError × Cache :=
  let i := fnv1a key % c.shardCount
  match c.shards.get? i with
  | some shard =>
    let (e, shard2) := shard.Set key value ttl now
    (e, { c with shards := c.shards.set i shard2 })
  | none => (none, c)

/-! ## Derived notions used by the specification statements -/

/-- The total payload size of the stored entries, as the Go `int` counter
measures it. -/
def sizeSum (data : List (String × CacheItem)) : Int :=
  (data.map fun p => (p.2.Size : Int)).sum

/-- The shard accounting invariant: `current_bytes` is the sum of stored
entry sizes and `current_count` the number of stored entries. -/
def Acct (s : CacheShard) : Prop :=
  s.currentSize = sizeSum s.data ∧ s.currentCount = (s.data.length : Int)

/-- The immutable configuration fields of a shard. -/
def configOf (s : CacheShard) : Int × String × Option Compressor × Int :=
  (s.maxSize, s.evictionPolicy, s.compressor, s.compressSize)

/-- The data map has pairwise distinct keys (always true of a Go map). -/
@[reducible] def DataNodup (s : CacheShard) : Prop := (s.data.map Prod.fst).Nodup

/-- The accumulator step of the Go `updateMinFreq` re-scan loop. -/
def minScanStep (m : Nat) (fb : Nat × List String) : Nat :=
  if fb.2.length > 0 then (if fb.1 < m ∨ m = 1 then fb.1 else m) else m

/-- Structural well-formedness of an LFU list, as the shard's call
discipline maintains it: node keys are distinct, the frequency map has one
bucket per frequency, buckets have distinct keys, every bucket key belongs
to a node of that exact frequency, every node's key sits in the bucket of
its frequency, frequencies are at least 1, and `minFreq` is a lower bound
on all node frequencies whose bucket is non-empty whenever any node
exists. -/
structure LFUWF (l : LFUList) : Prop where
  keyNodup : (l.nodes.map LFUNode.Key).Nodup
  freqNodup : (l.frequencies.map Prod.fst).Nodup
  bucketNodup : ∀ f b, assocFind l.frequencies f = some b → (b : List String).Nodup
  bucketFreq : ∀ f b, assocFind l.frequencies f = some b → ∀ k ∈ b,
    ∃ n ∈ l.nodes, n.Key = k ∧ n.Frequency = f
  nodeBucket : ∀ n ∈ l.nodes,
    ∃ b, assocFind l.frequencies n.Frequency = some b ∧ n.Key ∈ b
  freqPos : ∀ n ∈ l.nodes, 1 ≤ n.Frequency
  minPos : 1 ≤ l.minFreq
  minLe : ∀ n ∈ l.nodes, l.minFreq ≤ n.Frequency
  minBucket : l.nodes ≠ [] →
    ∃ b, assocFind l.frequencies l.minFreq = some b ∧ b ≠ []

/-- The full shard invariant holding at every quiescent point: accounting,
distinct keys, no stored empty key (all `set` keys non-empty), eviction
index covering exactly the stored keys, and — for the LFU policy — the
structural invariant plus the link between each node's frequency and the
current access count of its entry. -/
structure ShardWF (s : CacheShard) : Prop where
  acct : Acct s
  nodup : DataNodup s
  keysPerm : s.evictionList.keys.Perm (s.data.map Prod.fst)
  noEmpty : "" ∉ s.data.map Prod.fst
  lfuWF : ∀ l, s.evictionList = EvictionList.lfu l → LFUWF l
  lfuLink : ∀ l, s.evictionList = EvictionList.lfu l → ∀ n ∈ l.nodes,
    ∃ it, assocFind s.data n.Key = some it ∧ n.Frequency = max 1 it.AccessCount

/-! ## Association-list lemmas -/

section AssocLemmas

variable {α β : Type} [DecidableEq α]

theorem assocFind_eq_none_iff (data : List (α × β)) (k : α) :
    assocFind data k = none ↔ k ∉ data.map Prod.fst := by
  induction data with
  | nil => simp [assocFind]
  | cons p rest ih =>
    obtain ⟨a, b⟩ := p
    by_cases h : a = k
    · subst h
      simp [assocFind]
    · have hka : ¬k = a := fun hh => h hh.symm
      simp [assocFind, h, hka, ih]

theorem assocSet_of_find_none {data : List (α × β)} {k : α}
    (h : assocFind data k = none) (v : β) : assocSet data k v = data ++ [(k, v)] := by
  induction data with
  | nil => simp [assocSet]
  | cons p rest ih =>
    obtain ⟨a, b⟩ := p
    by_cases hak : a = k
    · subst hak
      simp [assocFind] at h
    · simp [assocFind, hak] at h
      simp [assocSet, hak, ih h]

theorem assocFind_assocSet_self (data : List (α × β)) (k : α) (v : β) :
    assocFind (assocSet data k v) k = some v := by
  induction data with
  | nil => simp [assocSet, assocFind]
  | cons p rest ih =>
    obtain ⟨a, b⟩ := p
    by_cases hak : a = k <;> simp [assocSet, assocFind, hak, ih]

theorem assocFind_assocSet_other (data : List (α × β)) {k k2 : α} (h : k2 ≠ k)
    (v : β) : assocFind (assocSet data k v) k2 = assocFind data k2 := by
  have hkk : ¬k = k2 := fun hh => h hh.symm
  induction data with
  | nil => simp [assocSet, assocFind, hkk]
  | cons p rest ih =>
    obtain ⟨a, b⟩ := p
    by_cases hak : a = k
    · subst hak
      simp [assocSet, assocFind, hkk]
    · by_cases hak2 : a = k2 <;> simp [assocSet, assocFind, hak, hak2, h, ih]

theorem assocFind_assocErase_other (data : List (α × β)) {k k2 : α} (h : k2 ≠ k) :
    assocFind (assocErase data k) k2 = assocFind data k2 := by
  have hkk : ¬k = k2 := fun hh => h hh.symm
  induction data with
  | nil => simp [assocErase]
  | cons p rest ih =>
    obtain ⟨a, b⟩ := p
    by_cases hak : a = k
    · subst hak
      simp [assocErase, assocFind, hkk]
    · by_cases hak2 : a = k2 <;> simp [assocErase, assocFind, hak, hak2, h, ih]

theorem assocErase_of_find_none {data : List (α × β)} {k : α}
    (h : assocFind data k = none) : assocErase data k = data := by
  induction data with
  | nil => simp [assocErase]
  | cons p rest ih =>
    obtain ⟨a, b⟩ := p
    by_cases hak : a = k
    · subst hak
      simp [assocFind] at h
    · simp [assocFind, hak] at h
      simp [assocErase, hak, ih h]

theorem map_fst_assocSet_of_found {data : List (α × β)} {k : α} {w : β}
    (h : assocFind data k = some w) (v : β) :
    (assocSet data k v).map Prod.fst = data.map Prod.fst := by
  induction data with
  | nil => simp [assocFind] at h
  | cons p rest ih =>
    obtain ⟨a, b⟩ := p
    by_cases hak : a = k
    · subst hak
      simp [assocSet]
    · simp [assocFind, hak] at h
      simp [assocSet, hak, ih h]

theorem length_assocSet_of_found {data : List (α × β)} {k : α} {w : β}
    (h : assocFind data k = some w) (v : β) :
    (assocSet data k v).length = data.length := by
  have h1 : ((assocSet data k v).map Prod.fst).length = (data.map Prod.fst).length := by
    rw [map_fst_assocSet_of_found h v]
  simpa using h1

theorem map_fst_assocErase_of_found {data : List (α × β)} {k : α} {w : β}
    (h : assocFind data k = some w) :
    (data.map Prod.fst).Perm (k :: (assocErase data k).map Prod.fst) := by
  induction data with
  | nil => simp [assocFind] at h
  | cons p rest ih =>
    obtain ⟨a, b⟩ := p
    by_cases hak : a = k
    · subst hak
      simp [assocErase]
    · simp [assocFind, hak] at h
      simp only [assocErase, if_neg hak, List.map_cons]
      exact ((ih h).cons a).trans (List.Perm.swap k a _)

theorem length_assocErase_of_found {data : List (α × β)} {k : α} {w : β}
    (h : assocFind data k = some w) :
    data.length = (assocErase data k).length + 1 := by
  have := (map_fst_assocErase_of_found h).length_eq
  simpa using this

theorem nodup_assocSet {data : List (α × β)} (hn : (data.map Prod.fst).Nodup)
    (k : α) (v : β) : ((assocSet data k v).map Prod.fst).Nodup := by
  cases hf : assocFind data k with
  | some w => rwa [map_fst_assocSet_of_found hf]
  | none =>
    rw [assocSet_of_find_none hf]
    simp only [List.map_append, List.map_cons, List.map_nil]
    rw [List.nodup_append]
    refine ⟨hn, List.nodup_singleton k, ?_⟩
    intro a ha hb
    simp only [List.mem_singleton] at hb
    subst hb
    exact ((assocFind_eq_none_iff data a).1 hf) ha

theorem nodup_assocErase {data : List (α × β)} (hn : (data.map Prod.fst).Nodup)
    (k : α) : ((assocErase data k).map Prod.fst).Nodup := by
  cases hf : assocFind data k with
  | none => rwa [assocErase_of_find_none hf]
  | some w =>
    have hp := map_fst_assocErase_of_found hf
    have := hp.nodup_iff.1 hn
    exact (List.nodup_cons.1 this).2

theorem assocFind_assocErase_self_of_nodup {data : List (α × β)}
    (hn : (data.map Prod.fst).Nodup) (k : α) :
    assocFind (assocErase data k) k = none := by
  induction data with
  | nil => simp [assocErase, assocFind]
  | cons p rest ih =>
    obtain ⟨a, b⟩ := p
    simp only [List.map_cons, List.nodup_cons] at hn
    by_cases hak : a = k
    · subst hak
      simp only [assocErase, if_pos rfl]
      rw [assocFind_eq_none_iff]
      exact hn.1
    · simp [assocErase, assocFind, hak, ih hn.2]

end AssocLemmas

/-! ## Accounting (claim C3) -/

theorem sizeSum_append (a b : List (String × CacheItem)) :
    sizeSum (a ++ b) = sizeSum a + sizeSum b := by
  simp [sizeSum]

theorem sizeSum_assocSet_of_found {data : List (String × CacheItem)} {k : String}
    {w : CacheItem} (h : assocFind data k = some w) (v : CacheItem) :
    sizeSum (assocSet data k v) = sizeSum data - (w.Size : Int) + (v.Size : Int) := by
  induction data with
  | nil => simp [assocFind] at h
  | cons p rest ih =>
    obtain ⟨a, b⟩ := p
    by_cases hak : a = k
    · subst hak
      simp [assocFind] at h
      subst h
      simp only [assocSet, sizeSum, List.map_cons, List.sum_cons, eq_self_iff_true,
        if_true]
      ring
    · simp only [assocFind, if_neg hak] at h
      simp only [assocSet, if_neg hak]
      have := ih h
      simp only [sizeSum, List.map_cons, List.sum_cons] at this ⊢
      rw [this]
      ring

theorem sizeSum_assocErase_of_found {data : List (String × CacheItem)} {k : String}
    {w : CacheItem} (h : assocFind data k = some w) :
    sizeSum (assocErase data k) = sizeSum data - (w.Size : Int) := by
  induction data with
  | nil => simp [assocFind] at h
  | cons p rest ih =>
    obtain ⟨a, b⟩ := p
    by_cases hak : a = k
    · subst hak
      simp [assocFind] at h
      subst h
      simp only [assocErase, sizeSum, List.map_cons, List.sum_cons, eq_self_iff_true,
        if_true]
      ring
    · simp only [assocFind, if_neg hak] at h
      simp only [assocErase, if_neg hak]
      have := ih h
      simp only [sizeSum, List.map_cons, List.sum_cons] at this ⊢
      rw [this]
      ring

theorem Acct_evictOne {s : CacheShard} (h : Acct s) : Acct s.evictOne.2 := by
  obtain ⟨h1, h2⟩ := h
  unfold CacheShard.evictOne
  by_cases hk : (s.evictionList.RemoveLeast).1 = ""
  · simp only [hk, if_pos rfl]
    exact ⟨h1, h2⟩
  · simp only [if_neg hk]
    cases hf : assocFind s.data (s.evictionList.RemoveLeast).1 with
    | none => exact ⟨h1, h2⟩
    | some item =>
      constructor
      · simp only
        rw [sizeSum_assocErase_of_found hf, h1]
      · simp only
        rw [h2, length_assocErase_of_found hf]
        push_cast
        ring

theorem Acct_evictLoop {fuel : Nat} {newItemSize : Int} {s : CacheShard}
    (h : Acct s) : Acct (evictLoop fuel newItemSize s) := by
  induction fuel generalizing s with
  | zero => exact h
  | succ n ih =>
    unfold evictLoop
    split
    · rcases he : s.evictOne with ⟨b, s2⟩
      have hs2 : Acct s2 := by
        have := Acct_evictOne h
        rwa [he] at this
      cases b
      · exact hs2
      · exact ih hs2
    · exact h

theorem Acct_Set {s : CacheShard} (h : Acct s) (key : String) (value : Bytes)
    (ttl now : Nat) : Acct (s.Set key value ttl now).2 := by
  obtain ⟨h1, h2⟩ := h
  unfold CacheShard.Set
  simp only
  apply Acct_evictLoop
  cases hf : assocFind s.data key with
  | some oldItem =>
    simp only [hf]
    constructor
    · simp only
      rw [sizeSum_assocSet_of_found hf, h1]
    · simp only
      rw [length_assocSet_of_found hf, h2]
  | none =>
    simp only [hf]
    constructor
    · simp only
      rw [assocSet_of_find_none hf, sizeSum_append, h1]
      simp [sizeSum]
    · simp only
      rw [assocSet_of_find_none hf, h2]
      simp

theorem Acct_Delete {s : CacheShard} (h : Acct s) (key : String) :
    Acct (s.Delete key) := by
  obtain ⟨h1, h2⟩ := h
  unfold CacheShard.Delete
  cases hf : assocFind s.data key with
  | none => exact ⟨h1, h2⟩
  | some item =>
    constructor
    · simp only
      rw [sizeSum_assocErase_of_found hf, h1]
    · simp only
      rw [h2, length_assocErase_of_found hf]
      push_cast
      ring

theorem getHit_snd (s : CacheShard) (key : String) (item : CacheItem) (now : Nat) :
    (CacheShard.Get.getHit s key item now).2 =
      { s with
        data := assocSet s.data key
          { item with AccessAt := now, AccessCount := item.AccessCount + 1 }
        evictionList := s.evictionList.Update key
          { item with AccessAt := now, AccessCount := item.AccessCount + 1 } now
        Hits := s.Hits + 1 } := by
  unfold CacheShard.Get.getHit
  simp only
  split
  · cases s.compressor with
    | none => rfl
    | some comp =>
      simp only
      split <;> rfl
  · rfl

theorem Acct_Get {s : CacheShard} (h : Acct s) (key : String) (now : Nat) :
    Acct (s.Get key now).2 := by
  obtain ⟨h1, h2⟩ := h
  have hhit : ∀ item, assocFind s.data key = some item →
      Acct (CacheShard.Get.getHit s key item now).2 := by
    intro item hf
    rw [getHit_snd]
    constructor
    · simp only
      rw [sizeSum_assocSet_of_found hf, h1]
      ring
    · simp only
      rw [length_assocSet_of_found hf, h2]
  unfold CacheShard.Get
  cases hf : assocFind s.data key with
  | none => exact ⟨h1, h2⟩
  | some item =>
    simp only
    cases hE : item.ExpireAt with
    | some e =>
      by_cases hexp : now > e
      · simp only [if_pos hexp]
        have hD := Acct_Delete ⟨h1, h2⟩ key
        exact ⟨hD.1, hD.2⟩
      · simp only [if_neg hexp]
        exact hhit item hf
    | none => exact hhit item hf

theorem Acct_Clear (s : CacheShard) : Acct s.Clear := by
  unfold CacheShard.Clear
  constructor <;> simp [sizeSum]

theorem Acct_applyOp {s : CacheShard} (h : Acct s) (op : Op) : Acct (applyOp s op) := by
  cases op with
  | set key value ttl now => exact Acct_Set h key value ttl now
  | get key now => exact Acct_Get h key now
  | del key => exact Acct_Delete h key
  | clear => exact Acct_Clear s

theorem Acct_runOps {s : CacheShard} (h : Acct s) (ops : List Op) :
    Acct (runOps s ops) := by
  induction ops generalizing s with
  | nil => exact h
  | cons op rest ih => exact ih (Acct_applyOp h op)

theorem Acct_NewCacheShard (maxSize : Int) (policy : String)
    (compressor : Option Compressor) (compressSize : Int) :
    Acct (NewCacheShard maxSize policy compressor compressSize) := by
  unfold NewCacheShard
  constructor <;> simp [sizeSum]

/-- C3: on every shard, at every quiescent point, `current_bytes` equals the
sum of `entry.size` over all stored entries and `current_count` equals the
number of stored entries (the invariant `Acct`); this holds in every state
reachable by set/get/delete/clear (with the evictions they trigger), and
every single operation preserves it. -/
theorem accounting_invariant :
    (∀ (maxSize : Int) (policy : String) (compressor : Option Compressor)
        (compressSize : Int) (ops : List Op),
      Acct (runOps (NewCacheShard maxSize policy compressor compressSize) ops)) ∧
    (∀ (s : CacheShard) (op : Op), Acct s → Acct (applyOp s op)) := by
  constructor
  · intro maxSize policy compressor compressSize ops
    exact Acct_runOps (Acct_NewCacheShard maxSize policy compressor compressSize) ops
  · intro s op h
    exact Acct_applyOp h op

/-- Witness for C3: the preservation half applied to a fresh shard and one
concrete `set`. -/
theorem accounting_invariant_witness :
    Acct (applyOp (NewCacheShard 10 "LRU" none 1024) (Op.set "k" [1, 2] 0 0)) :=
  accounting_invariant.2 (NewCacheShard 10 "LRU" none 1024) (Op.set "k" [1, 2] 0 0)
    ⟨rfl, rfl⟩

/-- Counterexample to C4 as stated: `Set` with the empty key does not fail
with KeyInvalid; it returns no error at all and stores an entry under the
empty key. -/
theorem empty_key_set_counterexample :
    ((NewCacheShard 100 "LRU" none 1024).Set "" [1] 0 0).1 = none ∧
    assocFind ((NewCacheShard 100 "LRU" none 1024).Set "" [1] 0 0).2.data "" ≠ none := by
  constructor
  · rfl
  · decide

/-- C4 (amended): the code performs no key validation and has no KeyInvalid
error. `Set` always succeeds (returns a `none` error) for every key,
including the empty one, at both the shard and the cache level; `Get` on a
key with no stored entry (in particular an empty key that was never stored)
fails with KeyNotFound. -/
theorem set_never_fails (s : CacheShard) (c : Cache) (key : String) (value : Bytes)
    (ttl now : Nat) (habsent : assocFind s.data key = none) :
    (s.Set key value ttl now).1 = none ∧
    (c.Set key value ttl now).1 = none ∧
    (s.Get key now).1 = Except.error CacheError.keyNotFound := by
  refine ⟨rfl, ?_, ?_⟩
  · unfold Cache.Set
    dsimp only
    split <;> rfl
  · unfold CacheShard.Get
    rw [habsent]

/-- Witness for C4 (amended), at the empty key on a fresh shard and cache. -/
theorem set_never_fails_witness :
    ((NewCacheShard 100 "LRU" none 1024).Set "" [1] 0 0).1 = none ∧
    ((NewCache 1 defaultOptions).Set "" [1] 0 0).1 = none ∧
    ((NewCacheShard 100 "LRU" none 1024).Get "" 0).1 =
      Except.error CacheError.keyNotFound :=
  set_never_fails (NewCacheShard 100 "LRU" none 1024) (NewCache 1 defaultOptions)
    "" [1] 0 0 (by decide)

/-- Counterexample to C8 as stated: with 2 logical CPUs (4 shards) and a
global budget of 101 bytes, the cache advertises `max_bytes = 101`, but the
per-shard budgets sum to 100: the global `max_bytes` is not the sum of the
per-shard `max_bytes`. -/
theorem budget_partition_counterexample :
    (NewCache 2 { defaultOptions with maxSize := 101 }).maxSize = 101 ∧
    ((NewCache 2 { defaultOptions with maxSize := 101 }).shards.map
      CacheShard.maxSize).sum = 100 ∧
    (NewCache 2 { defaultOptions with maxSize := 101 }).shardCount = 4 := by
  refine ⟨rfl, ?_, rfl⟩
  decide

/-- C8 (amended): each shard's budget is the truncated quotient
`global_max_bytes / shard_count`, raised to exactly one byte when that
quotient is 0 while `global_max_bytes > 0`; the cache's advertised
`max_bytes` is the global budget as given (so it equals the sum of the
per-shard budgets only when the division is exact). -/
theorem budget_partition (numCPU : Nat) (options : cacheOptions) :
    (NewCache numCPU options).maxSize = options.maxSize ∧
    (NewCache numCPU options).shards.map CacheShard.maxSize =
      List.replicate (getOptimalShardCount numCPU)
        (if Int.tdiv options.maxSize ((getOptimalShardCount numCPU : Nat) : Int) = 0 ∧
            options.maxSize > 0 then 1
         else Int.tdiv options.maxSize ((getOptimalShardCount numCPU : Nat) : Int)) := by
  constructor
  · rfl
  · unfold NewCache
    simp only [List.map_replicate]
    rfl

/-- `powLoop` leaves a power that already reached `n` unchanged. -/
theorem powLoop_of_ge {n power : Nat} (h : n ≤ power) (fuel : Nat) :
    powLoop n fuel power = power := by
  cases fuel with
  | zero => rfl
  | succ m => simp [powLoop, Nat.not_lt.2 h]

set_option maxRecDepth 20000 in
/-- On the whole domain the clamp can produce, `roundToPowerOfTwo` returns a
power of two that is at least its argument and less than twice it. -/
theorem roundToPowerOfTwo_bounded :
    ∀ c : Nat, c < 257 → 4 ≤ c →
      c ≤ roundToPowerOfTwo c ∧ roundToPowerOfTwo c < 2 * c ∧
      ∃ k, k < 9 ∧ roundToPowerOfTwo c = 2 ^ k := by decide

/-- The clamping steps of `getOptimalShardCount` compute
`min 256 (max 4 (2 * numCPU))`. -/
theorem getOptimalShardCount_eq (numCPU : Nat) :
    getOptimalShardCount numCPU = roundToPowerOfTwo (min 256 (max 4 (2 * numCPU))) := by
  unfold getOptimalShardCount
  dsimp only
  congr 1
  split_ifs <;> omega

/-- C10: for every logical CPU count `numCPU ≥ 1`, the chosen shard count is
a power of two, is at least `clamp(2*numCPU, 4, 256)`, is the least power of
two with that property (so it is the next power of two greater than or equal
to the clamp), and lies in `[4, 256]`. -/
theorem shard_count_selection (numCPU : Nat) (h : 1 ≤ numCPU) :
    (∃ k, getOptimalShardCount numCPU = 2 ^ k) ∧
    min 256 (max 4 (2 * numCPU)) ≤ getOptimalShardCount numCPU ∧
    (∀ m k, m = 2 ^ k → min 256 (max 4 (2 * numCPU)) ≤ m →
      getOptimalShardCount numCPU ≤ m) ∧
    4 ≤ getOptimalShardCount numCPU ∧ getOptimalShardCount numCPU ≤ 256 := by
  have hc4 : 4 ≤ min 256 (max 4 (2 * numCPU)) := by omega
  have hc257 : min 256 (max 4 (2 * numCPU)) < 257 := by omega
  have hb := roundToPowerOfTwo_bounded (min 256 (max 4 (2 * numCPU))) hc257 hc4
  rw [getOptimalShardCount_eq]
  obtain ⟨h1, h2, k, _, hkeq⟩ := hb
  have hmin : ∀ m j, m = 2 ^ j → min 256 (max 4 (2 * numCPU)) ≤ m →
      roundToPowerOfTwo (min 256 (max 4 (2 * numCPU))) ≤ m := by
    intro m j hm hcm
    subst hm
    by_contra hlt
    push_neg at hlt
    rw [hkeq] at hlt
    have hjk : j < k := (Nat.pow_lt_pow_iff_right one_lt_two).1 hlt
    have hle : 2 ^ (j + 1) ≤ 2 ^ k := Nat.pow_le_pow_right (by norm_num) hjk
    have hdb : 2 ^ (j + 1) = 2 * 2 ^ j := by ring
    omega
  refine ⟨⟨k, hkeq⟩, h1, hmin, by omega, ?_⟩
  have h256 : (256 : Nat) = 2 ^ 8 := by norm_num
  exact hmin 256 8 h256 (by omega)

/-! ## Shared machinery: configuration stability, key nodup, eviction-loop
entry containment -/

theorem evictOne_configOf (s : CacheShard) : configOf s.evictOne.2 = configOf s := by
  unfold CacheShard.evictOne
  dsimp only
  split
  · rfl
  · split <;> rfl

theorem evictLoop_configOf (fuel : Nat) (n : Int) (s : CacheShard) :
    configOf (evictLoop fuel n s) = configOf s := by
  induction fuel generalizing s with
  | zero => rfl
  | succ m ih =>
    unfold evictLoop
    split
    · rcases he : s.evictOne with ⟨b, s2⟩
      have h2 : configOf s2 = configOf s := by
        have := evictOne_configOf s
        rwa [he] at this
      cases b
      · exact h2
      · rw [ih s2, h2]
    · rfl

theorem Set_configOf (s : CacheShard) (key : String) (value : Bytes) (ttl now : Nat) :
    configOf (s.Set key value ttl now).2 = configOf s := by
  unfold CacheShard.Set CacheShard.evictIfNeeded
  dsimp only
  rw [evictLoop_configOf]
  split <;> rfl

theorem Get_configOf (s : CacheShard) (key : String) (now : Nat) :
    configOf (s.Get key now).2 = configOf s := by
  unfold CacheShard.Get
  have hD : ∀ k2, configOf (s.Delete k2) = configOf s := by
    intro k2
    unfold CacheShard.Delete
    split <;> rfl
  split
  · rfl
  · split
    · split
      · exact hD key
      · rw [getHit_snd]
        rfl
    · rw [getHit_snd]
      rfl

theorem Delete_configOf (s : CacheShard) (key : String) :
    configOf (s.Delete key) = configOf s := by
  unfold CacheShard.Delete
  split <;> rfl

theorem applyOp_configOf (s : CacheShard) (op : Op) :
    configOf (applyOp s op) = configOf s := by
  cases op with
  | set key value ttl now => exact Set_configOf s key value ttl now
  | get key now => exact Get_configOf s key now
  | del key => exact Delete_configOf s key
  | clear => rfl

theorem runOps_configOf (s : CacheShard) (ops : List Op) :
    configOf (runOps s ops) = configOf s := by
  induction ops generalizing s with
  | nil => rfl
  | cons op rest ih => rw [runOps, List.foldl_cons, ← runOps, ih, applyOp_configOf]

theorem DataNodup_evictOne {s : CacheShard} (h : DataNodup s) : DataNodup s.evictOne.2 := by
  unfold CacheShard.evictOne
  dsimp only
  split
  · exact h
  · split
    · exact nodup_assocErase h _
    · exact h

theorem DataNodup_evictLoop {fuel : Nat} {n : Int} {s : CacheShard} (h : DataNodup s) :
    DataNodup (evictLoop fuel n s) := by
  induction fuel generalizing s with
  | zero => exact h
  | succ m ih =>
    unfold evictLoop
    split
    · rcases he : s.evictOne with ⟨b, s2⟩
      have h2 : DataNodup s2 := by
        have := DataNodup_evictOne h
        rwa [he] at this
      cases b
      · exact h2
      · exact ih h2
    · exact h

theorem DataNodup_Set {s : CacheShard} (h : DataNodup s) (key : String) (value : Bytes)
    (ttl now : Nat) : DataNodup (s.Set key value ttl now).2 := by
  unfold CacheShard.Set CacheShard.evictIfNeeded
  dsimp only
  apply DataNodup_evictLoop
  split
  · exact nodup_assocSet h key _
  · exact nodup_assocSet h key _

theorem DataNodup_Delete {s : CacheShard} (h : DataNodup s) (key : String) :
    DataNodup (s.Delete key) := by
  unfold CacheShard.Delete
  split
  · exact h
  · exact nodup_assocErase h key

theorem DataNodup_Get {s : CacheShard} (h : DataNodup s) (key : String) (now : Nat) :
    DataNodup (s.Get key now).2 := by
  unfold CacheShard.Get
  split
  · exact h
  · split
    · split
      · exact DataNodup_Delete h key
      · rw [getHit_snd]
        exact nodup_assocSet h key _
    · rw [getHit_snd]
      exact nodup_assocSet h key _

theorem DataNodup_applyOp {s : CacheShard} (h : DataNodup s) (op : Op) :
    DataNodup (applyOp s op) := by
  cases op with
  | set key value ttl now => exact DataNodup_Set h key value ttl now
  | get key now => exact DataNodup_Get h key now
  | del key => exact DataNodup_Delete h key
  | clear => exact List.nodup_nil

theorem DataNodup_runOps {s : CacheShard} (h : DataNodup s) (ops : List Op) :
    DataNodup (runOps s ops) := by
  induction ops generalizing s with
  | nil => exact h
  | cons op rest ih => exact ih (DataNodup_applyOp h op)

theorem assocFind_assocErase_sub {data : List (String × CacheItem)}
    (hn : (data.map Prod.fst).Nodup) {k k2 : String} {it : CacheItem}
    (h : assocFind (assocErase data k) k2 = some it) : assocFind data k2 = some it := by
  by_cases hk : k2 = k
  · subst hk
    rw [assocFind_assocErase_self_of_nodup hn] at h
    exact absurd h (by simp)
  · rwa [assocFind_assocErase_other data hk] at h

theorem evictOne_find_sub {s : CacheShard} {k : String}
    {it : CacheItem} (h : assocFind s.evictOne.2.data k = some it)
    (hn : DataNodup s) : assocFind s.data k = some it := by
  unfold CacheShard.evictOne at h
  dsimp only at h
  split at h
  · exact h
  · split at h
    · exact assocFind_assocErase_sub hn h
    · exact h

theorem evictLoop_find_sub {fuel : Nat} {n : Int} {s : CacheShard}
    {k : String} {it : CacheItem}
    (h : assocFind (evictLoop fuel n s).data k = some it)
    (hn : DataNodup s) : assocFind s.data k = some it := by
  induction fuel generalizing s with
  | zero => exact h
  | succ m ih =>
    unfold evictLoop at h
    split at h
    · rcases he : s.evictOne with ⟨b, s2⟩
      rw [he] at h
      have hsub : ∀ {it2}, assocFind s2.data k = some it2 → assocFind s.data k = some it2 := by
        intro it2 hh
        have := fun hhh => @evictOne_find_sub s k it2 hhh hn
        rw [he] at this
        exact this hh
      have hn2 : DataNodup s2 := by
        have := DataNodup_evictOne hn
        rwa [he] at this
      cases b
      · exact hsub h
      · exact hsub (ih h hn2)
    · exact h

theorem Delete_stats (s : CacheShard) (key : String) :
    (s.Delete key).Misses = s.Misses ∧ (s.Delete key).Evictions = s.Evictions := by
  unfold CacheShard.Delete
  split <;> exact ⟨rfl, rfl⟩

theorem find_key_Delete {s : CacheShard} (hn : DataNodup s) {k2 key : String}
    {it2 : CacheItem} (hfind : assocFind (s.Delete k2).data key = some it2) :
    assocFind s.data key = some it2 := by
  unfold CacheShard.Delete at hfind
  split at hfind
  · exact hfind
  · exact assocFind_assocErase_sub hn hfind

theorem find_key_getHit {s : CacheShard} {k2 key : String} {item it2 : CacheItem}
    {now : Nat}
    (hfind : assocFind (CacheShard.Get.getHit s k2 item now).2.data key = some it2) :
    ∃ it, assocFind s.data key = some it ∧
      (it2 = it ∨ ∃ n2, it2 = { it with AccessAt := n2, AccessCount := it.AccessCount + 1 }) ∨
    (key = k2 ∧
      it2 = { item with AccessAt := now, AccessCount := item.AccessCount + 1 }) := by
  rw [getHit_snd] at hfind
  by_cases hk : key = k2
  · subst hk
    rw [assocFind_assocSet_self] at hfind
    refine ⟨it2, ?_⟩
    right
    exact ⟨rfl, (Option.some_inj.1 hfind).symm⟩
  · rw [assocFind_assocSet_other _ hk] at hfind
    exact ⟨it2, Or.inl ⟨hfind, Or.inl rfl⟩⟩

/-- How a single operation that is not a `set` on `key` can change the entry
stored at `key`: it either leaves it alone, refreshes its access metadata
(a hit on `key`), or removes it. -/
theorem find_key_applyOp {s : CacheShard} (hn : DataNodup s) {key : String}
    (op : Op) (hop : Op.noSetTo key op = true) {it2 : CacheItem}
    (hfind : assocFind (applyOp s op).data key = some it2) :
    ∃ it, assocFind s.data key = some it ∧
      (it2 = it ∨ ∃ n2, it2 = { it with AccessAt := n2, AccessCount := it.AccessCount + 1 }) := by
  cases op with
  | clear =>
    simp only [applyOp, CacheShard.Clear] at hfind
    simp [assocFind] at hfind
  | del k2 =>
    simp only [applyOp] at hfind
    exact ⟨it2, find_key_Delete hn hfind, Or.inl rfl⟩
  | set k2 v2 ttl2 now2 =>
    have hne : k2 ≠ key := by simpa [Op.noSetTo] using hop
    have hne2 : key ≠ k2 := Ne.symm hne
    simp only [applyOp] at hfind
    unfold CacheShard.Set CacheShard.evictIfNeeded at hfind
    dsimp only at hfind
    split at hfind
    · have h3 := evictLoop_find_sub hfind (nodup_assocSet hn k2 _)
      rw [assocFind_assocSet_other _ hne2] at h3
      exact ⟨it2, h3, Or.inl rfl⟩
    · have h3 := evictLoop_find_sub hfind (nodup_assocSet hn k2 _)
      rw [assocFind_assocSet_other _ hne2] at h3
      exact ⟨it2, h3, Or.inl rfl⟩
  | get k2 now2 =>
    simp only [applyOp] at hfind
    unfold CacheShard.Get at hfind
    split at hfind
    · exact ⟨it2, hfind, Or.inl rfl⟩
    · rename_i item heq
      split at hfind
      · split at hfind
        · exact ⟨it2, find_key_Delete hn hfind, Or.inl rfl⟩
        · rcases find_key_getHit hfind with ⟨it, hcase | ⟨hkk, hit2⟩⟩
          · exact ⟨it, hcase⟩
          · subst hkk
            exact ⟨item, heq, Or.inr ⟨now2, hit2⟩⟩
      · rcases find_key_getHit hfind with ⟨it, hcase | ⟨hkk, hit2⟩⟩
        · exact ⟨it, hcase⟩
        · subst hkk
          exact ⟨item, heq, Or.inr ⟨now2, hit2⟩⟩

theorem key_invariant_applyOp (Q : CacheItem → Prop)
    (hQacc : ∀ it n2, Q it → Q { it with AccessAt := n2, AccessCount := it.AccessCount + 1 })
    {s : CacheShard} (hn : DataNodup s) {key : String}
    (hQ : ∀ it, assocFind s.data key = some it → Q it)
    (op : Op) (hop : Op.noSetTo key op = true) :
    ∀ it, assocFind (applyOp s op).data key = some it → Q it := by
  intro it2 hfind
  obtain ⟨it, hit, hcase⟩ := find_key_applyOp hn op hop hfind
  rcases hcase with heq | ⟨n2, heq⟩
  · rw [heq]
    exact hQ it hit
  · rw [heq]
    exact hQacc it n2 (hQ it hit)

theorem key_invariant_runOps (Q : CacheItem → Prop)
    (hQacc : ∀ it n2, Q it → Q { it with AccessAt := n2, AccessCount := it.AccessCount + 1 })
    {s : CacheShard} (hn : DataNodup s) {key : String}
    (hQ : ∀ it, assocFind s.data key = some it → Q it)
    (ops : List Op) (hops : ops.all (Op.noSetTo key) = true) :
    ∀ it, assocFind (runOps s ops).data key = some it → Q it := by
  induction ops generalizing s with
  | nil => exact hQ
  | cons op rest ih =>
    rw [List.all_cons, Bool.and_eq_true] at hops
    exact ih (DataNodup_applyOp hn op)
      (key_invariant_applyOp Q hQacc hn hQ op hops.1) hops.2

/-! ## Keyed-list lemmas shared by the eviction-list proofs -/

theorem findKeyed_eq_none_iff {α : Type} (keyOf : α → String) (l : List α) (k : String) :
    findKeyed keyOf l k = none ↔ k ∉ l.map keyOf := by
  induction l with
  | nil => simp [findKeyed]
  | cons x rest ih =>
    by_cases h : keyOf x = k
    · simp [findKeyed, h]
    · have hk : ¬k = keyOf x := fun hh => h hh.symm
      simp [findKeyed, h, hk, ih]

theorem map_key_eraseKeyed {α : Type} (keyOf : α → String) (l : List α) (k : String) :
    (eraseKeyed keyOf l k).map keyOf = (l.map keyOf).erase k := by
  induction l with
  | nil => simp [eraseKeyed]
  | cons x rest ih =>
    by_cases h : keyOf x = k
    · simp [eraseKeyed, h, List.erase_cons]
    · simp [eraseKeyed, h, List.erase_cons, ih]

theorem map_key_modifyKeyed {α : Type} (keyOf : α → String) (f : α → α)
    (hf : ∀ x, keyOf (f x) = keyOf x) (l : List α) (k : String) :
    (modifyKeyed keyOf f l k).map keyOf = l.map keyOf := by
  induction l with
  | nil => simp [modifyKeyed]
  | cons x rest ih =>
    by_cases h : keyOf x = k
    · simp [modifyKeyed, h, hf]
    · simp [modifyKeyed, h, ih]

theorem findKeyed_eraseKeyed_of_nodup {α : Type} {keyOf : α → String} {l : List α}
    (hn : (l.map keyOf).Nodup) (k : String) :
    findKeyed keyOf (eraseKeyed keyOf l k) k = none := by
  rw [findKeyed_eq_none_iff, map_key_eraseKeyed]
  intro hmem
  by_cases hin : k ∈ l.map keyOf
  · exact (List.Nodup.mem_erase_iff hn).1 hmem |>.1 rfl
  · exact hin (List.mem_of_mem_erase hmem)

/-- The eviction loop does nothing when `maxSize ≤ 0` (the unbounded case). -/
theorem evictLoop_nonpos {s : CacheShard} (h : s.maxSize ≤ 0) (fuel : Nat) (n : Int) :
    evictLoop fuel n s = s := by
  cases fuel with
  | zero => rfl
  | succ m =>
    unfold evictLoop
    rw [if_neg]
    intro hcond
    omega

/-- What the compression step can produce: either the original bytes
unchanged and uncompressed, or a strictly shorter compressor output marked
compressed. -/
theorem compressDecision_spec (c : Option Compressor) (t : Int) (v : Bytes) :
    compressDecision c t v = (v, v.length, false) ∨
    ∃ comp out, c = some comp ∧ comp.compress v = some out ∧
      out.length < v.length ∧ compressDecision c t v = (out, out.length, true) := by
  unfold compressDecision
  split
  · cases c with
    | none => exact Or.inl rfl
    | some comp =>
      cases hco : comp.compress v with
      | none =>
        left
        simp [hco]
      | some out =>
        by_cases hlt : out.length < v.length
        · exact Or.inr ⟨comp, out, rfl, hco, hlt, by simp [hco, hlt]⟩
        · left
          simp [hco, hlt]
  · exact Or.inl rfl

theorem runOps_compressor (s : CacheShard) (ops : List Op) :
    (runOps s ops).compressor = s.compressor := by
  have h := runOps_configOf s ops
  exact congrArg (fun t => t.2.2.1) h

theorem Set_compressor (s : CacheShard) (key : String) (value : Bytes) (ttl now : Nat) :
    (s.Set key value ttl now).2.compressor = s.compressor := by
  have h := Set_configOf s key value ttl now
  exact congrArg (fun t => t.2.2.1) h

theorem runOps_maxSize (s : CacheShard) (ops : List Op) :
    (runOps s ops).maxSize = s.maxSize := by
  have h := runOps_configOf s ops
  exact congrArg (fun t => t.1) h

/-! ## Claim C9: the overwrite frame -/

/-- C9: when `Set(k, v, ttl)` overwrites an existing entry, the stored entry
for `k` afterwards (when the budget loop did not evict it) keeps the old
`CreatedAt` and `AccessCount` while `Value`, `Size`, `ExpireAt`, `AccessAt`
and `Compressed` are overwritten; and any other key that is still present
afterwards holds exactly the entry it held before (other entries are only
ever removed by the budget-enforcement loop, never modified). -/
theorem set_overwrite_frame (s : CacheShard) (key : String) (value : Bytes)
    (ttl now : Nat) (oldItem : CacheItem)
    (hn : DataNodup s)
    (hf : assocFind s.data key = some oldItem) :
    (∀ it, assocFind (s.Set key value ttl now).2.data key = some it →
      it = { oldItem with
        Value := (compressDecision s.compressor s.compressSize value).1
        Size := (compressDecision s.compressor s.compressSize value).2.1
        ExpireAt := if ttl > 0 then some (now + ttl) else none
        AccessAt := now
        Compressed := (compressDecision s.compressor s.compressSize value).2.2 }) ∧
    (∀ k2 it2, k2 ≠ key → assocFind (s.Set key value ttl now).2.data k2 = some it2 →
      assocFind s.data k2 = some it2) := by
  unfold CacheShard.Set CacheShard.evictIfNeeded
  dsimp only
  rw [hf]
  dsimp only
  constructor
  · intro it hit
    have h3 := evictLoop_find_sub hit (nodup_assocSet hn key _)
    rw [assocFind_assocSet_self] at h3
    exact (Option.some_inj.1 h3).symm
  · intro k2 it2 hk2 hit
    have h3 := evictLoop_find_sub hit (nodup_assocSet hn key _)
    rwa [assocFind_assocSet_other _ hk2] at h3

/-- Witness for C9: overwriting a concrete entry on a one-entry FIFO shard. -/
theorem set_overwrite_frame_witness :
    (∀ it,
      assocFind ((((NewCacheShard 100 "FIFO" none 1024).Set "k" [5] 7 1).2).Set
        "k" [6, 6] 0 3).2.data "k" = some it →
      it = { (⟨"k", [5], 1, some 8, 1, 1, 0, false⟩ : CacheItem) with
        Value := (compressDecision none 1024 [6, 6]).1
        Size := (compressDecision none 1024 [6, 6]).2.1
        ExpireAt := if (0 : Nat) > 0 then some (3 + 0) else none
        AccessAt := 3
        Compressed := (compressDecision none 1024 [6, 6]).2.2 }) ∧
    (∀ k2 it2, k2 ≠ "k" →
      assocFind ((((NewCacheShard 100 "FIFO" none 1024).Set "k" [5] 7 1).2).Set
        "k" [6, 6] 0 3).2.data k2 = some it2 →
      assocFind (((NewCacheShard 100 "FIFO" none 1024).Set "k" [5] 7 1).2).data k2 =
        some it2) :=
  set_overwrite_frame (((NewCacheShard 100 "FIFO" none 1024).Set "k" [5] 7 1).2)
    "k" [6, 6] 0 3 ⟨"k", [5], 1, some 8, 1, 1, 0, false⟩
    (by decide) (by decide)

/-! ## Claim C5: FIFO and overwriting `Set` -/

/-- Counterexample to C5 as stated: on a FIFO shard, insert `k1` then `k2`,
then overwrite `k1`. The eviction queue order changes from `[k1, k2]` to
`[k2, k1]`: the overwrite does not preserve `k1`'s original queue position,
because `CacheShard.Set` removes the key from the index and re-adds it. The
next `pop_least` therefore yields `k2`, not the earliest-inserted `k1`. -/
theorem fifo_overwrite_counterexample :
    (runOps (NewCacheShard 100 "FIFO" none 1024)
      [Op.set "k1" [1, 1, 1, 1] 0 0,
       Op.set "k2" [2, 2, 2, 2] 0 1]).evictionList.keys = ["k1", "k2"] ∧
    (runOps (NewCacheShard 100 "FIFO" none 1024)
      [Op.set "k1" [1, 1, 1, 1] 0 0,
       Op.set "k2" [2, 2, 2, 2] 0 1,
       Op.set "k1" [3, 3, 3, 3] 0 2]).evictionList.keys = ["k2", "k1"] ∧
    (runOps (NewCacheShard 100 "FIFO" none 1024)
      [Op.set "k1" [1, 1, 1, 1] 0 0,
       Op.set "k2" [2, 2, 2, 2] 0 1,
       Op.set "k1" [3, 3, 3, 3] 0 2]).evictionList.RemoveLeast.1 = "k2" := by
  refine ⟨by decide, by decide, by decide⟩

/-- C5 (amended): under FIFO, a `Set` that overwrites an existing key moves
that key to the tail of the eviction queue (the shard removes it from the
index and re-adds it; shown without memory pressure, which could only drop
entries from the head afterwards). `FIFOList.Update` (touch) is a no-op on
the order, `FIFOList.RemoveLeast` pops the head, and `FIFOList.Add` called
directly on an existing key would keep its position. -/
theorem fifo_overwrite_moves_to_tail (s : CacheShard) (fl : FIFOList) (key : String)
    (value : Bytes) (ttl now : Nat) (oldItem : CacheItem)
    (hel : s.evictionList = EvictionList.fifo fl)
    (hnfl : (fl.nodes.map FIFONode.Key).Nodup)
    (hf : assocFind s.data key = some oldItem)
    (hmax : s.maxSize ≤ 0) :
    (s.Set key value ttl now).2.evictionList.keys =
      (fl.nodes.map FIFONode.Key).erase key ++ [key] ∧
    (∀ item2, (fl.Update key item2).nodes.map FIFONode.Key =
      fl.nodes.map FIFONode.Key) ∧
    (∀ n rest, fl.nodes = n :: rest → fl.RemoveLeast = (n.Key, ⟨rest⟩)) ∧
    (∀ item2 now2 node, findKeyed FIFONode.Key fl.nodes key = some node →
      (fl.Add key item2 now2).nodes.map FIFONode.Key = fl.nodes.map FIFONode.Key) := by
  refine ⟨?_, ?_, ?_, ?_⟩
  · unfold CacheShard.Set CacheShard.evictIfNeeded
    dsimp only
    rw [hf]
    dsimp only
    simp only [evictLoop_nonpos, hmax]
    simp only [hel, EvictionList.Remove, EvictionList.Add, FIFOList.Remove, FIFOList.Add]
    rw [findKeyed_eraseKeyed_of_nodup hnfl]
    simp only [EvictionList.keys, List.map_append, List.map_cons, List.map_nil,
      map_key_eraseKeyed]
  · intro item2
    unfold FIFOList.Update
    split
    · exact map_key_modifyKeyed FIFONode.Key (fun n => { n with Item := item2 })
        (fun x => rfl) fl.nodes key
    · rfl
  · intro n rest hnodes
    unfold FIFOList.RemoveLeast
    rw [hnodes]
  · intro item2 now2 node hnode
    unfold FIFOList.Add
    rw [hnode]
    exact map_key_modifyKeyed FIFONode.Key (fun n => { n with Item := item2 })
      (fun x => rfl) fl.nodes key

/-- Witness for C5 (amended): the concrete two-key FIFO shard. -/
theorem fifo_overwrite_moves_to_tail_witness :
    ((runOps (NewCacheShard 0 "FIFO" none 1024)
        [Op.set "k1" [1] 0 0, Op.set "k2" [2] 0 1]).Set "k1" [3] 0 2).2.evictionList.keys =
      ((FIFOList.mk [⟨"k1", ⟨"k1", [1], 1, none, 0, 0, 0, false⟩, 0⟩,
        ⟨"k2", ⟨"k2", [2], 1, none, 1, 1, 0, false⟩, 1⟩]).nodes.map
          FIFONode.Key).erase "k1" ++ ["k1"] ∧
    (∀ item2, ((FIFOList.mk [⟨"k1", ⟨"k1", [1], 1, none, 0, 0, 0, false⟩, 0⟩,
        ⟨"k2", ⟨"k2", [2], 1, none, 1, 1, 0, false⟩, 1⟩]).Update "k1" item2).nodes.map
          FIFONode.Key =
      ((FIFOList.mk [⟨"k1", ⟨"k1", [1], 1, none, 0, 0, 0, false⟩, 0⟩,
        ⟨"k2", ⟨"k2", [2], 1, none, 1, 1, 0, false⟩, 1⟩]).nodes.map FIFONode.Key)) ∧
    (∀ n rest, (FIFOList.mk [⟨"k1", ⟨"k1", [1], 1, none, 0, 0, 0, false⟩, 0⟩,
        ⟨"k2", ⟨"k2", [2], 1, none, 1, 1, 0, false⟩, 1⟩]).nodes = n :: rest →
      (FIFOList.mk [⟨"k1", ⟨"k1", [1], 1, none, 0, 0, 0, false⟩, 0⟩,
        ⟨"k2", ⟨"k2", [2], 1, none, 1, 1, 0, false⟩, 1⟩]).RemoveLeast = (n.Key, ⟨rest⟩)) ∧
    (∀ item2 now2 node,
      findKeyed FIFONode.Key (FIFOList.mk [⟨"k1", ⟨"k1", [1], 1, none, 0, 0, 0, false⟩, 0⟩,
        ⟨"k2", ⟨"k2", [2], 1, none, 1, 1, 0, false⟩, 1⟩]).nodes "k1" = some node →
      ((FIFOList.mk [⟨"k1", ⟨"k1", [1], 1, none, 0, 0, 0, false⟩, 0⟩,
        ⟨"k2", ⟨"k2", [2], 1, none, 1, 1, 0, false⟩, 1⟩]).Add "k1" item2 now2).nodes.map
          FIFONode.Key =
      ((FIFOList.mk [⟨"k1", ⟨"k1", [1], 1, none, 0, 0, 0, false⟩, 0⟩,
        ⟨"k2", ⟨"k2", [2], 1, none, 1, 1, 0, false⟩, 1⟩]).nodes.map FIFONode.Key)) :=
  fifo_overwrite_moves_to_tail
    (runOps (NewCacheShard 0 "FIFO" none 1024) [Op.set "k1" [1] 0 0, Op.set "k2" [2] 0 1])
    (FIFOList.mk [⟨"k1", ⟨"k1", [1], 1, none, 0, 0, 0, false⟩, 0⟩,
      ⟨"k2", ⟨"k2", [2], 1, none, 1, 1, 0, false⟩, 1⟩])
    "k1" [3] 0 2 ⟨"k1", [1], 1, none, 0, 0, 0, false⟩
    (by decide) (by decide) (by decide) (by decide)

/-! ## Claim C6: TTL expiry -/

/-- Counterexample to C6 as stated: after `Set("k", [7], ttl = 5)` at time 0,
a `Get` at time 10 returns KeyNotFound and records a miss, and the expired
entry is removed — but the removal goes through `Delete`, which does not
touch the `Evictions` counter: it stays 0, so it never becomes ≥ the number
of observed expirations. -/
theorem ttl_expiry_counterexample :
    (((NewCacheShard 1000 "LRU" none 1024).Set "k" [7] 5 0).2.Get "k" 10).1 =
      Except.error CacheError.keyNotFound ∧
    (((NewCacheShard 1000 "LRU" none 1024).Set "k" [7] 5 0).2.Get "k" 10).2.Misses = 1 ∧
    assocFind (((NewCacheShard 1000 "LRU" none 1024).Set "k" [7] 5 0).2.Get "k" 10).2.data
      "k" = none ∧
    (((NewCacheShard 1000 "LRU" none 1024).Set "k" [7] 5 0).2.Get "k" 10).2.Evictions
      = 0 := by
  refine ⟨rfl, by decide, by decide, by decide⟩

/-- C6 (amended): for ttl > 0, a `Get(k)` performed more than `ttl` after a
successful `Set(k, v, ttl)` (with no later `Set` on `k`) returns KeyNotFound
and records a miss; the expired entry is removed by the scheduled `Delete`,
which leaves the shard's `evictions` counter unchanged (that counter only
counts memory-pressure evictions). -/
theorem ttl_expiry (s : CacheShard) (key : String) (value : Bytes)
    (ttl now0 : Nat) (ops : List Op) (now1 : Nat)
    (hn : DataNodup s)
    (httl : 0 < ttl)
    (hops : ops.all (Op.noSetTo key) = true)
    (hnow : now0 + ttl < now1) :
    ((runOps (s.Set key value ttl now0).2 ops).Get key now1).1 =
      Except.error CacheError.keyNotFound ∧
    ((runOps (s.Set key value ttl now0).2 ops).Get key now1).2.Misses =
      (runOps (s.Set key value ttl now0).2 ops).Misses + 1 ∧
    ((runOps (s.Set key value ttl now0).2 ops).Get key now1).2.Evictions =
      (runOps (s.Set key value ttl now0).2 ops).Evictions := by
  have hset : ∀ it, assocFind (s.Set key value ttl now0).2.data key = some it →
      it.ExpireAt = some (now0 + ttl) := by
    intro it hit
    unfold CacheShard.Set CacheShard.evictIfNeeded at hit
    dsimp only at hit
    split at hit
    · have h3 := evictLoop_find_sub hit (nodup_assocSet hn key _)
      rw [assocFind_assocSet_self] at h3
      rw [← Option.some_inj.1 h3]
      simp [httl]
    · have h3 := evictLoop_find_sub hit (nodup_assocSet hn key _)
      rw [assocFind_assocSet_self] at h3
      rw [← Option.some_inj.1 h3]
      simp [httl]
  have hnd1 : DataNodup (s.Set key value ttl now0).2 := DataNodup_Set hn key value ttl now0
  have hQ := key_invariant_runOps (fun it => it.ExpireAt = some (now0 + ttl))
    (fun it n2 h => h) hnd1 hset ops hops
  cases hfind : assocFind (runOps (s.Set key value ttl now0).2 ops).data key with
  | none =>
    unfold CacheShard.Get
    rw [hfind]
    exact ⟨rfl, rfl, rfl⟩
  | some it =>
    have hE := hQ it hfind
    unfold CacheShard.Get
    rw [hfind]
    dsimp only
    rw [hE]
    dsimp only
    rw [if_pos (by omega : now1 > now0 + ttl)]
    refine ⟨rfl, ?_, ?_⟩
    · dsimp only
      rw [(Delete_stats _ key).1]
    · dsimp only
      exact (Delete_stats _ key).2

/-- Witness for C6 (amended): the concrete expired read. -/
theorem ttl_expiry_witness :
    ((runOps ((NewCacheShard 1000 "LRU" none 1024).Set "k" [7] 5 0).2 []).Get "k" 10).1 =
      Except.error CacheError.keyNotFound ∧
    ((runOps ((NewCacheShard 1000 "LRU" none 1024).Set "k" [7] 5 0).2 []).Get "k" 10).2.Misses =
      (runOps ((NewCacheShard 1000 "LRU" none 1024).Set "k" [7] 5 0).2 []).Misses + 1 ∧
    ((runOps ((NewCacheShard 1000 "LRU" none 1024).Set "k" [7] 5 0).2 []).Get "k" 10).2.Evictions =
      (runOps ((NewCacheShard 1000 "LRU" none 1024).Set "k" [7] 5 0).2 []).Evictions :=
  ttl_expiry (NewCacheShard 1000 "LRU" none 1024) "k" [7] 5 0 [] 10
    (by decide) (by decide) rfl (by decide)

/-! ## Claim C1: the round trip -/

/-- C1: for every non-empty key and every byte sequence `v` (on either side
of the compression threshold — `v` is arbitrary and the statement covers
both the compressed and the uncompressed storage path), after `Set(k, v, 0)`
succeeds, a subsequent `Get(k)` — with no intervening `Set(k, ·)`,
`Delete(k)` or `Clear`, and with `k` not evicted (it is still stored when
the `Get` runs) — returns exactly `v` byte for byte, decompressing when the
stored payload was compressed, and no error. The compressor is assumed to
invert its own compression, which is the contract the concrete compressors
satisfy. -/
theorem set_get_roundtrip (s : CacheShard) (key : String) (v : Bytes)
    (now0 : Nat) (ops : List Op) (now1 : Nat)
    (hkey : key ≠ "")
    (hn : DataNodup s)
    (hrt : ∀ comp, s.compressor = some comp →
      ∀ w out, comp.compress w = some out → comp.decompress out = some w)
    (hops : ops.all (Op.avoids key) = true)
    (hpresent : assocFind (runOps (s.Set key v 0 now0).2 ops).data key ≠ none) :
    ((runOps (s.Set key v 0 now0).2 ops).Get key now1).1 = Except.ok v := by
  have hGood : ∀ it, assocFind (s.Set key v 0 now0).2.data key = some it →
      (it.ExpireAt = none ∧
       (it.Compressed = false → it.Value = v) ∧
       (it.Compressed = true → ∃ comp, s.compressor = some comp ∧
          comp.decompress it.Value = some v)) := by
    intro it hit
    unfold CacheShard.Set CacheShard.evictIfNeeded at hit
    dsimp only at hit
    split at hit
    all_goals
      have h3 := evictLoop_find_sub hit (nodup_assocSet hn key _)
      rw [assocFind_assocSet_self] at h3
      rw [← Option.some_inj.1 h3]
      rcases compressDecision_spec s.compressor s.compressSize v with hcd |
        ⟨comp, out, hc, hco, hlen, hcd⟩
      · rw [hcd]
        exact ⟨rfl, fun _ => rfl, fun hcontra => by simp at hcontra⟩
      · rw [hcd]
        exact ⟨rfl, fun hcontra => by simp at hcontra,
          fun _ => ⟨comp, hc, hrt comp hc v out hco⟩⟩
  have hnd1 : DataNodup (s.Set key v 0 now0).2 := DataNodup_Set hn key v 0 now0
  have hops2 : ops.all (Op.noSetTo key) = true := by
    rw [List.all_eq_true] at hops ⊢
    intro x hx
    have hx2 := hops x hx
    cases x <;> simpa [Op.avoids, Op.noSetTo] using hx2
  have hQ := key_invariant_runOps
    (fun it => it.ExpireAt = none ∧
      (it.Compressed = false → it.Value = v) ∧
      (it.Compressed = true → ∃ comp, s.compressor = some comp ∧
        comp.decompress it.Value = some v))
    (fun it n2 h => h) hnd1 hGood ops hops2
  cases hfind : assocFind (runOps (s.Set key v 0 now0).2 ops).data key with
  | none => exact absurd hfind hpresent
  | some it =>
    obtain ⟨hE, hV, hC⟩ := hQ it hfind
    have hcfg : (runOps (s.Set key v 0 now0).2 ops).compressor = s.compressor := by
      rw [runOps_compressor, Set_compressor]
    unfold CacheShard.Get
    rw [hfind]
    dsimp only
    rw [hE]
    unfold CacheShard.Get.getHit
    dsimp only
    cases hcomp : it.Compressed with
    | false =>
      rw [if_neg (by simp [hcomp])]
      rw [hV hcomp]
    | true =>
      obtain ⟨comp, hc, hd⟩ := hC hcomp
      rw [if_pos (by simp [hcomp])]
      rw [hcfg, hc]
      dsimp only
      rw [hd]

/-- Witness for C1: a concrete round trip through a compressing compressor
(a toy run-length style compressor that is its own inverse on this input)
for a value above the threshold, after an unrelated interleaved operation. -/
theorem set_get_roundtrip_witness :
    ((runOps ((NewCacheShard 1000 "LRU"
        (some ⟨fun w => if w = [1, 1, 1, 1] then some [9] else none,
               fun w => if w = [9] then some [1, 1, 1, 1] else none⟩) 2).Set
        "k" [1, 1, 1, 1] 0 0).2 [Op.get "other" 1]).Get "k" 2).1 =
      Except.ok [1, 1, 1, 1] :=
  set_get_roundtrip (NewCacheShard 1000 "LRU"
      (some ⟨fun w => if w = [1, 1, 1, 1] then some [9] else none,
             fun w => if w = [9] then some [1, 1, 1, 1] else none⟩) 2)
    "k" [1, 1, 1, 1] 0 [Op.get "other" 1] 2
    (by decide) (by decide)
    (by intro comp hcomp w out hco
        injection hcomp with hcomp2
        subst hcomp2
        by_cases hw : w = [1, 1, 1, 1]
        · subst hw
          simp at hco
          subst hco
          rfl
        · simp only [if_neg hw] at hco
          cases hco)
    rfl (by decide)

/-! ## LFU support lemmas -/

theorem findKeyed_eq_some {α : Type} {keyOf : α → String} {l : List α} {k : String}
    {x : α} (h : findKeyed keyOf l k = some x) : x ∈ l ∧ keyOf x = k := by
  induction l with
  | nil => simp [findKeyed] at h
  | cons y rest ih =>
    by_cases hy : keyOf y = k
    · simp only [findKeyed, if_pos hy] at h
      injection h with h2
      subst h2
      exact ⟨List.mem_cons_self _ rest, hy⟩
    · simp only [findKeyed, if_neg hy] at h
      obtain ⟨h1, h2⟩ := ih h
      exact ⟨List.mem_cons_of_mem y h1, h2⟩

theorem findKeyed_of_mem {α : Type} {keyOf : α → String} {l : List α} {k : String}
    (h : k ∈ l.map keyOf) : ∃ x, findKeyed keyOf l k = some x := by
  induction l with
  | nil => simp at h
  | cons y rest ih =>
    by_cases hy : keyOf y = k
    · exact ⟨y, by simp [findKeyed, hy]⟩
    · simp only [List.map_cons, List.mem_cons] at h
      rcases h with h | h
      · exact absurd h.symm hy
      · obtain ⟨x, hx⟩ := ih h
        exact ⟨x, by simp [findKeyed, hy, hx]⟩

theorem eraseKeyed_subset {α : Type} {keyOf : α → String} {l : List α} {k : String}
    {x : α} (h : x ∈ eraseKeyed keyOf l k) : x ∈ l := by
  induction l with
  | nil => simpa [eraseKeyed] using h
  | cons y rest ih =>
    by_cases hy : keyOf y = k
    · simp only [eraseKeyed, if_pos hy] at h
      exact List.mem_cons_of_mem y h
    · simp only [eraseKeyed, if_neg hy, List.mem_cons] at h
      rcases h with h | h
      · exact h ▸ List.mem_cons_self y rest
      · exact List.mem_cons_of_mem y (ih h)

theorem mem_eraseKeyed_of_ne {α : Type} {keyOf : α → String} {l : List α} {k : String}
    {x : α} (hx : x ∈ l) (hne : keyOf x ≠ k) : x ∈ eraseKeyed keyOf l k := by
  induction l with
  | nil => simp at hx
  | cons y rest ih =>
    by_cases hy : keyOf y = k
    · simp only [eraseKeyed, if_pos hy]
      rcases List.mem_cons.1 hx with h | h
      · exact absurd (h ▸ hy) hne
      · exact h
    · simp only [eraseKeyed, if_neg hy, List.mem_cons]
      rcases List.mem_cons.1 hx with h | h
      · exact Or.inl h
      · exact Or.inr (ih h)

theorem mem_modifyKeyed_of_ne {α : Type} {keyOf : α → String} {f : α → α}
    {l : List α} {k : String} {x : α} (hx : x ∈ l) (hne : keyOf x ≠ k) :
    x ∈ modifyKeyed keyOf f l k := by
  induction l with
  | nil => simp at hx
  | cons y rest ih =>
    by_cases hy : keyOf y = k
    · simp only [modifyKeyed, if_pos hy, List.mem_cons]
      rcases List.mem_cons.1 hx with h | h
      · exact absurd (h ▸ hy) hne
      · exact Or.inr h
    · simp only [modifyKeyed, if_neg hy, List.mem_cons]
      rcases List.mem_cons.1 hx with h | h
      · exact Or.inl h
      · exact Or.inr (ih h)

theorem mem_modifyKeyed_self {α : Type} {keyOf : α → String} {f : α → α}
    {l : List α} {k : String} {x : α} (h : findKeyed keyOf l k = some x) :
    f x ∈ modifyKeyed keyOf f l k := by
  induction l with
  | nil => simp [findKeyed] at h
  | cons y rest ih =>
    by_cases hy : keyOf y = k
    · simp only [findKeyed, if_pos hy] at h
      cases h
      simp [modifyKeyed, hy]
    · simp only [findKeyed, if_neg hy] at h
      simp only [modifyKeyed, if_neg hy, List.mem_cons]
      exact Or.inr (ih h)

theorem mem_modifyKeyed {α : Type} {keyOf : α → String} {f : α → α}
    {l : List α} {k : String} {y : α} (h : y ∈ modifyKeyed keyOf f l k) :
    y ∈ l ∨ ∃ x, findKeyed keyOf l k = some x ∧ y = f x := by
  induction l with
  | nil => simpa [modifyKeyed] using h
  | cons z rest ih =>
    by_cases hz : keyOf z = k
    · simp only [modifyKeyed, if_pos hz, List.mem_cons] at h
      rcases h with h | h
      · exact Or.inr ⟨z, by simp [findKeyed, hz], h⟩
      · exact Or.inl (List.mem_cons_of_mem z h)
    · simp only [modifyKeyed, if_neg hz, List.mem_cons] at h
      rcases h with h | h
      · exact Or.inl (h ▸ List.mem_cons_self z rest)
      · rcases ih h with h2 | ⟨x, hx1, hx2⟩
        · exact Or.inl (List.mem_cons_of_mem z h2)
        · exact Or.inr ⟨x, by simp [findKeyed, hz, hx1], hx2⟩

theorem assocFind_mem {α β : Type} [DecidableEq α] {l : List (α × β)} {k : α} {v : β}
    (h : assocFind l k = some v) : (k, v) ∈ l := by
  induction l with
  | nil => simp [assocFind] at h
  | cons p rest ih =>
    obtain ⟨a, b⟩ := p
    by_cases ha : a = k
    · subst ha
      simp only [assocFind, if_pos rfl] at h
      cases h
      exact List.mem_cons_self _ rest
    · simp only [assocFind, if_neg ha] at h
      exact List.mem_cons_of_mem _ (ih h)

theorem assocFind_of_mem_nodup {α β : Type} [DecidableEq α] {l : List (α × β)}
    (hn : (l.map Prod.fst).Nodup) {k : α} {v : β} (h : (k, v) ∈ l) :
    assocFind l k = some v := by
  induction l with
  | nil => simp at h
  | cons p rest ih =>
    obtain ⟨a, b⟩ := p
    simp only [List.map_cons, List.nodup_cons] at hn
    rcases List.mem_cons.1 h with h1 | h1
    · cases h1
      simp [assocFind]
    · by_cases ha : a = k
      · subst ha
        exact absurd (List.mem_map_of_mem Prod.fst h1) hn.1
      · simp only [assocFind, if_neg ha]
        exact ih hn.2 h1

theorem mem_assocSet {α β : Type} [DecidableEq α] {l : List (α × β)} {k : α} {v : β}
    {fb : α × β} (h : fb ∈ assocSet l k v) : fb = (k, v) ∨ fb ∈ l := by
  induction l with
  | nil => simpa [assocSet] using h
  | cons p rest ih =>
    obtain ⟨a, b⟩ := p
    by_cases ha : a = k
    · subst ha
      simp only [assocSet, eq_self_iff_true, if_true, List.mem_cons] at h
      rcases h with h | h
      · exact Or.inl h
      · exact Or.inr (List.mem_cons_of_mem _ h)
    · simp only [assocSet, if_neg ha, List.mem_cons] at h
      rcases h with h | h
      · exact Or.inr (h ▸ List.mem_cons_self _ rest)
      · rcases ih h with h2 | h2
        · exact Or.inl h2
        · exact Or.inr (List.mem_cons_of_mem _ h2)

theorem mem_assocSet_of_ne {α β : Type} [DecidableEq α] {l : List (α × β)} {k : α}
    {v : β} {fb : α × β} (h : fb ∈ l) (hne : fb.1 ≠ k) : fb ∈ assocSet l k v := by
  induction l with
  | nil => simp at h
  | cons p rest ih =>
    obtain ⟨a, b⟩ := p
    by_cases ha : a = k
    · subst ha
      simp only [assocSet, eq_self_iff_true, if_true, List.mem_cons]
      rcases List.mem_cons.1 h with h1 | h1
      · exact absurd (congrArg Prod.fst h1) hne
      · exact Or.inr h1
    · simp only [assocSet, if_neg ha, List.mem_cons]
      rcases List.mem_cons.1 h with h1 | h1
      · exact Or.inl h1
      · exact Or.inr (ih h1)

theorem assocFind_append_single_self {α β : Type} [DecidableEq α]
    {l : List (α × β)} {k : α} (h : assocFind l k = none) (v : β) :
    assocFind (l ++ [(k, v)]) k = some v := by
  induction l with
  | nil => simp [assocFind]
  | cons p rest ih =>
    obtain ⟨a, b⟩ := p
    by_cases ha : a = k
    · subst ha
      simp [assocFind] at h
    · simp only [assocFind, if_neg ha] at h
      simpa [assocFind, ha] using ih h

theorem assocFind_append_single_other {α β : Type} [DecidableEq α]
    {l : List (α × β)} {k k2 : α} (hne : k2 ≠ k) (v : β) :
    assocFind (l ++ [(k, v)]) k2 = assocFind l k2 := by
  have hkk : ¬k = k2 := fun hh => hne hh.symm
  induction l with
  | nil => simp [assocFind, hkk]
  | cons p rest ih =>
    obtain ⟨a, b⟩ := p
    by_cases ha : a = k2 <;> simp [assocFind, ha, ih]

/-! ### `updateMinFreq` -/

theorem updateMinFreq_nodes (l : LFUList) : l.updateMinFreq.nodes = l.nodes := by
  unfold LFUList.updateMinFreq
  split <;> rfl

theorem updateMinFreq_frequencies (l : LFUList) :
    l.updateMinFreq.frequencies = l.frequencies := by
  unfold LFUList.updateMinFreq
  split <;> rfl

theorem updateMinFreq_of_nonempty {l : LFUList}
    (h : l.isEmptyBucket l.minFreq = false) : l.updateMinFreq = l := by
  unfold LFUList.updateMinFreq
  simp [h]

theorem isEmptyBucket_false_iff (l : LFUList) (f : Nat) :
    l.isEmptyBucket f = false ↔
      ∃ b, assocFind l.frequencies f = some b ∧ b ≠ [] := by
  unfold LFUList.isEmptyBucket
  cases hf : assocFind l.frequencies f with
  | none => simp
  | some b =>
    simp only [Option.some.injEq, decide_eq_false_iff_not]
    constructor
    · intro h
      exact ⟨b, rfl, fun hb => h (by simp [hb])⟩
    · rintro ⟨b2, rfl, hb⟩
      simp [List.length_eq_zero, hb]

theorem minScan_ge_two {L : List (Nat × List String)}
    (hall : ∀ fb ∈ L, fb.2 ≠ [] → 2 ≤ fb.1) :
    ∀ acc, 2 ≤ acc →
      2 ≤ L.foldl minScanStep acc ∧
      L.foldl minScanStep acc ≤ acc ∧
      (L.foldl minScanStep acc = acc ∨
        ∃ fb ∈ L, fb.2 ≠ [] ∧ fb.1 = L.foldl minScanStep acc) ∧
      (∀ fb ∈ L, fb.2 ≠ [] → L.foldl minScanStep acc ≤ fb.1) := by
  induction L with
  | nil => exact fun acc hacc => ⟨hacc, le_refl acc, Or.inl rfl, by simp⟩
  | cons fb rest ih =>
    intro acc hacc
    have hall2 : ∀ fb2 ∈ rest, fb2.2 ≠ [] → 2 ≤ fb2.1 := fun fb2 h2 =>
      hall fb2 (List.mem_cons_of_mem fb h2)
    rw [List.foldl_cons]
    by_cases hne : fb.2.length > 0
    · have hfb2 : fb.2 ≠ [] := by
        intro hv
        rw [hv] at hne
        simp at hne
      have hfb1 : 2 ≤ fb.1 := hall fb (List.mem_cons_self fb rest) hfb2
      have hstep : minScanStep acc fb = if fb.1 < acc ∨ acc = 1 then fb.1 else acc := by
        simp [minScanStep, hne]
      by_cases hc : fb.1 < acc ∨ acc = 1
      · rw [hstep, if_pos hc] at *
        obtain ⟨g1, g2, g3, g4⟩ := ih hall2 fb.1 hfb1
        have hle : fb.1 ≤ acc := by omega
        refine ⟨g1, le_trans g2 hle, ?_, ?_⟩
        · rcases g3 with g3 | ⟨fc, hfc1, hfc2, hfc3⟩
          · exact Or.inr ⟨fb, List.mem_cons_self fb rest, hfb2, g3.symm⟩
          · exact Or.inr ⟨fc, List.mem_cons_of_mem fb hfc1, hfc2, hfc3⟩
        · intro fc hfc hfc2
          rcases List.mem_cons.1 hfc with h1 | h1
          · rw [h1]
            exact g2
          · exact g4 fc h1 hfc2
      · rw [hstep, if_neg hc] at *
        obtain ⟨g1, g2, g3, g4⟩ := ih hall2 acc hacc
        refine ⟨g1, g2, ?_, ?_⟩
        · rcases g3 with g3 | ⟨fc, hfc1, hfc2, hfc3⟩
          · exact Or.inl g3
          · exact Or.inr ⟨fc, List.mem_cons_of_mem fb hfc1, hfc2, hfc3⟩
        · intro fc hfc hfc2
          rcases List.mem_cons.1 hfc with h1 | h1
          · rw [h1]
            push_neg at hc
            omega
          · exact g4 fc h1 hfc2
    · have hstep : minScanStep acc fb = acc := by simp [minScanStep, hne]
      rw [hstep]
      obtain ⟨g1, g2, g3, g4⟩ := ih hall2 acc hacc
      refine ⟨g1, g2, ?_, ?_⟩
      · rcases g3 with g3 | ⟨fc, hfc1, hfc2, hfc3⟩
        · exact Or.inl g3
        · exact Or.inr ⟨fc, List.mem_cons_of_mem fb hfc1, hfc2, hfc3⟩
      · intro fc hfc hfc2
        rcases List.mem_cons.1 hfc with h1 | h1
        · subst h1
          have : fc.2.length > 0 := by
            cases hv : fc.2 with
            | nil => exact absurd hv hfc2
            | cons a as => simp [hv]
          exact absurd this hne
        · exact g4 fc h1 hfc2

theorem minScan_from_one {L : List (Nat × List String)}
    (hall : ∀ fb ∈ L, fb.2 ≠ [] → 2 ≤ fb.1) :
    (∀ fb ∈ L, fb.2 ≠ [] → L.foldl minScanStep 1 ≤ fb.1) ∧
    1 ≤ L.foldl minScanStep 1 ∧
    ((∃ fb ∈ L, fb.2 ≠ [] ∧ fb.1 = L.foldl minScanStep 1) ∨
      (∀ fb ∈ L, fb.2 = [])) := by
  induction L with
  | nil => exact ⟨by simp, le_refl 1, Or.inr (by simp)⟩
  | cons fb rest ih =>
    have hall2 : ∀ fb2 ∈ rest, fb2.2 ≠ [] → 2 ≤ fb2.1 := fun fb2 h2 =>
      hall fb2 (List.mem_cons_of_mem fb h2)
    rw [List.foldl_cons]
    by_cases hne : fb.2.length > 0
    · have hfb2 : fb.2 ≠ [] := by
        intro hv
        rw [hv] at hne
        simp at hne
      have hfb1 : 2 ≤ fb.1 := hall fb (List.mem_cons_self fb rest) hfb2
      have hstep : minScanStep 1 fb = fb.1 := by
        simp [minScanStep, hne]
      rw [hstep]
      obtain ⟨g1, g2, g3, g4⟩ := minScan_ge_two hall2 fb.1 hfb1
      refine ⟨?_, by omega, ?_⟩
      · intro fc hfc hfc2
        rcases List.mem_cons.1 hfc with h1 | h1
        · rw [h1]
          exact g2
        · exact g4 fc h1 hfc2
      · rcases g3 with g3 | ⟨fc, hfc1, hfc2, hfc3⟩
        · exact Or.inl ⟨fb, List.mem_cons_self fb rest, hfb2, g3.symm⟩
        · exact Or.inl ⟨fc, List.mem_cons_of_mem fb hfc1, hfc2, hfc3⟩
    · have hstep : minScanStep 1 fb = 1 := by simp [minScanStep, hne]
      rw [hstep]
      obtain ⟨g1, g2, g3⟩ := ih hall2
      have hfbe : fb.2 = [] := by
        cases hv : fb.2 with
        | nil => rfl
        | cons a as =>
          rw [hv] at hne
          simp at hne
      refine ⟨?_, g2, ?_⟩
      · intro fc hfc hfc2
        rcases List.mem_cons.1 hfc with h1 | h1
        · exact absurd (h1 ▸ hfbe) hfc2
        · exact g1 fc h1 hfc2
      · rcases g3 with ⟨fc, hfc1, hfc2, hfc3⟩ | g3
        · exact Or.inl ⟨fc, List.mem_cons_of_mem fb hfc1, hfc2, hfc3⟩
        · exact Or.inr fun fc hfc => by
            rcases List.mem_cons.1 hfc with h1 | h1
            · exact h1 ▸ hfbe
            · exact g3 fc h1

theorem mem_modifyKeyed_nodup {α : Type} {keyOf : α → String} {f : α → α}
    {l : List α} {k : String} (hn : (l.map keyOf).Nodup) {y : α}
    (h : y ∈ modifyKeyed keyOf f l k) :
    (y ∈ l ∧ keyOf y ≠ k) ∨ ∃ x, findKeyed keyOf l k = some x ∧ y = f x := by
  induction l with
  | nil => simpa [modifyKeyed] using h
  | cons z rest ih =>
    simp only [List.map_cons, List.nodup_cons] at hn
    by_cases hz : keyOf z = k
    · simp only [modifyKeyed, if_pos hz, List.mem_cons] at h
      rcases h with h | h
      · exact Or.inr ⟨z, by simp [findKeyed, hz], h⟩
      · refine Or.inl ⟨List.mem_cons_of_mem z h, ?_⟩
        intro hk
        exact hn.1 (hz ▸ hk ▸ List.mem_map_of_mem keyOf h)
    · simp only [modifyKeyed, if_neg hz, List.mem_cons] at h
      rcases h with h | h
      · exact Or.inl ⟨h ▸ List.mem_cons_self z rest, h ▸ hz⟩
      · rcases ih hn.2 h with ⟨h1, h2⟩ | ⟨x, hx1, hx2⟩
        · exact Or.inl ⟨List.mem_cons_of_mem z h1, h2⟩
        · exact Or.inr ⟨x, by simp [findKeyed, hz, hx1], hx2⟩

theorem mem_eraseKeyed_nodup {α : Type} {keyOf : α → String} {l : List α}
    {k : String} (hn : (l.map keyOf).Nodup) {y : α}
    (h : y ∈ eraseKeyed keyOf l k) : y ∈ l ∧ keyOf y ≠ k := by
  refine ⟨eraseKeyed_subset h, ?_⟩
  intro hk
  have hmem : keyOf y ∈ (eraseKeyed keyOf l k).map keyOf := List.mem_map_of_mem keyOf h
  rw [map_key_eraseKeyed, hk] at hmem
  exact (List.Nodup.mem_erase_iff hn).1 hmem |>.1 rfl

theorem eraseKeyed_of_not_mem {α : Type} {keyOf : α → String} {l : List α}
    {k : String} (h : k ∉ l.map keyOf) : eraseKeyed keyOf l k = l := by
  induction l with
  | nil => rfl
  | cons y rest ih =>
    simp only [List.map_cons, List.mem_cons] at h
    push_neg at h
    obtain ⟨h1, h2⟩ := h
    have hy : ¬keyOf y = k := fun hh => h1 hh.symm
    simp only [eraseKeyed, if_neg hy]
    rw [ih h2]

theorem findKeyed_unique {α : Type} {keyOf : α → String} {l : List α} {k : String}
    (hn : (l.map keyOf).Nodup) {y : α} (hy : y ∈ l) (hk : keyOf y = k) :
    findKeyed keyOf l k = some y := by
  induction l with
  | nil => simp at hy
  | cons z rest ih =>
    simp only [List.map_cons, List.nodup_cons] at hn
    rcases List.mem_cons.1 hy with h | h
    · subst h
      simp [findKeyed, hk]
    · by_cases hz : keyOf z = k
      · exact absurd (hz ▸ hk ▸ List.mem_map_of_mem keyOf h) hn.1
      · simp only [findKeyed, if_neg hz]
        exact ih hn.2 h

theorem addToFrequency_find (l : LFUList) (key : String) (f : Nat) (f2 : Nat) :
    assocFind (l.addToFrequency key f).frequencies f2 =
      if f2 = f then some (((assocFind l.frequencies f).getD []) ++ [key])
      else assocFind l.frequencies f2 := by
  unfold LFUList.addToFrequency
  cases hb : assocFind l.frequencies f with
  | none =>
    simp only
    by_cases h2 : f2 = f
    · subst h2
      rw [if_pos rfl, assocFind_append_single_self hb]
      simp
    · rw [if_neg h2, assocFind_append_single_other h2]
  | some b =>
    simp only
    by_cases h2 : f2 = f
    · subst h2
      rw [if_pos rfl, assocFind_assocSet_self]
      simp
    · rw [if_neg h2, assocFind_assocSet_other _ h2]

theorem addToFrequency_nodes (l : LFUList) (key : String) (f : Nat) :
    (l.addToFrequency key f).nodes = l.nodes := by
  unfold LFUList.addToFrequency
  cases assocFind l.frequencies f <;> rfl

theorem addToFrequency_minFreq (l : LFUList) (key : String) (f : Nat) :
    (l.addToFrequency key f).minFreq = l.minFreq := by
  unfold LFUList.addToFrequency
  cases assocFind l.frequencies f <;> rfl

theorem addToFrequency_freqNodup {l : LFUList}
    (hn : (l.frequencies.map Prod.fst).Nodup) (key : String) (f : Nat) :
    ((l.addToFrequency key f).frequencies.map Prod.fst).Nodup := by
  unfold LFUList.addToFrequency
  cases hb : assocFind l.frequencies f with
  | none =>
    simp only [List.map_append, List.map_cons, List.map_nil]
    rw [List.nodup_append]
    refine ⟨hn, List.nodup_singleton f, ?_⟩
    intro a ha hb2
    simp only [List.mem_singleton] at hb2
    subst hb2
    exact ((assocFind_eq_none_iff l.frequencies a).1 hb) ha
  | some b =>
    simp only
    rwa [map_fst_assocSet_of_found hb]

theorem removeFromFrequency_find (l : LFUList) (key : String) (f : Nat) (f2 : Nat) :
    assocFind (l.removeFromFrequency key f).frequencies f2 =
      if f2 = f then (assocFind l.frequencies f).map (fun b => b.erase key)
      else assocFind l.frequencies f2 := by
  unfold LFUList.removeFromFrequency
  cases hb : assocFind l.frequencies f with
  | none =>
    simp only
    by_cases h2 : f2 = f
    · subst h2
      simp [hb]
    · rw [if_neg h2]
  | some b =>
    simp only
    by_cases h2 : f2 = f
    · subst h2
      rw [if_pos rfl, assocFind_assocSet_self]
      rfl
    · rw [if_neg h2, assocFind_assocSet_other _ h2]

theorem removeFromFrequency_nodes (l : LFUList) (key : String) (f : Nat) :
    (l.removeFromFrequency key f).nodes = l.nodes := by
  unfold LFUList.removeFromFrequency
  cases assocFind l.frequencies f <;> rfl

theorem removeFromFrequency_minFreq (l : LFUList) (key : String) (f : Nat) :
    (l.removeFromFrequency key f).minFreq = l.minFreq := by
  unfold LFUList.removeFromFrequency
  cases assocFind l.frequencies f <;> rfl

theorem removeFromFrequency_freqNodup {l : LFUList}
    (hn : (l.frequencies.map Prod.fst).Nodup) (key : String) (f : Nat) :
    ((l.removeFromFrequency key f).frequencies.map Prod.fst).Nodup := by
  unfold LFUList.removeFromFrequency
  cases hb : assocFind l.frequencies f with
  | none => exact hn
  | some b =>
    simp only
    rwa [map_fst_assocSet_of_found hb]

theorem updateMinFreq_min {l : LFUList} (hemp : l.isEmptyBucket l.minFreq = true)
    (hall : ∀ fb ∈ l.frequencies, fb.2 ≠ [] → 2 ≤ fb.1) :
    (∀ fb ∈ l.frequencies, fb.2 ≠ [] → l.updateMinFreq.minFreq ≤ fb.1) ∧
    1 ≤ l.updateMinFreq.minFreq ∧
    ((∃ fb ∈ l.frequencies, fb.2 ≠ [] ∧ fb.1 = l.updateMinFreq.minFreq) ∨
      (∀ fb ∈ l.frequencies, fb.2 = [])) := by
  unfold LFUList.updateMinFreq
  rw [if_pos hemp]
  exact minScan_from_one hall

/-- At any point where the bucket at `minFreq` is empty while the structural
fields hold, every non-empty bucket has frequency at least 2 — the
precondition under which the Go re-scan loop computes a true minimum. -/
theorem hall_of_wf {l : LFUList}
    (hfreqNodup : (l.frequencies.map Prod.fst).Nodup)
    (hbucketFreq : ∀ f b, assocFind l.frequencies f = some b → ∀ k ∈ b,
      ∃ n ∈ l.nodes, n.Key = k ∧ n.Frequency = f)
    (hfreqPos : ∀ n ∈ l.nodes, 1 ≤ n.Frequency)
    (hminLe : ∀ n ∈ l.nodes, l.minFreq ≤ n.Frequency)
    (hminPos : 1 ≤ l.minFreq)
    (hemp : l.isEmptyBucket l.minFreq = true) :
    ∀ fb ∈ l.frequencies, fb.2 ≠ [] → 2 ≤ fb.1 := by
  intro fb hfb hne
  have hfind : assocFind l.frequencies fb.1 = some fb.2 :=
    assocFind_of_mem_nodup hfreqNodup (by simpa using hfb)
  obtain ⟨k, hk⟩ := List.exists_mem_of_ne_nil fb.2 hne
  obtain ⟨n, hn, hnk, hnf⟩ := hbucketFreq fb.1 fb.2 hfind k hk
  have h1 : 1 ≤ fb.1 := hnf ▸ hfreqPos n hn
  by_contra hlt
  push_neg at hlt
  have hf1 : fb.1 = 1 := by omega
  have hle := hminLe n hn
  rw [hnf, hf1] at hle
  have hm1 : l.minFreq = 1 := by omega
  have hemp2 := hemp
  unfold LFUList.isEmptyBucket at hemp2
  rw [hm1, ← hf1, hfind] at hemp2
  simp only [decide_eq_true_eq, List.length_eq_zero] at hemp2
  exact hne hemp2

/-- Core of the `LFUList.Add` preservation proof, for the already-computed
starting frequency `f ≥ 1` of the fresh node. -/
theorem LFUWF_Add_core {l : LFUList} (hwf : LFUWF l) (key : String) (item : CacheItem)
    (now f : Nat) (hfpos : 1 ≤ f) (habs : key ∉ l.nodes.map LFUNode.Key) :
    LFUWF (
      if f < (LFUList.addToFrequency
          { l with nodes := l.nodes ++ [⟨key, item, f, now⟩] } key f).minFreq ∨
        (LFUList.addToFrequency
          { l with nodes := l.nodes ++ [⟨key, item, f, now⟩] } key f).isEmptyBucket
          (LFUList.addToFrequency
            { l with nodes := l.nodes ++ [⟨key, item, f, now⟩] } key f).minFreq
      then { LFUList.addToFrequency
          { l with nodes := l.nodes ++ [⟨key, item, f, now⟩] } key f with minFreq := f }
      else LFUList.addToFrequency
        { l with nodes := l.nodes ++ [⟨key, item, f, now⟩] } key f) := by
  have hkeyN : ((l.nodes ++ [(⟨key, item, f, now⟩ : LFUNode)]).map LFUNode.Key).Nodup := by
    simp only [List.map_append, List.map_cons, List.map_nil]
    rw [List.nodup_append]
    refine ⟨hwf.keyNodup, List.nodup_singleton key, ?_⟩
    intro a ha hb
    simp only [List.mem_singleton] at hb
    subst hb
    exact habs ha
  have hfindL2 : ∀ f2, assocFind (LFUList.addToFrequency
      { l with nodes := l.nodes ++ [⟨key, item, f, now⟩] } key f).frequencies f2 =
      if f2 = f then some (((assocFind l.frequencies f).getD []) ++ [key])
      else assocFind l.frequencies f2 :=
    fun f2 => addToFrequency_find _ key f f2
  have hkeyNotInBucket : ∀ b, assocFind l.frequencies f = some b → key ∉ b := by
    intro b hb hkb
    obtain ⟨n, hn, hnk, _⟩ := hwf.bucketFreq f b hb key hkb
    exact habs (hnk ▸ List.mem_map_of_mem LFUNode.Key hn)
  have hBN : ∀ f2 b2, (if f2 = f then
      some (((assocFind l.frequencies f).getD []) ++ [key])
      else assocFind l.frequencies f2) = some b2 → b2.Nodup := by
    intro f2 b2 hb2
    split at hb2
    · cases hb2
      cases hb : assocFind l.frequencies f with
      | none => simp [hb]
      | some b =>
        simp only [hb, Option.getD_some]
        rw [List.nodup_append]
        refine ⟨hwf.bucketNodup f b hb, List.nodup_singleton key, ?_⟩
        intro a ha hb2
        simp only [List.mem_singleton] at hb2
        subst hb2
        exact hkeyNotInBucket b hb ha
    · exact hwf.bucketNodup f2 b2 hb2
  have hBF : ∀ f2 b2, (if f2 = f then
      some (((assocFind l.frequencies f).getD []) ++ [key])
      else assocFind l.frequencies f2) = some b2 → ∀ k2 ∈ b2,
      ∃ n ∈ l.nodes ++ [(⟨key, item, f, now⟩ : LFUNode)],
        n.Key = k2 ∧ n.Frequency = f2 := by
    intro f2 b2 hb2 k2 hk2
    split at hb2
    · rename_i hf2
      subst f2
      cases hb2
      rcases List.mem_append.1 hk2 with hk2 | hk2
      · cases hb : assocFind l.frequencies f with
        | none => simp [hb] at hk2
        | some b =>
          rw [hb] at hk2
          simp only [Option.getD_some] at hk2
          obtain ⟨n, hn, hnk, hnf⟩ := hwf.bucketFreq f b hb k2 hk2
          exact ⟨n, List.mem_append_left _ hn, hnk, hnf⟩
      · simp only [List.mem_singleton] at hk2
        subst k2
        exact ⟨⟨key, item, f, now⟩,
          List.mem_append_right _ (List.mem_singleton.2 rfl), rfl, rfl⟩
    · obtain ⟨n, hn, hnk, hnf⟩ := hwf.bucketFreq f2 b2 hb2 k2 hk2
      exact ⟨n, List.mem_append_left _ hn, hnk, hnf⟩
  have hNB : ∀ n ∈ l.nodes ++ [(⟨key, item, f, now⟩ : LFUNode)],
      ∃ b, (if n.Frequency = f then
        some (((assocFind l.frequencies f).getD []) ++ [key])
        else assocFind l.frequencies n.Frequency) = some b ∧ n.Key ∈ b := by
    intro n hn
    rcases List.mem_append.1 hn with hn | hn
    · obtain ⟨b, hb, hkb⟩ := hwf.nodeBucket n hn
      by_cases hnf : n.Frequency = f
      · rw [if_pos hnf]
        rw [hnf] at hb
        rw [hb]
        exact ⟨_, rfl, List.mem_append_left _ (by simpa using hkb)⟩
      · rw [if_neg hnf]
        exact ⟨b, hb, hkb⟩
    · simp only [List.mem_singleton] at hn
      subst hn
      rw [if_pos rfl]
      exact ⟨_, rfl, List.mem_append_right _ (List.mem_singleton.2 rfl)⟩
  have hFP : ∀ n ∈ l.nodes ++ [(⟨key, item, f, now⟩ : LFUNode)], 1 ≤ n.Frequency := by
    intro n hn
    rcases List.mem_append.1 hn with hn | hn
    · exact hwf.freqPos n hn
    · simp only [List.mem_singleton] at hn
      subst hn
      exact hfpos
  split
  case isTrue hP =>
    refine ⟨?_, ?_, ?_, ?_, ?_, ?_, ?_, ?_, ?_⟩ <;> dsimp only
    · rw [addToFrequency_nodes]
      exact hkeyN
    · refine addToFrequency_freqNodup ?_ key f
      exact hwf.freqNodup
    · intro f2 b2 hb2
      rw [hfindL2] at hb2
      exact hBN f2 b2 hb2
    · intro f2 b2 hb2 k2 hk2
      rw [hfindL2] at hb2
      rw [addToFrequency_nodes]
      exact hBF f2 b2 hb2 k2 hk2
    · intro n hn
      rw [addToFrequency_nodes] at hn
      obtain ⟨b, hb, hkb⟩ := hNB n hn
      refine ⟨b, ?_, hkb⟩
      rw [hfindL2]
      exact hb
    · intro n hn
      rw [addToFrequency_nodes] at hn
      exact hFP n hn
    · exact hfpos
    · intro n hn
      rw [addToFrequency_nodes] at hn
      rcases List.mem_append.1 hn with hn2 | hn2
      · rcases hP with hP | hP
        · simp only [addToFrequency_minFreq] at hP
          have hml := hwf.minLe n hn2
          omega
        · exfalso
          have hlne : l.nodes ≠ [] := by
            intro hthing
            rw [hthing] at hn2
            simp at hn2
          obtain ⟨b, hb, hbne⟩ := hwf.minBucket hlne
          simp only [addToFrequency_minFreq] at hP
          unfold LFUList.isEmptyBucket at hP
          rw [hfindL2 l.minFreq] at hP
          by_cases hmf : l.minFreq = f
          · rw [if_pos hmf] at hP
            simp only [Option.getD_some, decide_eq_true_eq, List.length_append,
              List.length_cons, List.length_nil] at hP
            omega
          · rw [if_neg hmf, hb] at hP
            simp only [Option.getD_some, decide_eq_true_eq,
              List.length_eq_zero] at hP
            exact hbne hP
      · simp only [List.mem_singleton] at hn2
        subst hn2
        exact le_refl f
    · intro hne2
      refine ⟨((assocFind l.frequencies f).getD []) ++ [key], ?_, by simp⟩
      rw [hfindL2]
      simp
  case isFalse hP =>
    push_neg at hP
    obtain ⟨hP1, hP2⟩ := hP
    simp only [addToFrequency_minFreq] at hP1
    have hP2f : (LFUList.addToFrequency
        { l with nodes := l.nodes ++ [⟨key, item, f, now⟩] } key f).isEmptyBucket
        l.minFreq = false := by
      simp only [addToFrequency_minFreq] at hP2
      simpa using hP2
    refine ⟨?_, ?_, ?_, ?_, ?_, ?_, ?_, ?_, ?_⟩
    · rw [addToFrequency_nodes]
      exact hkeyN
    · refine addToFrequency_freqNodup ?_ key f
      exact hwf.freqNodup
    · intro f2 b2 hb2
      rw [hfindL2] at hb2
      exact hBN f2 b2 hb2
    · intro f2 b2 hb2 k2 hk2
      rw [hfindL2] at hb2
      rw [addToFrequency_nodes]
      exact hBF f2 b2 hb2 k2 hk2
    · intro n hn
      rw [addToFrequency_nodes] at hn
      obtain ⟨b, hb, hkb⟩ := hNB n hn
      refine ⟨b, ?_, hkb⟩
      rw [hfindL2]
      exact hb
    · intro n hn
      rw [addToFrequency_nodes] at hn
      exact hFP n hn
    · simp only [addToFrequency_minFreq]
      exact hwf.minPos
    · intro n hn
      rw [addToFrequency_nodes] at hn
      simp only [addToFrequency_minFreq]
      rcases List.mem_append.1 hn with hn2 | hn2
      · exact hwf.minLe n hn2
      · simp only [List.mem_singleton] at hn2
        subst hn2
        exact hP1
    · intro hne2
      simp only [addToFrequency_minFreq]
      exact (isEmptyBucket_false_iff (LFUList.addToFrequency
        { l with nodes := l.nodes ++ [⟨key, item, f, now⟩] } key f) l.minFreq).1 hP2f

/-- `LFUList.Add` on a key not yet indexed preserves well-formedness; the
new node is appended with the starting frequency the code's zero test
computes (`max(1, access count)`). -/
theorem LFUWF_Add {l : LFUList} (hwf : LFUWF l) (key : String) (item : CacheItem)
    (now : Nat) (habs : key ∉ l.nodes.map LFUNode.Key) :
    LFUWF (l.Add key item now) ∧
    (l.Add key item now).nodes = l.nodes ++
      [⟨key, item, if item.AccessCount = 0 then 1 else item.AccessCount, now⟩] := by
  have hfind : findKeyed LFUNode.Key l.nodes key = none :=
    (findKeyed_eq_none_iff _ _ _).2 habs
  unfold LFUList.Add
  rw [hfind]
  dsimp only
  constructor
  case right =>
    split
    all_goals
      split <;> simp only [addToFrequency_nodes]
  case left =>
  split
  case isTrue h0 =>
    exact LFUWF_Add_core hwf key item now 1 le_rfl habs
  case isFalse h0 =>
    have h1 : 1 ≤ item.AccessCount := by omega
    exact LFUWF_Add_core hwf key item now item.AccessCount h1 habs

/-- Witness for C10 at 3 CPUs (clamp is 6, shard count 8). -/
theorem shard_count_selection_witness :
    (∃ k, getOptimalShardCount 3 = 2 ^ k) ∧
    min 256 (max 4 (2 * 3)) ≤ getOptimalShardCount 3 ∧
    (∀ m k, m = 2 ^ k → min 256 (max 4 (2 * 3)) ≤ m → getOptimalShardCount 3 ≤ m) ∧
    4 ≤ getOptimalShardCount 3 ∧ getOptimalShardCount 3 ≤ 256 :=
  shard_count_selection 3 (by norm_num)

/-! ### Preservation of the LFU invariant by the remaining operations -/

theorem assocFind_some_of_mem {α β : Type} [DecidableEq α] {l : List (α × β)} {k : α}
    (h : k ∈ l.map Prod.fst) : ∃ v, assocFind l k = some v := by
  cases hv : assocFind l k with
  | none => exact absurd h ((assocFind_eq_none_iff l k).1 hv)
  | some v => exact ⟨v, rfl⟩

/-- The starting frequency the Go zero test computes is `max(1, count)`. -/
theorem startFreq_eq_max (c : Nat) : (if c = 0 then 1 else c) = max 1 c := by
  split <;> omega

/-- The fresh LFU list is well formed. -/
theorem LFUWF_nil : LFUWF NewLFUList := by
  refine ⟨?_, ?_, ?_, ?_, ?_, ?_, ?_, ?_, ?_⟩ <;>
    simp [NewLFUList, assocFind]

/-- Rebuilding well-formedness after `updateMinFreq` from the structural
fields of the state it is applied to. -/
theorem LFUWF_of_parts {l2 : LFUList}
    (hkeyNodup : (l2.nodes.map LFUNode.Key).Nodup)
    (hfreqNodup : (l2.frequencies.map Prod.fst).Nodup)
    (hbucketNodup : ∀ f b, assocFind l2.frequencies f = some b → (b : List String).Nodup)
    (hbucketFreq : ∀ f b, assocFind l2.frequencies f = some b → ∀ k ∈ b,
      ∃ n ∈ l2.nodes, n.Key = k ∧ n.Frequency = f)
    (hnodeBucket : ∀ n ∈ l2.nodes,
      ∃ b, assocFind l2.frequencies n.Frequency = some b ∧ n.Key ∈ b)
    (hfreqPos : ∀ n ∈ l2.nodes, 1 ≤ n.Frequency)
    (hminPos : 1 ≤ l2.minFreq)
    (hminLe : ∀ n ∈ l2.nodes, l2.minFreq ≤ n.Frequency) :
    LFUWF l2.updateMinFreq := by
  cases hemp : l2.isEmptyBucket l2.minFreq with
  | false =>
    rw [updateMinFreq_of_nonempty hemp]
    exact ⟨hkeyNodup, hfreqNodup, hbucketNodup, hbucketFreq, hnodeBucket, hfreqPos,
      hminPos, hminLe, fun _ => (isEmptyBucket_false_iff l2 l2.minFreq).1 hemp⟩
  | true =>
    have hall := hall_of_wf hfreqNodup hbucketFreq hfreqPos hminLe hminPos hemp
    obtain ⟨g1, g2, g3⟩ := updateMinFreq_min hemp hall
    refine ⟨?_, ?_, ?_, ?_, ?_, ?_, g2, ?_, ?_⟩
    · rw [updateMinFreq_nodes]
      exact hkeyNodup
    · rw [updateMinFreq_frequencies]
      exact hfreqNodup
    · intro f b hb
      rw [updateMinFreq_frequencies] at hb
      exact hbucketNodup f b hb
    · intro f b hb k hk
      rw [updateMinFreq_frequencies] at hb
      rw [updateMinFreq_nodes]
      exact hbucketFreq f b hb k hk
    · intro n hn
      rw [updateMinFreq_nodes] at hn
      rw [updateMinFreq_frequencies]
      exact hnodeBucket n hn
    · intro n hn
      rw [updateMinFreq_nodes] at hn
      exact hfreqPos n hn
    · intro n hn
      rw [updateMinFreq_nodes] at hn
      obtain ⟨b, hb, hkb⟩ := hnodeBucket n hn
      have hbmem : (n.Frequency, b) ∈ l2.frequencies := assocFind_mem hb
      have hbne : b ≠ [] := by
        intro hb0
        rw [hb0] at hkb
        simp at hkb
      exact g1 (n.Frequency, b) hbmem hbne
    · intro hne
      have hne2 : l2.nodes ≠ [] := by
        intro h0
        apply hne
        rw [updateMinFreq_nodes]
        exact h0
      obtain ⟨n0, hn0⟩ := List.exists_mem_of_ne_nil l2.nodes hne2
      obtain ⟨b0, hb0, hkb0⟩ := hnodeBucket n0 hn0
      rcases g3 with ⟨fb, hfb, hfbne, hfbeq⟩ | hallemp
      · rw [updateMinFreq_frequencies]
        refine ⟨fb.2, ?_, hfbne⟩
        rw [← hfbeq]
        exact assocFind_of_mem_nodup hfreqNodup (by simpa using hfb)
      · exfalso
        have hbe := hallemp (n0.Frequency, b0) (assocFind_mem hb0)
        simp only at hbe
        rw [hbe] at hkb0
        simp at hkb0

/-- After removing `key` (whose node is `node`) from both the node index and
its frequency bucket, the `updateMinFreq` pass restores well-formedness. -/
theorem LFUWF_erase_parts {l : LFUList} (hwf : LFUWF l) {key : String} {node : LFUNode}
    (hfind : findKeyed LFUNode.Key l.nodes key = some node) :
    LFUWF (LFUList.updateMinFreq
      { l.removeFromFrequency key node.Frequency with
        nodes := eraseKeyed LFUNode.Key l.nodes key }) := by
  obtain ⟨hnodemem, hnodekey⟩ := findKeyed_eq_some hfind
  refine LFUWF_of_parts ?_ ?_ ?_ ?_ ?_ ?_ ?_ ?_
  · show ((eraseKeyed LFUNode.Key l.nodes key).map LFUNode.Key).Nodup
    rw [map_key_eraseKeyed]
    exact hwf.keyNodup.erase key
  · exact removeFromFrequency_freqNodup hwf.freqNodup key node.Frequency
  · intro f b hb
    simp only [removeFromFrequency_find] at hb
    split at hb
    · cases horig : assocFind l.frequencies node.Frequency with
      | none =>
        rw [horig] at hb
        simp at hb
      | some b0 =>
        rw [horig] at hb
        simp only [Option.map_some'] at hb
        cases hb
        exact (hwf.bucketNodup node.Frequency b0 horig).erase key
    · exact hwf.bucketNodup f b hb
  · intro f b hb k2 hk2
    simp only [removeFromFrequency_find] at hb
    split at hb
    · rename_i hf
      cases horig : assocFind l.frequencies node.Frequency with
      | none =>
        rw [horig] at hb
        simp at hb
      | some b0 =>
        rw [horig] at hb
        simp only [Option.map_some'] at hb
        cases hb
        have hb0n := hwf.bucketNodup node.Frequency b0 horig
        have hin : k2 ≠ key ∧ k2 ∈ b0 := (List.Nodup.mem_erase_iff hb0n).1 hk2
        obtain ⟨n2, hn2, hn2k, hn2f⟩ :=
          hwf.bucketFreq node.Frequency b0 horig k2 hin.2
        refine ⟨n2, ?_, hn2k, by rw [hn2f, hf]⟩
        exact mem_eraseKeyed_of_ne hn2 (by rw [hn2k]; exact hin.1)
    · rename_i hf
      obtain ⟨n2, hn2, hn2k, hn2f⟩ := hwf.bucketFreq f b hb k2 hk2
      have hne2 : n2.Key ≠ key := by
        intro hkk
        have : findKeyed LFUNode.Key l.nodes key = some n2 :=
          findKeyed_unique hwf.keyNodup hn2 hkk
        rw [hfind] at this
        injection this with this
        rw [← this] at hn2f
        exact hf (hn2f ▸ rfl)
      exact ⟨n2, mem_eraseKeyed_of_ne hn2 hne2, hn2k, hn2f⟩
  · intro n hn
    have hn2 : n ∈ l.nodes ∧ n.Key ≠ key := mem_eraseKeyed_nodup hwf.keyNodup hn
    obtain ⟨b, hb, hkb⟩ := hwf.nodeBucket n hn2.1
    show ∃ b2, assocFind (l.removeFromFrequency key node.Frequency).frequencies
      n.Frequency = some b2 ∧ n.Key ∈ b2
    rw [removeFromFrequency_find]
    by_cases hf : n.Frequency = node.Frequency
    · rw [if_pos hf, ← hf, hb]
      exact ⟨b.erase key, rfl, (List.mem_erase_of_ne hn2.2).2 hkb⟩
    · rw [if_neg hf]
      exact ⟨b, hb, hkb⟩
  · intro n hn
    exact hwf.freqPos n (eraseKeyed_subset hn)
  · show 1 ≤ (l.removeFromFrequency key node.Frequency).minFreq
    rw [removeFromFrequency_minFreq]
    exact hwf.minPos
  · intro n hn
    show (l.removeFromFrequency key node.Frequency).minFreq ≤ n.Frequency
    rw [removeFromFrequency_minFreq]
    exact hwf.minLe n (eraseKeyed_subset hn)

/-- `LFUList.Remove` preserves well-formedness; the key leaves the node
index and every surviving node is an original node with another key. -/
theorem LFUWF_Remove {l : LFUList} (hwf : LFUWF l) (key : String) :
    LFUWF (l.Remove key) ∧
    (l.Remove key).nodes.map LFUNode.Key = (l.nodes.map LFUNode.Key).erase key ∧
    (∀ n ∈ (l.Remove key).nodes, n ∈ l.nodes ∧ n.Key ≠ key) := by
  unfold LFUList.Remove
  cases hfind : findKeyed LFUNode.Key l.nodes key with
  | none =>
    have habs : key ∉ l.nodes.map LFUNode.Key := (findKeyed_eq_none_iff _ _ _).1 hfind
    refine ⟨hwf, (List.erase_of_not_mem habs).symm, ?_⟩
    intro n hn
    refine ⟨hn, ?_⟩
    intro hk
    exact habs (hk ▸ List.mem_map_of_mem LFUNode.Key hn)
  | some node =>
    dsimp only
    simp only [removeFromFrequency_nodes]
    refine ⟨LFUWF_erase_parts hwf hfind, ?_, ?_⟩
    · rw [updateMinFreq_nodes]
      exact map_key_eraseKeyed _ _ _
    · intro n hn
      rw [updateMinFreq_nodes] at hn
      exact mem_eraseKeyed_nodup hwf.keyNodup hn

/-- Core of the `LFUList.Update` preservation proof for the bucket-moving
branch (`oldFreq ≠ newFreq`). -/
theorem LFUWF_Update_core {l : LFUList} (hwf : LFUWF l) {key : String} {node : LFUNode}
    (hfind : findKeyed LFUNode.Key l.nodes key = some node)
    (item : CacheItem) (now : Nat) (hpos : 1 ≤ item.AccessCount)
    (hge : l.minFreq ≤ item.AccessCount) (hne : node.Frequency ≠ item.AccessCount) :
    LFUWF ((LFUList.addToFrequency
      { l.removeFromFrequency key node.Frequency with
        nodes := modifyKeyed LFUNode.Key
          (fun n => { n with Item := item, Frequency := item.AccessCount, LastUsed := now })
          l.nodes key }
      key item.AccessCount).updateMinFreq) := by
  obtain ⟨hnodemem, hnodekey⟩ := findKeyed_eq_some hfind
  have hneq : ¬item.AccessCount = node.Frequency := fun hx => hne hx.symm
  have hfindAF : ∀ f2, assocFind ((LFUList.addToFrequency
      { l.removeFromFrequency key node.Frequency with
        nodes := modifyKeyed LFUNode.Key
          (fun n => { n with Item := item, Frequency := item.AccessCount, LastUsed := now })
          l.nodes key }
      key item.AccessCount)).frequencies f2 =
      if f2 = item.AccessCount then
        some (((assocFind l.frequencies item.AccessCount).getD []) ++ [key])
      else if f2 = node.Frequency then
        (assocFind l.frequencies node.Frequency).map (fun b => b.erase key)
      else assocFind l.frequencies f2 := by
    intro f2
    rw [addToFrequency_find]
    by_cases h2 : f2 = item.AccessCount
    · rw [if_pos h2, if_pos h2]
      simp only [removeFromFrequency_find, if_neg hneq]
    · rw [if_neg h2, if_neg h2]
      simp only [removeFromFrequency_find]
  have hKeyNotF : ∀ b0, assocFind l.frequencies item.AccessCount = some b0 →
      key ∉ b0 := by
    intro b0 hb0 hkb
    obtain ⟨n2, hn2, hn2k, hn2f⟩ := hwf.bucketFreq item.AccessCount b0 hb0 key hkb
    have hsame : findKeyed LFUNode.Key l.nodes key = some n2 :=
      findKeyed_unique hwf.keyNodup hn2 hn2k
    rw [hfind] at hsame
    injection hsame with hsame
    rw [← hsame] at hn2f
    exact hne hn2f
  have hchar : ∀ n ∈ modifyKeyed LFUNode.Key
      (fun n => { n with Item := item, Frequency := item.AccessCount, LastUsed := now })
      l.nodes key,
      (n ∈ l.nodes ∧ n.Key ≠ key) ∨
        n = { node with Item := item, Frequency := item.AccessCount, LastUsed := now } := by
    intro n hn
    rcases mem_modifyKeyed_nodup hwf.keyNodup hn with ⟨h1, h2⟩ | ⟨x, hx1, hx2⟩
    · exact Or.inl ⟨h1, h2⟩
    · rw [hfind] at hx1
      injection hx1 with hx1
      subst hx1
      exact Or.inr hx2
  have hkeys : (modifyKeyed LFUNode.Key
      (fun n => { n with Item := item, Frequency := item.AccessCount, LastUsed := now })
      l.nodes key).map LFUNode.Key = l.nodes.map LFUNode.Key :=
    map_key_modifyKeyed LFUNode.Key
      (fun n => { n with Item := item, Frequency := item.AccessCount, LastUsed := now })
      (fun x => rfl) l.nodes key
  refine LFUWF_of_parts ?_ ?_ ?_ ?_ ?_ ?_ ?_ ?_
  · simp only [addToFrequency_nodes]
    show ((modifyKeyed LFUNode.Key
      (fun n => { n with Item := item, Frequency := item.AccessCount, LastUsed := now })
      l.nodes key).map LFUNode.Key).Nodup
    rw [hkeys]
    exact hwf.keyNodup
  · refine addToFrequency_freqNodup ?_ key item.AccessCount
    exact removeFromFrequency_freqNodup hwf.freqNodup key node.Frequency
  · intro f b hb
    rw [hfindAF f] at hb
    split at hb
    · cases hb
      cases horig : assocFind l.frequencies item.AccessCount with
      | none => simp [horig]
      | some b0 =>
        simp only [horig, Option.getD_some]
        rw [List.nodup_append]
        exact ⟨hwf.bucketNodup _ b0 horig, List.nodup_singleton key,
          fun a ha hb2 => by
            simp only [List.mem_singleton] at hb2
            subst hb2
            exact hKeyNotF b0 horig ha⟩
    · split at hb
      · cases horig : assocFind l.frequencies node.Frequency with
        | none =>
          rw [horig] at hb
          simp at hb
        | some b0 =>
          rw [horig] at hb
          simp only [Option.map_some'] at hb
          cases hb
          exact (hwf.bucketNodup node.Frequency b0 horig).erase key
      · exact hwf.bucketNodup f b hb
  · intro f b hb k2 hk2
    simp only [addToFrequency_nodes]
    rw [hfindAF f] at hb
    split at hb
    · rename_i hf
      cases hb
      rcases List.mem_append.1 hk2 with hk2 | hk2
      · cases horig : assocFind l.frequencies item.AccessCount with
        | none =>
          rw [horig] at hk2
          simp at hk2
        | some b0 =>
          rw [horig] at hk2
          simp only [Option.getD_some] at hk2
          obtain ⟨n2, hn2, hn2k, hn2f⟩ :=
            hwf.bucketFreq item.AccessCount b0 horig k2 hk2
          have hne2 : n2.Key ≠ key := by
            intro hkk
            refine hKeyNotF b0 horig ?_
            rw [← hkk, hn2k]
            exact hk2
          exact ⟨n2, mem_modifyKeyed_of_ne hn2 hne2, hn2k, by rw [hn2f, hf]⟩
      · simp only [List.mem_singleton] at hk2
        subst k2
        refine ⟨{ node with Item := item, Frequency := item.AccessCount, LastUsed := now },
          mem_modifyKeyed_self hfind, hnodekey, ?_⟩
        rw [hf]
    · rename_i hf
      split at hb
      · rename_i hf2
        cases horig : assocFind l.frequencies node.Frequency with
        | none =>
          rw [horig] at hb
          simp at hb
        | some b0 =>
          rw [horig] at hb
          simp only [Option.map_some'] at hb
          cases hb
          have hb0n := hwf.bucketNodup node.Frequency b0 horig
          have hin : k2 ≠ key ∧ k2 ∈ b0 := (List.Nodup.mem_erase_iff hb0n).1 hk2
          obtain ⟨n2, hn2, hn2k, hn2f⟩ :=
            hwf.bucketFreq node.Frequency b0 horig k2 hin.2
          refine ⟨n2, ?_, hn2k, by rw [hn2f, hf2]⟩
          exact mem_modifyKeyed_of_ne hn2 (by rw [hn2k]; exact hin.1)
      · rename_i hf2
        obtain ⟨n2, hn2, hn2k, hn2f⟩ := hwf.bucketFreq f b hb k2 hk2
        have hne2 : n2.Key ≠ key := by
          intro hkk
          have hsame : findKeyed LFUNode.Key l.nodes key = some n2 :=
            findKeyed_unique hwf.keyNodup hn2 hkk
          rw [hfind] at hsame
          injection hsame with hsame
          rw [← hsame] at hn2f
          exact hf2 hn2f.symm
        exact ⟨n2, mem_modifyKeyed_of_ne hn2 hne2, hn2k, hn2f⟩
  · intro n hn
    simp only [addToFrequency_nodes] at hn
    rw [hfindAF n.Frequency]
    rcases hchar n hn with ⟨h1, h2⟩ | h1
    · obtain ⟨b, hb, hkb⟩ := hwf.nodeBucket n h1
      by_cases hf : n.Frequency = item.AccessCount
      · rw [if_pos hf, ← hf, hb]
        exact ⟨b ++ [key], by simp, List.mem_append_left _ hkb⟩
      · rw [if_neg hf]
        by_cases hf2 : n.Frequency = node.Frequency
        · rw [if_pos hf2, ← hf2, hb]
          exact ⟨b.erase key, rfl, (List.mem_erase_of_ne h2).2 hkb⟩
        · rw [if_neg hf2]
          exact ⟨b, hb, hkb⟩
    · rw [h1]
      dsimp only
      rw [if_pos rfl]
      exact ⟨_, rfl, List.mem_append_right _ (List.mem_singleton.2 hnodekey)⟩
  · intro n hn
    simp only [addToFrequency_nodes] at hn
    rcases hchar n hn with ⟨h1, _⟩ | h1
    · exact hwf.freqPos n h1
    · rw [h1]
      exact hpos
  · show 1 ≤ (LFUList.addToFrequency _ key item.AccessCount).minFreq
    rw [addToFrequency_minFreq]
    show 1 ≤ (l.removeFromFrequency key node.Frequency).minFreq
    rw [removeFromFrequency_minFreq]
    exact hwf.minPos
  · intro n hn
    simp only [addToFrequency_nodes] at hn
    show (LFUList.addToFrequency _ key item.AccessCount).minFreq ≤ n.Frequency
    rw [addToFrequency_minFreq]
    show (l.removeFromFrequency key node.Frequency).minFreq ≤ n.Frequency
    rw [removeFromFrequency_minFreq]
    rcases hchar n hn with ⟨h1, _⟩ | h1
    · exact hwf.minLe n h1
    · rw [h1]
      exact hge

/-- `LFUList.Update` on a stored key with a positive new access count at
least `minFreq` preserves well-formedness, keeps the key set, and moves the
key's node to the frequency equal to the new access count. -/
theorem LFUWF_Update {l : LFUList} (hwf : LFUWF l) {key : String} {node : LFUNode}
    (hfind : findKeyed LFUNode.Key l.nodes key = some node)
    (item : CacheItem) (now : Nat) (hpos : 1 ≤ item.AccessCount)
    (hge : l.minFreq ≤ item.AccessCount) :
    LFUWF (l.Update key item now) ∧
    (l.Update key item now).nodes.map LFUNode.Key = l.nodes.map LFUNode.Key ∧
    (∀ n ∈ (l.Update key item now).nodes,
      (n ∈ l.nodes ∧ n.Key ≠ key) ∨ (n.Key = key ∧ n.Frequency = item.AccessCount)) := by
  obtain ⟨hnodemem, hnodekey⟩ := findKeyed_eq_some hfind
  unfold LFUList.Update
  rw [hfind]
  dsimp only
  split
  case isTrue hne0 =>
    simp only [removeFromFrequency_nodes]
    refine ⟨LFUWF_Update_core hwf hfind item now hpos hge hne0, ?_, ?_⟩
    · rw [updateMinFreq_nodes]
      simp only [addToFrequency_nodes]
      exact map_key_modifyKeyed LFUNode.Key
        (fun n => { n with Item := item, Frequency := item.AccessCount, LastUsed := now })
        (fun x => rfl) l.nodes key
    · intro n hn
      rw [updateMinFreq_nodes] at hn
      simp only [addToFrequency_nodes] at hn
      rcases mem_modifyKeyed_nodup hwf.keyNodup hn with ⟨h1, h2⟩ | ⟨x, hx1, hx2⟩
      · exact Or.inl ⟨h1, h2⟩
      · rw [hfind] at hx1
        injection hx1 with hx1
        subst hx1
        subst hx2
        exact Or.inr ⟨hnodekey, rfl⟩
  case isFalse hne0 =>
    have hfreqeq : node.Frequency = item.AccessCount := not_ne_iff.1 hne0
    have hkeys : (modifyKeyed LFUNode.Key
        (fun n => { n with Item := item, LastUsed := now }) l.nodes key).map
        LFUNode.Key = l.nodes.map LFUNode.Key :=
      map_key_modifyKeyed LFUNode.Key
        (fun n => { n with Item := item, LastUsed := now }) (fun x => rfl) l.nodes key
    have hchar : ∀ n ∈ modifyKeyed LFUNode.Key
        (fun n => { n with Item := item, LastUsed := now }) l.nodes key,
        (n ∈ l.nodes ∧ n.Key ≠ key) ∨
          n = { node with Item := item, LastUsed := now } := by
      intro n hn
      rcases mem_modifyKeyed_nodup hwf.keyNodup hn with ⟨h1, h2⟩ | ⟨x, hx1, hx2⟩
      · exact Or.inl ⟨h1, h2⟩
      · rw [hfind] at hx1
        injection hx1 with hx1
        subst hx1
        exact Or.inr hx2
    refine ⟨⟨?_, hwf.freqNodup, hwf.bucketNodup, ?_, ?_, ?_, hwf.minPos, ?_, ?_⟩, ?_, ?_⟩
    · show ((modifyKeyed LFUNode.Key
        (fun n => { n with Item := item, LastUsed := now }) l.nodes key).map
        LFUNode.Key).Nodup
      rw [hkeys]
      exact hwf.keyNodup
    · intro f b hb k2 hk2
      obtain ⟨n2, hn2, hn2k, hn2f⟩ := hwf.bucketFreq f b hb k2 hk2
      by_cases hkk : n2.Key = key
      · have hsame : findKeyed LFUNode.Key l.nodes key = some n2 :=
          findKeyed_unique hwf.keyNodup hn2 hkk
        rw [hfind] at hsame
        injection hsame with hsame
        subst hsame
        exact ⟨{ node with Item := item, LastUsed := now },
          mem_modifyKeyed_self hfind, hn2k, hn2f⟩
      · exact ⟨n2, mem_modifyKeyed_of_ne hn2 hkk, hn2k, hn2f⟩
    · intro n hn
      rcases hchar n hn with ⟨h1, _⟩ | h1
      · exact hwf.nodeBucket n h1
      · subst h1
        exact hwf.nodeBucket node hnodemem
    · intro n hn
      rcases hchar n hn with ⟨h1, _⟩ | h1
      · exact hwf.freqPos n h1
      · subst h1
        exact hwf.freqPos node hnodemem
    · intro n hn
      rcases hchar n hn with ⟨h1, _⟩ | h1
      · exact hwf.minLe n h1
      · subst h1
        exact hwf.minLe node hnodemem
    · intro hne
      exact hwf.minBucket (List.ne_nil_of_mem hnodemem)
    · exact hkeys
    · intro n hn
      rcases hchar n hn with ⟨h1, h2⟩ | h1
      · exact Or.inl ⟨h1, h2⟩
      · subst h1
        exact Or.inr ⟨hnodekey, hfreqeq⟩

/-! ### `LFUList.RemoveLeast` -/

theorem foldl_pickOldestStep_mem (l : LFUList) :
    ∀ (b : List String) (acc : Option (String × Nat)) (k : String) (t : Nat),
      b.foldl (pickOldestStep l) acc = some (k, t) → acc = some (k, t) ∨ k ∈ b := by
  intro b
  induction b with
  | nil =>
    intro acc k t h
    exact Or.inl h
  | cons x xs ih =>
    intro acc k t h
    rw [List.foldl_cons] at h
    rcases ih _ k t h with h2 | h2
    · unfold pickOldestStep at h2
      split at h2
      · exact Or.inl h2
      · split at h2
        · simp only [Option.some.injEq, Prod.mk.injEq] at h2
          exact Or.inr (h2.1 ▸ List.mem_cons_self x xs)
        · split at h2
          · simp only [Option.some.injEq, Prod.mk.injEq] at h2
            exact Or.inr (h2.1 ▸ List.mem_cons_self x xs)
          · exact Or.inl h2
    · exact Or.inr (List.mem_cons_of_mem x h2)

theorem foldl_pickOldestStep_ne_none (l : LFUList) :
    ∀ (b : List String) (p : String × Nat),
      b.foldl (pickOldestStep l) (some p) ≠ none := by
  intro b
  induction b with
  | nil =>
    intro p h
    exact Option.noConfusion h
  | cons x xs ih =>
    intro p
    obtain ⟨k0, t0⟩ := p
    rw [List.foldl_cons]
    have hstep : ∃ q, pickOldestStep l (some (k0, t0)) x = some q := by
      unfold pickOldestStep
      split
      · exact ⟨(k0, t0), rfl⟩
      · dsimp only
        split
        · exact ⟨_, rfl⟩
        · exact ⟨_, rfl⟩
    obtain ⟨q, hq⟩ := hstep
    rw [hq]
    exact ih q

/-- When the bucket is non-empty and all its keys resolve to nodes, the
oldest-scan returns some key of the bucket. -/
theorem pickOldest_resolves {l : LFUList} {b : List String} (hbne : b ≠ [])
    (hres : ∀ k ∈ b, ∃ n, findKeyed LFUNode.Key l.nodes k = some n) :
    ∃ k, l.pickOldest b = some k ∧ k ∈ b := by
  obtain ⟨x, xs, rfl⟩ : ∃ x xs, b = x :: xs := by
    cases b with
    | nil => exact absurd rfl hbne
    | cons a as => exact ⟨a, as, rfl⟩
  obtain ⟨n, hn⟩ := hres x (List.mem_cons_self x xs)
  have hstep : pickOldestStep l none x = some (x, n.LastUsed) := by
    unfold pickOldestStep
    rw [hn]
  unfold LFUList.pickOldest
  rw [List.foldl_cons, hstep]
  cases hfold : xs.foldl (pickOldestStep l) (some (x, n.LastUsed)) with
  | none => exact absurd hfold (foldl_pickOldestStep_ne_none l xs (x, n.LastUsed))
  | some q =>
    obtain ⟨k, t⟩ := q
    rcases foldl_pickOldestStep_mem l xs _ k t hfold with h2 | h2
    · simp only [Option.some.injEq, Prod.mk.injEq] at h2
      exact ⟨k, rfl, h2.1.symm ▸ List.mem_cons_self x xs⟩
    · exact ⟨k, rfl, List.mem_cons_of_mem x h2⟩

/-- `LFUList.RemoveLeast` does nothing on an empty list. -/
theorem LFU_RemoveLeast_nil {l : LFUList} (h : l.nodes = []) :
    l.RemoveLeast = ("", l) := by
  unfold LFUList.RemoveLeast
  rw [if_pos (by rw [h]; rfl)]

/-- On a well-formed non-empty LFU list, `RemoveLeast` returns the key of a
stored node of minimal frequency, erases exactly that node, and preserves
well-formedness. -/
theorem LFU_RemoveLeast_spec {l : LFUList} (hwf : LFUWF l) (hne : l.nodes ≠ []) :
    ∃ node ∈ l.nodes, l.RemoveLeast.1 = node.Key ∧ node.Frequency = l.minFreq ∧
      LFUWF l.RemoveLeast.2 ∧
      l.RemoveLeast.2.nodes.map LFUNode.Key =
        (l.nodes.map LFUNode.Key).erase node.Key ∧
      (∀ n ∈ l.RemoveLeast.2.nodes, n ∈ l.nodes ∧ n.Key ≠ node.Key) := by
  obtain ⟨b, hb, hbne⟩ := hwf.minBucket hne
  have hres : ∀ k ∈ b, ∃ n2, findKeyed LFUNode.Key l.nodes k = some n2 := by
    intro k hk
    obtain ⟨n2, hn2, hn2k, _⟩ := hwf.bucketFreq l.minFreq b hb k hk
    exact ⟨n2, findKeyed_unique hwf.keyNodup hn2 hn2k⟩
  obtain ⟨key, hpick, hkb⟩ := pickOldest_resolves hbne hres
  obtain ⟨node, hnodemem, hnodekey, hnodefreq⟩ := hwf.bucketFreq l.minFreq b hb key hkb
  have hfindkey : findKeyed LFUNode.Key l.nodes key = some node :=
    findKeyed_unique hwf.keyNodup hnodemem hnodekey
  have hlen : ¬l.nodes.length = 0 := by
    intro h0
    exact hne (List.length_eq_zero.1 h0)
  have hblen : ¬b.length = 0 := by
    intro h0
    exact hbne (List.length_eq_zero.1 h0)
  have hRL : l.RemoveLeast = (key,
      ({ l.removeFromFrequency key node.Frequency with
        nodes := eraseKeyed LFUNode.Key l.nodes key }).updateMinFreq) := by
    unfold LFUList.RemoveLeast
    rw [if_neg hlen, hb]
    dsimp only
    rw [if_neg hblen, hpick]
    dsimp only
    unfold LFUList.removeFromFrequency
    rw [hnodefreq, hb]
  refine ⟨node, hnodemem, ?_, hnodefreq, ?_, ?_, ?_⟩
  · rw [hRL]
    exact hnodekey.symm
  · rw [hRL]
    exact LFUWF_erase_parts hwf hfindkey
  · rw [hRL]
    dsimp only
    rw [updateMinFreq_nodes, hnodekey]
    exact map_key_eraseKeyed _ _ _
  · intro n hn
    rw [hRL] at hn
    dsimp only at hn
    rw [updateMinFreq_nodes] at hn
    have h2 := mem_eraseKeyed_nodup hwf.keyNodup hn
    rw [hnodekey]
    exact h2

/-! ### Key bookkeeping of the LRU and FIFO lists -/

theorem LRU_Add_keys_absent {l : LRUList} {key : String}
    (h : key ∉ l.nodes.map LRUNode.Key) (item : CacheItem) :
    (l.Add key item).nodes.map LRUNode.Key = key :: l.nodes.map LRUNode.Key := by
  unfold LRUList.Add
  rw [(findKeyed_eq_none_iff _ _ _).2 h]
  simp

theorem LRU_Remove_keys (l : LRUList) (key : String) :
    (l.Remove key).nodes.map LRUNode.Key = (l.nodes.map LRUNode.Key).erase key := by
  unfold LRUList.Remove
  exact map_key_eraseKeyed _ _ _

theorem LRU_Update_keys_perm (l : LRUList) (key : String) (item : CacheItem) :
    ((l.Update key item).nodes.map LRUNode.Key).Perm (l.nodes.map LRUNode.Key) := by
  unfold LRUList.Update
  cases hfind : findKeyed LRUNode.Key l.nodes key with
  | none => exact List.Perm.refl _
  | some x =>
    dsimp only
    rw [List.map_cons, map_key_eraseKeyed]
    have hmem : key ∈ l.nodes.map LRUNode.Key := by
      obtain ⟨h1, h2⟩ := findKeyed_eq_some hfind
      exact h2 ▸ List.mem_map_of_mem LRUNode.Key h1
    exact (List.perm_cons_erase hmem).symm

theorem LRU_RemoveLeast_nil {l : LRUList} (h : l.nodes = []) :
    l.RemoveLeast = ("", l) := by
  unfold LRUList.RemoveLeast
  rw [h]
  rfl

theorem LRU_RemoveLeast_spec {l : LRUList} (hnd : (l.nodes.map LRUNode.Key).Nodup)
    (hne : l.nodes ≠ []) :
    l.RemoveLeast.1 ∈ l.nodes.map LRUNode.Key ∧
    l.RemoveLeast.2.nodes.map LRUNode.Key =
      (l.nodes.map LRUNode.Key).erase l.RemoveLeast.1 := by
  have hlast : l.nodes.getLast? = some (l.nodes.getLast hne) :=
    List.getLast?_eq_getLast l.nodes hne
  have hsplit : l.nodes = l.nodes.dropLast ++ [l.nodes.getLast hne] :=
    (List.dropLast_append_getLast hne).symm
  have hnotin : (l.nodes.getLast hne).Key ∉ l.nodes.dropLast.map LRUNode.Key := by
    intro hmem
    have hnd2 := hnd
    rw [hsplit, List.map_append, List.map_cons, List.map_nil] at hnd2
    rw [List.nodup_append] at hnd2
    exact hnd2.2.2 hmem (List.mem_singleton.2 rfl)
  unfold LRUList.RemoveLeast
  rw [hlast]
  dsimp only
  constructor
  · exact List.mem_map_of_mem LRUNode.Key (List.getLast_mem hne)
  · have E : List.map LRUNode.Key l.nodes =
        List.map LRUNode.Key l.nodes.dropLast ++ [(l.nodes.getLast hne).Key] := by
      conv_lhs => rw [hsplit]
      rw [List.map_append, List.map_cons, List.map_nil]
    rw [E, List.erase_append_right _ hnotin, List.erase_cons_head]
    simp

theorem FIFO_Add_keys_absent {l : FIFOList} {key : String}
    (h : key ∉ l.nodes.map FIFONode.Key) (item : CacheItem) (now : Nat) :
    (l.Add key item now).nodes.map FIFONode.Key =
      l.nodes.map FIFONode.Key ++ [key] := by
  unfold FIFOList.Add
  rw [(findKeyed_eq_none_iff _ _ _).2 h]
  simp

theorem FIFO_Remove_keys (l : FIFOList) (key : String) :
    (l.Remove key).nodes.map FIFONode.Key = (l.nodes.map FIFONode.Key).erase key := by
  unfold FIFOList.Remove
  exact map_key_eraseKeyed _ _ _

theorem FIFO_Update_keys (l : FIFOList) (key : String) (item : CacheItem) :
    (l.Update key item).nodes.map FIFONode.Key = l.nodes.map FIFONode.Key := by
  unfold FIFOList.Update
  cases hfind : findKeyed FIFONode.Key l.nodes key with
  | none => rfl
  | some x =>
    dsimp only
    exact map_key_modifyKeyed FIFONode.Key (fun n => { n with Item := item })
      (fun x => rfl) l.nodes key

theorem FIFO_RemoveLeast_nil {l : FIFOList} (h : l.nodes = []) :
    l.RemoveLeast = ("", l) := by
  unfold FIFOList.RemoveLeast
  rw [h]

theorem FIFO_RemoveLeast_spec {l : FIFOList} (hne : l.nodes ≠ []) :
    l.RemoveLeast.1 ∈ l.nodes.map FIFONode.Key ∧
    l.RemoveLeast.2.nodes.map FIFONode.Key =
      (l.nodes.map FIFONode.Key).erase l.RemoveLeast.1 := by
  obtain ⟨ns⟩ := l
  cases ns with
  | nil => exact absurd rfl hne
  | cons n rest =>
    unfold FIFOList.RemoveLeast
    dsimp only
    exact ⟨List.mem_cons_self _ _, (List.erase_cons_head _ _).symm⟩

/-! ### The shard invariant through `evictOne` -/

/-- Reassembling the shard invariant after one eviction removed the stored
entry `k` and replaced the eviction list by `e'`. -/
theorem ShardWF_evict_assemble {s : CacheShard} (hwf : ShardWF s) {k : String}
    {item : CacheItem} (hitem : assocFind s.data k = some item) {e' : EvictionList}
    (hkeys2 : e'.keys = s.evictionList.keys.erase k)
    (hlfu : ∀ l0, e' = EvictionList.lfu l0 → LFUWF l0 ∧
      ∀ n ∈ l0.nodes,
        (∃ l1, s.evictionList = EvictionList.lfu l1 ∧ n ∈ l1.nodes) ∧ n.Key ≠ k) :
    ShardWF { s with
      data := assocErase s.data k
      evictionList := e'
      currentSize := s.currentSize - (item.Size : Int)
      currentCount := s.currentCount - 1
      Evictions := s.Evictions + 1 } := by
  refine ⟨⟨?_, ?_⟩, ?_, ?_, ?_, ?_, ?_⟩
  · show s.currentSize - (item.Size : Int) = sizeSum (assocErase s.data k)
    rw [sizeSum_assocErase_of_found hitem]
    have h1 := hwf.acct.1
    omega
  · show s.currentCount - 1 = ((assocErase s.data k).length : Int)
    have h1 := hwf.acct.2
    have h2 := length_assocErase_of_found hitem
    omega
  · exact nodup_assocErase hwf.nodup k
  · show e'.keys.Perm ((assocErase s.data k).map Prod.fst)
    rw [hkeys2]
    have hp1 := hwf.keysPerm.erase k
    have hp2 := (map_fst_assocErase_of_found hitem).erase k
    rw [List.erase_cons_head] at hp2
    exact hp1.trans hp2
  · intro hmem
    have h2 : ("" : String) ∈ s.data.map Prod.fst :=
      (map_fst_assocErase_of_found hitem).mem_iff.2 (List.mem_cons_of_mem _ hmem)
    exact hwf.noEmpty h2
  · intro l0 heq
    exact (hlfu l0 heq).1
  · intro l0 heq n hn
    obtain ⟨⟨l1, hc1, hn1⟩, hne1⟩ := (hlfu l0 heq).2 n hn
    obtain ⟨it, hfind1, hfreq⟩ := hwf.lfuLink l1 hc1 n hn1
    refine ⟨it, ?_, hfreq⟩
    show assocFind (assocErase s.data k) n.Key = some it
    rw [assocFind_assocErase_other _ hne1]
    exact hfind1

/-- `evictOne` under the shard invariant: the invariant is preserved; an
empty shard reports `false` unchanged; a non-empty shard always loses
exactly one stored entry. -/
theorem ShardWF_evictOne {s : CacheShard} (hwf : ShardWF s) :
    ShardWF s.evictOne.2 ∧
    (s.data = [] → s.evictOne.1 = false ∧ s.evictOne.2 = s) ∧
    (s.data ≠ [] → s.evictOne.1 = true ∧
      s.evictOne.2.data.length + 1 = s.data.length) := by
  by_cases hd : s.data = []
  · have hknil : s.evictionList.keys = [] := by
      have hp := hwf.keysPerm
      rw [hd] at hp
      exact hp.eq_nil
    have hev : s.evictOne = (false, s) := by
      cases hc : s.evictionList with
      | lru l =>
        have hnil : l.nodes = [] := by
          rw [hc] at hknil
          exact List.map_eq_nil.1 hknil
        unfold CacheShard.evictOne
        rw [hc]
        simp only [EvictionList.RemoveLeast, LRU_RemoveLeast_nil hnil]
        rw [if_true, ← hc]
      | lfu l =>
        have hnil : l.nodes = [] := by
          rw [hc] at hknil
          exact List.map_eq_nil.1 hknil
        unfold CacheShard.evictOne
        rw [hc]
        simp only [EvictionList.RemoveLeast, LFU_RemoveLeast_nil hnil]
        rw [if_true, ← hc]
      | fifo l =>
        have hnil : l.nodes = [] := by
          rw [hc] at hknil
          exact List.map_eq_nil.1 hknil
        unfold CacheShard.evictOne
        rw [hc]
        simp only [EvictionList.RemoveLeast, FIFO_RemoveLeast_nil hnil]
        rw [if_true, ← hc]
    refine ⟨?_, fun _ => ⟨?_, ?_⟩, fun hcon => absurd hd hcon⟩ <;> rw [hev]
    exact hwf
  · have hkne : s.evictionList.keys ≠ [] := by
      intro h0
      have hp := hwf.keysPerm
      rw [h0] at hp
      exact hd (List.map_eq_nil.1 hp.symm.eq_nil)
    have hknodup : s.evictionList.keys.Nodup := hwf.keysPerm.nodup_iff.2 hwf.nodup
    cases hc : s.evictionList with
    | lru l =>
      have hlne : l.nodes ≠ [] := by
        intro h0
        apply hkne
        rw [hc]
        show l.nodes.map LRUNode.Key = []
        rw [h0]
        rfl
      have hnd : (l.nodes.map LRUNode.Key).Nodup := by
        rw [hc] at hknodup
        exact hknodup
      obtain ⟨hmem, hkeys2⟩ := LRU_RemoveLeast_spec hnd hlne
      have hmemdata : l.RemoveLeast.1 ∈ s.data.map Prod.fst := by
        have hp := hwf.keysPerm
        rw [hc] at hp
        exact hp.mem_iff.1 hmem
      have hkne2 : ¬l.RemoveLeast.1 = "" := by
        intro h0
        exact hwf.noEmpty (h0 ▸ hmemdata)
      obtain ⟨item, hitem⟩ := assocFind_some_of_mem hmemdata
      have hkeys2e : (EvictionList.lru l.RemoveLeast.2).keys =
          s.evictionList.keys.erase l.RemoveLeast.1 := by
        rw [hc]
        exact hkeys2
      have hassem := ShardWF_evict_assemble hwf hitem hkeys2e
        (fun l0 heq => EvictionList.noConfusion heq)
      have hev : s.evictOne = (true, { s with
          data := assocErase s.data l.RemoveLeast.1
          evictionList := EvictionList.lru l.RemoveLeast.2
          currentSize := s.currentSize - (item.Size : Int)
          currentCount := s.currentCount - 1
          Evictions := s.Evictions + 1 }) := by
        unfold CacheShard.evictOne
        rw [hc]
        simp only [EvictionList.RemoveLeast]
        rw [if_neg hkne2, hitem]
      refine ⟨?_, fun hcon => absurd hcon hd, fun _ => ⟨?_, ?_⟩⟩ <;> rw [hev]
      · exact hassem
      · show (assocErase s.data l.RemoveLeast.1).length + 1 = s.data.length
        have h2 := length_assocErase_of_found hitem
        omega
    | lfu l =>
      have hwfl : LFUWF l := hwf.lfuWF l hc
      have hlne : l.nodes ≠ [] := by
        intro h0
        apply hkne
        rw [hc]
        show l.nodes.map LFUNode.Key = []
        rw [h0]
        rfl
      obtain ⟨node, hnodemem, hkeq, hfreq, hwfR, hkeysR, hsubR⟩ :=
        LFU_RemoveLeast_spec hwfl hlne
      have hmem : l.RemoveLeast.1 ∈ l.nodes.map LFUNode.Key := by
        rw [hkeq]
        exact List.mem_map_of_mem LFUNode.Key hnodemem
      have hmemdata : l.RemoveLeast.1 ∈ s.data.map Prod.fst := by
        have hp := hwf.keysPerm
        rw [hc] at hp
        exact hp.mem_iff.1 hmem
      have hkne2 : ¬l.RemoveLeast.1 = "" := by
        intro h0
        exact hwf.noEmpty (h0 ▸ hmemdata)
      obtain ⟨item, hitem⟩ := assocFind_some_of_mem hmemdata
      have hkeys2e : (EvictionList.lfu l.RemoveLeast.2).keys =
          s.evictionList.keys.erase l.RemoveLeast.1 := by
        rw [hc]
        show l.RemoveLeast.2.nodes.map LFUNode.Key =
          (l.nodes.map LFUNode.Key).erase l.RemoveLeast.1
        rw [hkeysR, hkeq]
      have hassem := ShardWF_evict_assemble hwf hitem hkeys2e
        (fun l0 heq => by
          injection heq with heq
          subst heq
          refine ⟨hwfR, fun n hn => ⟨⟨l, hc, (hsubR n hn).1⟩, ?_⟩⟩
          rw [hkeq]
          exact (hsubR n hn).2)
      have hev : s.evictOne = (true, { s with
          data := assocErase s.data l.RemoveLeast.1
          evictionList := EvictionList.lfu l.RemoveLeast.2
          currentSize := s.currentSize - (item.Size : Int)
          currentCount := s.currentCount - 1
          Evictions := s.Evictions + 1 }) := by
        unfold CacheShard.evictOne
        rw [hc]
        simp only [EvictionList.RemoveLeast]
        rw [if_neg hkne2, hitem]
      refine ⟨?_, fun hcon => absurd hcon hd, fun _ => ⟨?_, ?_⟩⟩ <;> rw [hev]
      · exact hassem
      · show (assocErase s.data l.RemoveLeast.1).length + 1 = s.data.length
        have h2 := length_assocErase_of_found hitem
        omega
    | fifo l =>
      have hlne : l.nodes ≠ [] := by
        intro h0
        apply hkne
        rw [hc]
        show l.nodes.map FIFONode.Key = []
        rw [h0]
        rfl
      obtain ⟨hmem, hkeys2⟩ := FIFO_RemoveLeast_spec hlne
      have hmemdata : l.RemoveLeast.1 ∈ s.data.map Prod.fst := by
        have hp := hwf.keysPerm
        rw [hc] at hp
        exact hp.mem_iff.1 hmem
      have hkne2 : ¬l.RemoveLeast.1 = "" := by
        intro h0
        exact hwf.noEmpty (h0 ▸ hmemdata)
      obtain ⟨item, hitem⟩ := assocFind_some_of_mem hmemdata
      have hkeys2e : (EvictionList.fifo l.RemoveLeast.2).keys =
          s.evictionList.keys.erase l.RemoveLeast.1 := by
        rw [hc]
        exact hkeys2
      have hassem := ShardWF_evict_assemble hwf hitem hkeys2e
        (fun l0 heq => EvictionList.noConfusion heq)
      have hev : s.evictOne = (true, { s with
          data := assocErase s.data l.RemoveLeast.1
          evictionList := EvictionList.fifo l.RemoveLeast.2
          currentSize := s.currentSize - (item.Size : Int)
          currentCount := s.currentCount - 1
          Evictions := s.Evictions + 1 }) := by
        unfold CacheShard.evictOne
        rw [hc]
        simp only [EvictionList.RemoveLeast]
        rw [if_neg hkne2, hitem]
      refine ⟨?_, fun hcon => absurd hcon hd, fun _ => ⟨?_, ?_⟩⟩ <;> rw [hev]
      · exact hassem
      · show (assocErase s.data l.RemoveLeast.1).length + 1 = s.data.length
        have h2 := length_assocErase_of_found hitem
        omega

theorem ShardWF_evictLoop {fuel : Nat} {n : Int} {s : CacheShard} (hwf : ShardWF s) :
    ShardWF (evictLoop fuel n s) := by
  induction fuel generalizing s with
  | zero => exact hwf
  | succ fuel ih =>
    unfold evictLoop
    split
    · rcases hev : s.evictOne with ⟨b, s2⟩
      have hwf2 : ShardWF s2 := by
        have h2 := (ShardWF_evictOne hwf).1
        rw [hev] at h2
        exact h2
      cases b
      · exact hwf2
      · exact ih hwf2
    · exact hwf

/-- The budget loop, run with enough fuel on a well-formed shard with a
positive budget, always lands at or below the budget: the Go loop only
stops early when the shard has been emptied, where the accounted size is
zero. -/
theorem evictLoop_le {fuel : Nat} {s : CacheShard} (hwf : ShardWF s)
    (hfuel : s.data.length < fuel) (hmax : 0 < s.maxSize) :
    (evictLoop fuel 0 s).currentSize ≤ s.maxSize := by
  induction fuel generalizing s with
  | zero => omega
  | succ fuel ih =>
    unfold evictLoop
    split
    case isTrue hcond =>
      have hdne : s.data ≠ [] := by
        intro h0
        have h1 := hwf.acct.1
        rw [h0] at h1
        simp [sizeSum] at h1
        omega
      obtain ⟨htrue, hlen⟩ := (ShardWF_evictOne hwf).2.2 hdne
      have hwf2 : ShardWF s.evictOne.2 := (ShardWF_evictOne hwf).1
      have hmax2 : s.evictOne.2.maxSize = s.maxSize :=
        congrArg Prod.fst (evictOne_configOf s)
      have hev2 : s.evictOne = (true, s.evictOne.2) := by
        rw [← htrue]
      rw [hev2]
      calc (evictLoop fuel 0 s.evictOne.2).currentSize
          ≤ s.evictOne.2.maxSize := ih hwf2 (by omega) (by rw [hmax2]; exact hmax)
        _ = s.maxSize := hmax2
    case isFalse hcond =>
      omega

/-- `Delete` preserves the shard invariant. -/
theorem ShardWF_Delete {s : CacheShard} (hwf : ShardWF s) (key : String) :
    ShardWF (s.Delete key) := by
  unfold CacheShard.Delete
  cases hfind : assocFind s.data key with
  | none => exact hwf
  | some item =>
    dsimp only
    have hremkeys : (s.evictionList.Remove key).keys =
        s.evictionList.keys.erase key := by
      cases hc : s.evictionList with
      | lru l => exact LRU_Remove_keys l key
      | lfu l => exact (LFUWF_Remove (hwf.lfuWF l hc) key).2.1
      | fifo l => exact FIFO_Remove_keys l key
    refine ⟨⟨?_, ?_⟩, ?_, ?_, ?_, ?_, ?_⟩
    · show s.currentSize - (item.Size : Int) = sizeSum (assocErase s.data key)
      rw [sizeSum_assocErase_of_found hfind]
      have h1 := hwf.acct.1
      omega
    · show s.currentCount - 1 = ((assocErase s.data key).length : Int)
      have h1 := hwf.acct.2
      have h2 := length_assocErase_of_found hfind
      omega
    · exact nodup_assocErase hwf.nodup key
    · show (s.evictionList.Remove key).keys.Perm
        ((assocErase s.data key).map Prod.fst)
      have hp2 := (map_fst_assocErase_of_found hfind).erase key
      rw [List.erase_cons_head] at hp2
      rw [hremkeys]
      exact (hwf.keysPerm.erase key).trans hp2
    · intro hmem
      have h2 : ("" : String) ∈ s.data.map Prod.fst :=
        (map_fst_assocErase_of_found hfind).mem_iff.2 (List.mem_cons_of_mem _ hmem)
      exact hwf.noEmpty h2
    · intro l0 heq
      have heq2 : s.evictionList.Remove key = EvictionList.lfu l0 := heq
      cases hc : s.evictionList with
      | lru l =>
        rw [hc] at heq2
        exact EvictionList.noConfusion heq2
      | lfu l =>
        rw [hc] at heq2
        injection heq2 with heq2
        subst heq2
        exact (LFUWF_Remove (hwf.lfuWF l hc) key).1
      | fifo l =>
        rw [hc] at heq2
        exact EvictionList.noConfusion heq2
    · intro l0 heq n hn
      have heq2 : s.evictionList.Remove key = EvictionList.lfu l0 := heq
      cases hc : s.evictionList with
      | lru l =>
        rw [hc] at heq2
        exact EvictionList.noConfusion heq2
      | lfu l =>
        rw [hc] at heq2
        injection heq2 with heq2
        subst heq2
        obtain ⟨hn1, hne1⟩ := (LFUWF_Remove (hwf.lfuWF l hc) key).2.2 n hn
        obtain ⟨it, hf1, hfr1⟩ := hwf.lfuLink l hc n hn1
        refine ⟨it, ?_, hfr1⟩
        show assocFind (assocErase s.data key) n.Key = some it
        rw [assocFind_assocErase_other _ hne1]
        exact hf1
      | fifo l =>
        rw [hc] at heq2
        exact EvictionList.noConfusion heq2

/-- `Clear` re-establishes the shard invariant from scratch. -/
theorem ShardWF_Clear {s : CacheShard} (hwf : ShardWF s) : ShardWF s.Clear := by
  have hclearkeys : (s.evictionList.Clear).keys = [] := by
    cases s.evictionList <;> rfl
  unfold CacheShard.Clear
  refine ⟨⟨by simp [sizeSum], by rfl⟩, by simp [DataNodup], ?_, by intro hmem; simp at hmem, ?_, ?_⟩
  · show (s.evictionList.Clear).keys.Perm
      (([] : List (String × CacheItem)).map Prod.fst)
    rw [hclearkeys]
    rfl
  · intro l0 heq
    have heq2 : s.evictionList.Clear = EvictionList.lfu l0 := heq
    cases hc : s.evictionList with
    | lru l =>
      rw [hc] at heq2
      exact EvictionList.noConfusion heq2
    | lfu l =>
      rw [hc] at heq2
      injection heq2 with heq2
      subst heq2
      exact LFUWF_nil
    | fifo l =>
      rw [hc] at heq2
      exact EvictionList.noConfusion heq2
  · intro l0 heq n hn
    have heq2 : s.evictionList.Clear = EvictionList.lfu l0 := heq
    cases hc : s.evictionList with
    | lru l =>
      rw [hc] at heq2
      exact EvictionList.noConfusion heq2
    | lfu l =>
      rw [hc] at heq2
      injection heq2 with heq2
      subst heq2
      simp [LFUList.Clear, NewLFUList] at hn
    | fifo l =>
      rw [hc] at heq2
      exact EvictionList.noConfusion heq2

/-- A freshly built shard satisfies the invariant. -/
theorem ShardWF_NewCacheShard (maxSize : Int) (policy : String)
    (comp : Option Compressor) (csize : Int) :
    ShardWF (NewCacheShard maxSize policy comp csize) := by
  unfold NewCacheShard
  dsimp only
  refine ⟨⟨by simp [sizeSum], by rfl⟩, by simp [DataNodup], ?_, by intro hmem; simp at hmem, ?_, ?_⟩
  · show (if policy = "LRU" then EvictionList.lru NewLRUList
      else if policy = "LFU" then EvictionList.lfu NewLFUList
      else if policy = "FIFO" then EvictionList.fifo NewFIFOList
      else EvictionList.lru NewLRUList).keys.Perm
      (([] : List (String × CacheItem)).map Prod.fst)
    split
    · rfl
    · split
      · rfl
      · split
        · rfl
        · rfl
  · intro l0 heq
    have heq2 : (if policy = "LRU" then EvictionList.lru NewLRUList
      else if policy = "LFU" then EvictionList.lfu NewLFUList
      else if policy = "FIFO" then EvictionList.fifo NewFIFOList
      else EvictionList.lru NewLRUList) = EvictionList.lfu l0 := heq
    split at heq2
    · exact EvictionList.noConfusion heq2
    · split at heq2
      · injection heq2 with heq2
        subst heq2
        exact LFUWF_nil
      · split at heq2
        · exact EvictionList.noConfusion heq2
        · exact EvictionList.noConfusion heq2
  · intro l0 heq n hn
    have heq2 : (if policy = "LRU" then EvictionList.lru NewLRUList
      else if policy = "LFU" then EvictionList.lfu NewLFUList
      else if policy = "FIFO" then EvictionList.fifo NewFIFOList
      else EvictionList.lru NewLRUList) = EvictionList.lfu l0 := heq
    split at heq2
    · exact EvictionList.noConfusion heq2
    · split at heq2
      · injection heq2 with heq2
        subst heq2
        simp [NewLFUList] at hn
      · split at heq2
        · exact EvictionList.noConfusion heq2
        · exact EvictionList.noConfusion heq2

/-- The budget pass that closes `Set`: the invariant is preserved, and with
a positive budget the final size is within it. -/
theorem ShardWF_evictIfNeeded {X : CacheShard} (hX : ShardWF X) :
    ShardWF (X.evictIfNeeded 0) ∧
    (0 < X.maxSize → (X.evictIfNeeded 0).currentSize ≤ X.maxSize) := by
  unfold CacheShard.evictIfNeeded
  exact ⟨ShardWF_evictLoop hX, fun hmax => evictLoop_le hX (Nat.lt_succ_self _) hmax⟩

/-- The overwrite branch of `Set` (before the budget pass) keeps the shard
invariant, for any replacement entry. -/
theorem ShardWF_Set_over {s : CacheShard} (hwf : ShardWF s) {key : String}
    {oldItem : CacheItem} (hfind : assocFind s.data key = some oldItem)
    (newItem : CacheItem) (now : Nat) :
    ShardWF { s with
      data := assocSet s.data key newItem
      currentSize := s.currentSize - (oldItem.Size : Int) + (newItem.Size : Int)
      evictionList := (s.evictionList.Remove key).Add key newItem now } := by
  have hkeymem : key ∈ s.data.map Prod.fst :=
    List.mem_map_of_mem Prod.fst (assocFind_mem hfind)
  have hknodup : s.evictionList.keys.Nodup := hwf.keysPerm.nodup_iff.2 hwf.nodup
  have hkeymeme : key ∈ s.evictionList.keys := hwf.keysPerm.mem_iff.2 hkeymem
  refine ⟨⟨?_, ?_⟩, ?_, ?_, ?_, ?_, ?_⟩
  · show s.currentSize - (oldItem.Size : Int) + (newItem.Size : Int) =
      sizeSum (assocSet s.data key newItem)
    rw [sizeSum_assocSet_of_found hfind]
    have h1 := hwf.acct.1
    omega
  · show s.currentCount = ((assocSet s.data key newItem).length : Int)
    rw [length_assocSet_of_found hfind]
    exact hwf.acct.2
  · show ((assocSet s.data key newItem).map Prod.fst).Nodup
    rw [map_fst_assocSet_of_found hfind]
    exact hwf.nodup
  · show ((s.evictionList.Remove key).Add key newItem now).keys.Perm
      ((assocSet s.data key newItem).map Prod.fst)
    rw [map_fst_assocSet_of_found hfind]
    have hgoalperm : ((s.evictionList.Remove key).Add key newItem now).keys.Perm
        s.evictionList.keys := by
      cases hc : s.evictionList with
      | lru l =>
        have hknodup2 : (l.nodes.map LRUNode.Key).Nodup := by
          rw [hc] at hknodup
          exact hknodup
        have habs : key ∉ (l.Remove key).nodes.map LRUNode.Key := by
          rw [LRU_Remove_keys]
          exact hknodup2.not_mem_erase
        show (((l.Remove key).Add key newItem).nodes.map LRUNode.Key).Perm
          (l.nodes.map LRUNode.Key)
        rw [LRU_Add_keys_absent habs, LRU_Remove_keys]
        have hkeymem2 : key ∈ l.nodes.map LRUNode.Key := by
          rw [hc] at hkeymeme
          exact hkeymeme
        exact (List.perm_cons_erase hkeymem2).symm
      | lfu l =>
        have hwfl := hwf.lfuWF l hc
        have habs : key ∉ (l.Remove key).nodes.map LFUNode.Key := by
          rw [(LFUWF_Remove hwfl key).2.1]
          exact hwfl.keyNodup.not_mem_erase
        show (((l.Remove key).Add key newItem now).nodes.map LFUNode.Key).Perm
          (l.nodes.map LFUNode.Key)
        rw [(LFUWF_Add (LFUWF_Remove hwfl key).1 key newItem now habs).2]
        simp only [List.map_append, List.map_cons, List.map_nil]
        rw [(LFUWF_Remove hwfl key).2.1]
        have hkeymem2 : key ∈ l.nodes.map LFUNode.Key := by
          rw [hc] at hkeymeme
          exact hkeymeme
        exact (List.perm_append_singleton _ _).trans
          (List.perm_cons_erase hkeymem2).symm
      | fifo l =>
        have hknodup2 : (l.nodes.map FIFONode.Key).Nodup := by
          rw [hc] at hknodup
          exact hknodup
        have habs : key ∉ (l.Remove key).nodes.map FIFONode.Key := by
          rw [FIFO_Remove_keys]
          exact hknodup2.not_mem_erase
        show (((l.Remove key).Add key newItem now).nodes.map FIFONode.Key).Perm
          (l.nodes.map FIFONode.Key)
        rw [FIFO_Add_keys_absent habs, FIFO_Remove_keys]
        have hkeymem2 : key ∈ l.nodes.map FIFONode.Key := by
          rw [hc] at hkeymeme
          exact hkeymeme
        exact (List.perm_append_singleton _ _).trans
          (List.perm_cons_erase hkeymem2).symm
    exact hgoalperm.trans hwf.keysPerm
  · show ("" : String) ∉ (assocSet s.data key newItem).map Prod.fst
    rw [map_fst_assocSet_of_found hfind]
    exact hwf.noEmpty
  · intro l0 heq
    have heq2 : (s.evictionList.Remove key).Add key newItem now =
        EvictionList.lfu l0 := heq
    cases hc : s.evictionList with
    | lru l =>
      rw [hc] at heq2
      exact EvictionList.noConfusion heq2
    | lfu l =>
      rw [hc] at heq2
      have hwfl := hwf.lfuWF l hc
      have habs : key ∉ (l.Remove key).nodes.map LFUNode.Key := by
        rw [(LFUWF_Remove hwfl key).2.1]
        exact hwfl.keyNodup.not_mem_erase
      have heq3 : (l.Remove key).Add key newItem now = l0 := by
        injection heq2
      rw [← heq3]
      exact (LFUWF_Add (LFUWF_Remove hwfl key).1 key newItem now habs).1
    | fifo l =>
      rw [hc] at heq2
      exact EvictionList.noConfusion heq2
  · intro l0 heq n hn
    have heq2 : (s.evictionList.Remove key).Add key newItem now =
        EvictionList.lfu l0 := heq
    cases hc : s.evictionList with
    | lru l =>
      rw [hc] at heq2
      exact EvictionList.noConfusion heq2
    | lfu l =>
      rw [hc] at heq2
      have hwfl := hwf.lfuWF l hc
      have habs : key ∉ (l.Remove key).nodes.map LFUNode.Key := by
        rw [(LFUWF_Remove hwfl key).2.1]
        exact hwfl.keyNodup.not_mem_erase
      have heq3 : (l.Remove key).Add key newItem now = l0 := by
        injection heq2
      rw [← heq3] at hn
      rw [(LFUWF_Add (LFUWF_Remove hwfl key).1 key newItem now habs).2] at hn
      rcases List.mem_append.1 hn with hn2 | hn2
      · obtain ⟨hn3, hne3⟩ := (LFUWF_Remove hwfl key).2.2 n hn2
        obtain ⟨it, hf1, hfr1⟩ := hwf.lfuLink l hc n hn3
        refine ⟨it, ?_, hfr1⟩
        show assocFind (assocSet s.data key newItem) n.Key = some it
        rw [assocFind_assocSet_other _ hne3]
        exact hf1
      · simp only [List.mem_singleton] at hn2
        subst hn2
        refine ⟨newItem, ?_, ?_⟩
        · show assocFind (assocSet s.data key newItem) key = some newItem
          rw [assocFind_assocSet_self]
        · show (if newItem.AccessCount = 0 then 1 else newItem.AccessCount) =
            max 1 newItem.AccessCount
          exact startFreq_eq_max _
    | fifo l =>
      rw [hc] at heq2
      exact EvictionList.noConfusion heq2

/-- The fresh-key branch of `Set` (before the budget pass) keeps the shard
invariant. -/
theorem ShardWF_Set_new {s : CacheShard} (hwf : ShardWF s) {key : String}
    (hk : key ≠ "") (hfind : assocFind s.data key = none)
    (item : CacheItem) (now : Nat) :
    ShardWF { s with
      data := assocSet s.data key item
      currentSize := s.currentSize + (item.Size : Int)
      currentCount := s.currentCount + 1
      evictionList := s.evictionList.Add key item now } := by
  have hnotmem : key ∉ s.data.map Prod.fst := (assocFind_eq_none_iff _ _).1 hfind
  have hnotmeme : key ∉ s.evictionList.keys :=
    fun h => hnotmem (hwf.keysPerm.mem_iff.1 h)
  have hset : assocSet s.data key item = s.data ++ [(key, item)] :=
    assocSet_of_find_none hfind item
  have hsingle : sizeSum [(key, item)] = (item.Size : Int) := by
    simp [sizeSum]
  refine ⟨⟨?_, ?_⟩, ?_, ?_, ?_, ?_, ?_⟩
  · show s.currentSize + (item.Size : Int) = sizeSum (assocSet s.data key item)
    rw [hset, sizeSum_append, hsingle]
    have h1 := hwf.acct.1
    omega
  · show s.currentCount + 1 = ((assocSet s.data key item).length : Int)
    rw [hset]
    have h1 := hwf.acct.2
    simp only [List.length_append, List.length_cons, List.length_nil]
    push_cast
    omega
  · exact nodup_assocSet hwf.nodup key item
  · show (s.evictionList.Add key item now).keys.Perm
      ((assocSet s.data key item).map Prod.fst)
    rw [hset, List.map_append]
    simp only [List.map_cons, List.map_nil]
    cases hc : s.evictionList with
    | lru l =>
      have hnm2 : key ∉ l.nodes.map LRUNode.Key := by
        rw [hc] at hnotmeme
        exact hnotmeme
      have hp : (l.nodes.map LRUNode.Key).Perm (s.data.map Prod.fst) := by
        have h2 := hwf.keysPerm
        rw [hc] at h2
        exact h2
      show ((l.Add key item).nodes.map LRUNode.Key).Perm
        (s.data.map Prod.fst ++ [key])
      rw [LRU_Add_keys_absent hnm2]
      exact (hp.cons key).trans (List.perm_append_singleton _ _).symm
    | lfu l =>
      have hwfl := hwf.lfuWF l hc
      have hnm2 : key ∉ l.nodes.map LFUNode.Key := by
        rw [hc] at hnotmeme
        exact hnotmeme
      have hp : (l.nodes.map LFUNode.Key).Perm (s.data.map Prod.fst) := by
        have h2 := hwf.keysPerm
        rw [hc] at h2
        exact h2
      show ((l.Add key item now).nodes.map LFUNode.Key).Perm
        (s.data.map Prod.fst ++ [key])
      rw [(LFUWF_Add hwfl key item now hnm2).2]
      simp only [List.map_append, List.map_cons, List.map_nil]
      exact hp.append (List.Perm.refl [key])
    | fifo l =>
      have hnm2 : key ∉ l.nodes.map FIFONode.Key := by
        rw [hc] at hnotmeme
        exact hnotmeme
      have hp : (l.nodes.map FIFONode.Key).Perm (s.data.map Prod.fst) := by
        have h2 := hwf.keysPerm
        rw [hc] at h2
        exact h2
      show ((l.Add key item now).nodes.map FIFONode.Key).Perm
        (s.data.map Prod.fst ++ [key])
      rw [FIFO_Add_keys_absent hnm2]
      exact hp.append (List.Perm.refl [key])
  · intro hmem
    have hmem2 : ("" : String) ∈ (assocSet s.data key item).map Prod.fst := hmem
    rw [hset, List.map_append] at hmem2
    rcases List.mem_append.1 hmem2 with h2 | h2
    · exact hwf.noEmpty h2
    · simp only [List.map_cons, List.map_nil, List.mem_singleton] at h2
      exact hk h2.symm
  · intro l0 heq
    have heq2 : s.evictionList.Add key item now = EvictionList.lfu l0 := heq
    cases hc : s.evictionList with
    | lru l =>
      rw [hc] at heq2
      exact EvictionList.noConfusion heq2
    | lfu l =>
      rw [hc] at heq2
      have hwfl := hwf.lfuWF l hc
      have hnm2 : key ∉ l.nodes.map LFUNode.Key := by
        rw [hc] at hnotmeme
        exact hnotmeme
      have heq3 : l.Add key item now = l0 := by
        injection heq2
      rw [← heq3]
      exact (LFUWF_Add hwfl key item now hnm2).1
    | fifo l =>
      rw [hc] at heq2
      exact EvictionList.noConfusion heq2
  · intro l0 heq n hn
    have heq2 : s.evictionList.Add key item now = EvictionList.lfu l0 := heq
    cases hc : s.evictionList with
    | lru l =>
      rw [hc] at heq2
      exact EvictionList.noConfusion heq2
    | lfu l =>
      rw [hc] at heq2
      have hwfl := hwf.lfuWF l hc
      have hnm2 : key ∉ l.nodes.map LFUNode.Key := by
        rw [hc] at hnotmeme
        exact hnotmeme
      have heq3 : l.Add key item now = l0 := by
        injection heq2
      rw [← heq3] at hn
      rw [(LFUWF_Add hwfl key item now hnm2).2] at hn
      rcases List.mem_append.1 hn with hn2 | hn2
      · have hne3 : n.Key ≠ key :=
          fun hkk => hnm2 (hkk ▸ List.mem_map_of_mem LFUNode.Key hn2)
        obtain ⟨it, hf1, hfr1⟩ := hwf.lfuLink l hc n hn2
        refine ⟨it, ?_, hfr1⟩
        show assocFind (assocSet s.data key item) n.Key = some it
        rw [assocFind_assocSet_other _ hne3]
        exact hf1
      · simp only [List.mem_singleton] at hn2
        subst hn2
        refine ⟨item, ?_, ?_⟩
        · show assocFind (assocSet s.data key item) key = some item
          rw [assocFind_assocSet_self]
        · show (if item.AccessCount = 0 then 1 else item.AccessCount) =
            max 1 item.AccessCount
          exact startFreq_eq_max _
    | fifo l =>
      rw [hc] at heq2
      exact EvictionList.noConfusion heq2

/-- `Set` with a non-empty key preserves the shard invariant, and with a
positive budget its final state is within the budget. -/
theorem ShardWF_Set {s : CacheShard} (hwf : ShardWF s) {key : String} (hk : key ≠ "")
    (value : Bytes) (ttl now : Nat) :
    ShardWF (s.Set key value ttl now).2 ∧
    (0 < s.maxSize → (s.Set key value ttl now).2.currentSize ≤ s.maxSize) := by
  unfold CacheShard.Set
  dsimp only
  cases hfind : assocFind s.data key with
  | some oldItem =>
    dsimp only
    apply ShardWF_evictIfNeeded
    exact ShardWF_Set_over hwf hfind _ now
  | none =>
    dsimp only
    apply ShardWF_evictIfNeeded
    exact ShardWF_Set_new hwf hk hfind _ now

/-- The access-refresh state the hit path of `Get` builds keeps the shard
invariant, for any refreshed entry of unchanged size whose access count
grew by one. -/
theorem ShardWF_touch {s : CacheShard} (hwf : ShardWF s) {key : String}
    {item : CacheItem} (hfind : assocFind s.data key = some item)
    (item1 : CacheItem) (hsize : item1.Size = item.Size)
    (hcount : item1.AccessCount = item.AccessCount + 1) (now : Nat) :
    ShardWF { s with
      data := assocSet s.data key item1
      evictionList := s.evictionList.Update key item1 now
      Hits := s.Hits + 1 } := by
  have hkeymem : key ∈ s.data.map Prod.fst :=
    List.mem_map_of_mem Prod.fst (assocFind_mem hfind)
  have hkeymeme : key ∈ s.evictionList.keys := hwf.keysPerm.mem_iff.2 hkeymem
  have hpos : 1 ≤ item1.AccessCount := by omega
  refine ⟨⟨?_, ?_⟩, ?_, ?_, ?_, ?_, ?_⟩
  · show s.currentSize = sizeSum (assocSet s.data key item1)
    rw [sizeSum_assocSet_of_found hfind]
    have h1 := hwf.acct.1
    omega
  · show s.currentCount = ((assocSet s.data key item1).length : Int)
    rw [length_assocSet_of_found hfind]
    exact hwf.acct.2
  · show ((assocSet s.data key item1).map Prod.fst).Nodup
    rw [map_fst_assocSet_of_found hfind]
    exact hwf.nodup
  · show (s.evictionList.Update key item1 now).keys.Perm
      ((assocSet s.data key item1).map Prod.fst)
    rw [map_fst_assocSet_of_found hfind]
    refine List.Perm.trans ?_ hwf.keysPerm
    cases hc : s.evictionList with
    | lru l => exact LRU_Update_keys_perm l key item1
    | lfu l =>
      have hwfl := hwf.lfuWF l hc
      have hmem2 : key ∈ l.nodes.map LFUNode.Key := by
        rw [hc] at hkeymeme
        exact hkeymeme
      obtain ⟨node, hfindnode⟩ := findKeyed_of_mem hmem2
      obtain ⟨hnodemem, hnodekey⟩ := findKeyed_eq_some hfindnode
      obtain ⟨it, hfit, hfreq⟩ := hwf.lfuLink l hc node hnodemem
      rw [hnodekey, hfind] at hfit
      injection hfit with hfit
      subst hfit
      have hge : l.minFreq ≤ item1.AccessCount := by
        have hle := hwf.lfuWF l hc |>.minLe node hnodemem
        omega
      show ((l.Update key item1 now).nodes.map LFUNode.Key).Perm
        (l.nodes.map LFUNode.Key)
      rw [(LFUWF_Update hwfl hfindnode item1 now hpos hge).2.1]
    | fifo l =>
      show ((l.Update key item1).nodes.map FIFONode.Key).Perm
        (l.nodes.map FIFONode.Key)
      rw [FIFO_Update_keys]
  · show ("" : String) ∉ (assocSet s.data key item1).map Prod.fst
    rw [map_fst_assocSet_of_found hfind]
    exact hwf.noEmpty
  · intro l0 heq
    have heq2 : s.evictionList.Update key item1 now = EvictionList.lfu l0 := heq
    cases hc : s.evictionList with
    | lru l =>
      rw [hc] at heq2
      exact EvictionList.noConfusion heq2
    | lfu l =>
      rw [hc] at heq2
      have hwfl := hwf.lfuWF l hc
      have hmem2 : key ∈ l.nodes.map LFUNode.Key := by
        rw [hc] at hkeymeme
        exact hkeymeme
      obtain ⟨node, hfindnode⟩ := findKeyed_of_mem hmem2
      obtain ⟨hnodemem, hnodekey⟩ := findKeyed_eq_some hfindnode
      obtain ⟨it, hfit, hfreq⟩ := hwf.lfuLink l hc node hnodemem
      rw [hnodekey, hfind] at hfit
      injection hfit with hfit
      subst hfit
      have hge : l.minFreq ≤ item1.AccessCount := by
        have hle := hwfl.minLe node hnodemem
        omega
      have heq3 : l.Update key item1 now = l0 := by
        injection heq2
      rw [← heq3]
      exact (LFUWF_Update hwfl hfindnode item1 now hpos hge).1
    | fifo l =>
      rw [hc] at heq2
      exact EvictionList.noConfusion heq2
  · intro l0 heq n hn
    have heq2 : s.evictionList.Update key item1 now = EvictionList.lfu l0 := heq
    cases hc : s.evictionList with
    | lru l =>
      rw [hc] at heq2
      exact EvictionList.noConfusion heq2
    | lfu l =>
      rw [hc] at heq2
      have hwfl := hwf.lfuWF l hc
      have hmem2 : key ∈ l.nodes.map LFUNode.Key := by
        rw [hc] at hkeymeme
        exact hkeymeme
      obtain ⟨node, hfindnode⟩ := findKeyed_of_mem hmem2
      obtain ⟨hnodemem, hnodekey⟩ := findKeyed_eq_some hfindnode
      obtain ⟨it, hfit, hfreq⟩ := hwf.lfuLink l hc node hnodemem
      rw [hnodekey, hfind] at hfit
      injection hfit with hfit
      subst hfit
      have hge : l.minFreq ≤ item1.AccessCount := by
        have hle := hwfl.minLe node hnodemem
        omega
      have heq3 : l.Update key item1 now = l0 := by
        injection heq2
      rw [← heq3] at hn
      rcases (LFUWF_Update hwfl hfindnode item1 now hpos hge).2.2 n hn with
        ⟨hn2, hne2⟩ | ⟨hkeq, hfreq2⟩
      · obtain ⟨it2, hf2, hfr2⟩ := hwf.lfuLink l hc n hn2
        refine ⟨it2, ?_, hfr2⟩
        show assocFind (assocSet s.data key item1) n.Key = some it2
        rw [assocFind_assocSet_other _ hne2]
        exact hf2
      · refine ⟨item1, ?_, ?_⟩
        · show assocFind (assocSet s.data key item1) n.Key = some item1
          rw [hkeq, assocFind_assocSet_self]
        · rw [hfreq2]
          omega
    | fifo l =>
      rw [hc] at heq2
      exact EvictionList.noConfusion heq2

/-- `Get` preserves the shard invariant on all three paths. -/
theorem ShardWF_Get {s : CacheShard} (hwf : ShardWF s) (key : String) (now : Nat) :
    ShardWF (s.Get key now).2 := by
  unfold CacheShard.Get
  cases hfind : assocFind s.data key with
  | none =>
    dsimp only
    exact ⟨hwf.acct, hwf.nodup, hwf.keysPerm, hwf.noEmpty, hwf.lfuWF, hwf.lfuLink⟩
  | some item =>
    dsimp only
    have hhit : ShardWF (CacheShard.Get.getHit s key item now).2 := by
      rw [getHit_snd]
      exact ShardWF_touch hwf hfind
        { item with AccessAt := now, AccessCount := item.AccessCount + 1 } rfl rfl now
    cases hexp : item.ExpireAt with
    | some e =>
      dsimp only
      split
      · have hdel := ShardWF_Delete hwf key
        exact ⟨hdel.acct, hdel.nodup, hdel.keysPerm, hdel.noEmpty, hdel.lfuWF,
          hdel.lfuLink⟩
      · exact hhit
    | none => exact hhit

/-- Every operation with a non-empty `set` key preserves the shard
invariant. -/
theorem ShardWF_applyOp {s : CacheShard} (hwf : ShardWF s) {op : Op}
    (hop : op.keysNonempty = true) : ShardWF (applyOp s op) := by
  cases op with
  | set key value ttl now =>
    have hk : key ≠ "" := by
      simpa [Op.keysNonempty] using hop
    exact (ShardWF_Set hwf hk value ttl now).1
  | get key now => exact ShardWF_Get hwf key now
  | del key => exact ShardWF_Delete hwf key
  | clear => exact ShardWF_Clear hwf

/-- Every operation keeps the accounted size within the (positive) budget:
`set` enforces it through the budget pass, the other operations never grow
the accounted size. -/
theorem applyOp_le {s : CacheShard} (hwf : ShardWF s) {op : Op}
    (hop : op.keysNonempty = true) (hmax : 0 < s.maxSize)
    (hle : s.currentSize ≤ s.maxSize) :
    (applyOp s op).currentSize ≤ (applyOp s op).maxSize := by
  have hcfg : (applyOp s op).maxSize = s.maxSize :=
    congrArg Prod.fst (applyOp_configOf s op)
  rw [hcfg]
  cases op with
  | set key value ttl now =>
    have hk : key ≠ "" := by
      simpa [Op.keysNonempty] using hop
    exact (ShardWF_Set hwf hk value ttl now).2 hmax
  | get key now =>
    show (s.Get key now).2.currentSize ≤ s.maxSize
    unfold CacheShard.Get
    cases hfind : assocFind s.data key with
    | none => exact hle
    | some item =>
      dsimp only
      have hhit : (CacheShard.Get.getHit s key item now).2.currentSize ≤
          s.maxSize := by
        rw [getHit_snd]
        exact hle
      have hdel : (s.Delete key).currentSize ≤ s.maxSize := by
        unfold CacheShard.Delete
        cases assocFind s.data key with
        | none => exact hle
        | some it2 =>
          dsimp only
          omega
      cases item.ExpireAt with
      | some e =>
        dsimp only
        split
        · exact hdel
        · exact hhit
      | none => exact hhit
  | del key =>
    show (s.Delete key).currentSize ≤ s.maxSize
    unfold CacheShard.Delete
    cases assocFind s.data key with
    | none => exact hle
    | some it2 =>
      dsimp only
      omega
  | clear =>
    show (0 : Int) ≤ s.maxSize
    omega

/-- Sequences of operations with non-empty keys keep the invariant, the
budget bound, and the budget itself. -/
theorem ShardWF_runOps {s : CacheShard} (hwf : ShardWF s) {ops : List Op}
    (hops : ops.all Op.keysNonempty = true) (hmax : 0 < s.maxSize)
    (hle : s.currentSize ≤ s.maxSize) :
    ShardWF (runOps s ops) ∧
    (runOps s ops).currentSize ≤ (runOps s ops).maxSize ∧
    (runOps s ops).maxSize = s.maxSize := by
  induction ops generalizing s with
  | nil => exact ⟨hwf, hle, rfl⟩
  | cons op rest ih =>
    simp only [List.all_cons, Bool.and_eq_true] at hops
    have h1 := ShardWF_applyOp hwf hops.1
    have h2 := applyOp_le hwf hops.1 hmax hle
    have hcfg : (applyOp s op).maxSize = s.maxSize :=
      congrArg Prod.fst (applyOp_configOf s op)
    have h3 := ih h1 hops.2 (by rw [hcfg]; exact hmax) h2
    exact ⟨h3.1, h3.2.1, h3.2.2.trans hcfg⟩

/-- C2: for every shard with `max_bytes > 0` and every finite sequence of
set/get/delete/clear operations with non-empty keys starting from a fresh
shard, the accounted size stays within the budget — so the claimed
disjunction (`current_bytes ≤ max_bytes`, or the shard holds exactly one
entry) always holds through its first disjunct: the budget loop runs after
every insertion and only stops early once the shard is empty. -/
theorem memory_bound (maxSize : Int) (policy : String) (comp : Option Compressor)
    (csize : Int) (ops : List Op) (hmax : 0 < maxSize)
    (hops : ops.all Op.keysNonempty = true) :
    (runOps (NewCacheShard maxSize policy comp csize) ops).currentSize ≤ maxSize ∨
    (runOps (NewCacheShard maxSize policy comp csize) ops).currentCount = 1 := by
  left
  have h0 := ShardWF_runOps (ShardWF_NewCacheShard maxSize policy comp csize)
    hops (by show 0 < maxSize; exact hmax) (by show (0 : Int) ≤ maxSize; omega)
  have h1 := h0.2.1
  rw [h0.2.2] at h1
  exact h1

/-- Witness for C2: a concrete run (one 3-byte insert under a 10-byte
budget, LRU policy) through the theorem itself. -/
theorem memory_bound_witness :
    (0 : Int) < 10 ∧
    ([Op.set "k" [1, 1, 1] 0 0].all Op.keysNonempty = true) ∧
    ((runOps (NewCacheShard 10 "LRU" none 100)
        [Op.set "k" [1, 1, 1] 0 0]).currentSize ≤ 10 ∨
      (runOps (NewCacheShard 10 "LRU" none 100)
        [Op.set "k" [1, 1, 1] 0 0]).currentCount = 1) :=
  ⟨by norm_num, by decide,
    memory_bound 10 "LRU" none 100 [Op.set "k" [1, 1, 1] 0 0]
      (by norm_num) (by decide)⟩

/-! ### Claim C7: LFU retention -/

/-- Operations never change the kind of the eviction list: `evictOne`. -/
theorem isLfu_evictOne {s : CacheShard}
    (h : ∃ l, s.evictionList = EvictionList.lfu l) :
    ∃ l, s.evictOne.2.evictionList = EvictionList.lfu l := by
  obtain ⟨l, hc⟩ := h
  unfold CacheShard.evictOne
  rw [hc]
  simp only [EvictionList.RemoveLeast]
  split
  · exact ⟨l.RemoveLeast.2, rfl⟩
  · split
    · exact ⟨l.RemoveLeast.2, rfl⟩
    · exact ⟨l.RemoveLeast.2, rfl⟩

theorem isLfu_evictLoop {fuel : Nat} {n : Int} {s : CacheShard}
    (h : ∃ l, s.evictionList = EvictionList.lfu l) :
    ∃ l, (evictLoop fuel n s).evictionList = EvictionList.lfu l := by
  induction fuel generalizing s with
  | zero => exact h
  | succ fuel ih =>
    unfold evictLoop
    split
    · rcases hev : s.evictOne with ⟨b, s2⟩
      have h2 := isLfu_evictOne h
      rw [hev] at h2
      cases b
      · exact h2
      · exact ih h2
    · exact h

theorem isLfu_Set {s : CacheShard} (h : ∃ l, s.evictionList = EvictionList.lfu l)
    (key : String) (value : Bytes) (ttl now : Nat) :
    ∃ l, (s.Set key value ttl now).2.evictionList = EvictionList.lfu l := by
  obtain ⟨l, hc⟩ := h
  unfold CacheShard.Set
  dsimp only
  cases assocFind s.data key with
  | some oldItem =>
    dsimp only
    unfold CacheShard.evictIfNeeded
    apply isLfu_evictLoop
    rw [hc]
    exact ⟨_, rfl⟩
  | none =>
    dsimp only
    unfold CacheShard.evictIfNeeded
    apply isLfu_evictLoop
    rw [hc]
    exact ⟨_, rfl⟩

theorem isLfu_Delete {s : CacheShard} (h : ∃ l, s.evictionList = EvictionList.lfu l)
    (key : String) :
    ∃ l, (s.Delete key).evictionList = EvictionList.lfu l := by
  obtain ⟨l, hc⟩ := h
  unfold CacheShard.Delete
  cases assocFind s.data key with
  | none => exact ⟨l, hc⟩
  | some item =>
    dsimp only
    rw [hc]
    exact ⟨_, rfl⟩

theorem isLfu_Get {s : CacheShard} (h : ∃ l, s.evictionList = EvictionList.lfu l)
    (key : String) (now : Nat) :
    ∃ l, (s.Get key now).2.evictionList = EvictionList.lfu l := by
  obtain ⟨l, hc⟩ := h
  unfold CacheShard.Get
  cases assocFind s.data key with
  | none => exact ⟨l, hc⟩
  | some item =>
    dsimp only
    have hhit : ∃ l2, (CacheShard.Get.getHit s key item now).2.evictionList =
        EvictionList.lfu l2 := by
      rw [getHit_snd]
      show ∃ l2, s.evictionList.Update key _ now = EvictionList.lfu l2
      rw [hc]
      exact ⟨_, rfl⟩
    cases item.ExpireAt with
    | some e =>
      dsimp only
      split
      · exact isLfu_Delete ⟨l, hc⟩ key
      · exact hhit
    | none => exact hhit

theorem isLfu_runOps {s : CacheShard} (h : ∃ l, s.evictionList = EvictionList.lfu l)
    (ops : List Op) :
    ∃ l, (runOps s ops).evictionList = EvictionList.lfu l := by
  induction ops generalizing s with
  | nil => exact h
  | cons op rest ih =>
    show ∃ l, (runOps (applyOp s op) rest).evictionList = EvictionList.lfu l
    apply ih
    cases op with
    | set key value ttl now => exact isLfu_Set h key value ttl now
    | get key now => exact isLfu_Get h key now
    | del key => exact isLfu_Delete h key
    | clear =>
      obtain ⟨l, hc⟩ := h
      show ∃ l2, s.evictionList.Clear = EvictionList.lfu l2
      rw [hc]
      exact ⟨_, rfl⟩

/-- Operation sequences with non-empty keys preserve the shard invariant. -/
theorem ShardWF_runOps_pure {s : CacheShard} (hwf : ShardWF s) {ops : List Op}
    (hops : ops.all Op.keysNonempty = true) : ShardWF (runOps s ops) := by
  induction ops generalizing s with
  | nil => exact hwf
  | cons op rest ih =>
    simp only [List.all_cons, Bool.and_eq_true] at hops
    exact ih (ShardWF_applyOp hwf hops.1) hops.2

/-- On a well-formed LFU shard, the key the eviction pass removes carries a
minimal `max(1, access_count)` among all stored entries. -/
theorem lfu_evict_min_aux {s : CacheShard} (hwf : ShardWF s) {l : LFUList}
    (hc : s.evictionList = EvictionList.lfu l)
    (htrue : s.evictOne.1 = true) {itEv : CacheItem}
    (hfindEv : assocFind s.data s.evictionList.RemoveLeast.1 = some itEv)
    {k2 : String} {it2 : CacheItem} (hmem2 : (k2, it2) ∈ s.data) :
    max 1 itEv.AccessCount ≤ max 1 it2.AccessCount := by
  have hdne : s.data ≠ [] := by
    intro h0
    have h1 := (ShardWF_evictOne hwf).2.1 h0
    rw [h1.1] at htrue
    exact Bool.noConfusion htrue
  have hlne : l.nodes ≠ [] := by
    intro h0
    have hp := hwf.keysPerm
    rw [hc] at hp
    have h2 : (EvictionList.lfu l).keys = [] := by
      show l.nodes.map LFUNode.Key = []
      rw [h0]
      rfl
    rw [h2] at hp
    exact hdne (List.map_eq_nil.1 hp.symm.eq_nil)
  obtain ⟨node, hnodemem, hkeq, hfreqmin, _, _, _⟩ :=
    LFU_RemoveLeast_spec (hwf.lfuWF l hc) hlne
  have hkey : s.evictionList.RemoveLeast.1 = l.RemoveLeast.1 := by
    rw [hc]
    rfl
  obtain ⟨itl, hfitl, hfreql⟩ := hwf.lfuLink l hc node hnodemem
  rw [hkey, hkeq] at hfindEv
  rw [hfindEv] at hfitl
  injection hfitl with hfitl
  subst hfitl
  have hk2mem : k2 ∈ s.data.map Prod.fst := List.mem_map_of_mem Prod.fst hmem2
  have hk2meme : k2 ∈ l.nodes.map LFUNode.Key := by
    have hp := hwf.keysPerm
    rw [hc] at hp
    exact hp.mem_iff.2 hk2mem
  obtain ⟨node2, hfln2⟩ := findKeyed_of_mem hk2meme
  obtain ⟨hn2mem, hn2key⟩ := findKeyed_eq_some hfln2
  obtain ⟨it2b, hfit2, hfreq2⟩ := hwf.lfuLink l hc node2 hn2mem
  have hfind2 : assocFind s.data k2 = some it2 :=
    assocFind_of_mem_nodup hwf.nodup hmem2
  rw [hn2key, hfind2] at hfit2
  injection hfit2 with hfit2
  subst hfit2
  rw [← hfreql, ← hfreq2, hfreqmin]
  exact (hwf.lfuWF l hc).minLe node2 hn2mem

/-- Counterexample to C7 as stated: on an LFU shard with a 10-byte budget,
`k1` is written and read once (access count 1) while `k2` is only written
(access count 0); the insertion of `k3` forces one eviction, which removes
`k1` — the key with the strictly higher access count — because both keys
share the frequency bucket `max(1, count) = 1` and the tie is broken by
least-recent use. -/
theorem lfu_retention_counterexample :
    ((runOps (NewCacheShard 10 "LFU" none 100)
        [Op.set "k1" [1, 1, 1, 1] 0 0, Op.get "k1" 1,
         Op.set "k2" [1, 1, 1, 1] 0 2]).data.map
      (fun p => (p.1, p.2.AccessCount))) = [("k1", 1), ("k2", 0)] ∧
    (runOps (NewCacheShard 10 "LFU" none 100)
        [Op.set "k1" [1, 1, 1, 1] 0 0, Op.get "k1" 1,
         Op.set "k2" [1, 1, 1, 1] 0 2, Op.set "k3" [1, 1, 1, 1] 0 3]).data.map
      Prod.fst = ["k2", "k3"] := by
  constructor
  · rfl
  · rfl

/-- C7 (amended): under the LFU policy, new entries are indexed at
frequency `max(1, access_count)`, and whenever the eviction pass removes an
entry, the removed entry's `max(1, access_count)` is minimal among all
stored entries at eviction time; retention by strictly higher raw access
count does not hold, because a count of 0 and a count of 1 share the same
frequency bucket and the tie is broken by least-recent use. -/
theorem lfu_retention (maxSize : Int) (comp : Option Compressor) (csize : Int)
    (ops : List Op) (hops : ops.all Op.keysNonempty = true) :
    (∀ l, (runOps (NewCacheShard maxSize "LFU" comp csize) ops).evictionList =
        EvictionList.lfu l →
      ∀ key item now, key ∉ l.nodes.map LFUNode.Key →
        (l.Add key item now).nodes =
          l.nodes ++ [⟨key, item, max 1 item.AccessCount, now⟩]) ∧
    ((runOps (NewCacheShard maxSize "LFU" comp csize) ops).evictOne.1 = true →
      ∀ itEv, assocFind (runOps (NewCacheShard maxSize "LFU" comp csize) ops).data
          (runOps (NewCacheShard maxSize "LFU" comp csize)
            ops).evictionList.RemoveLeast.1 = some itEv →
        ∀ k2 it2, (k2, it2) ∈ (runOps (NewCacheShard maxSize "LFU" comp csize)
            ops).data →
          max 1 itEv.AccessCount ≤ max 1 it2.AccessCount) := by
  have hwf : ShardWF (runOps (NewCacheShard maxSize "LFU" comp csize) ops) :=
    ShardWF_runOps_pure (ShardWF_NewCacheShard maxSize "LFU" comp csize) hops
  constructor
  · intro l hc key item now habs
    rw [(LFUWF_Add (hwf.lfuWF l hc) key item now habs).2, startFreq_eq_max]
  · intro htrue itEv hfindEv k2 it2 hmem2
    have hlfu0 : ∃ l0, (NewCacheShard maxSize "LFU" comp csize).evictionList =
        EvictionList.lfu l0 := ⟨NewLFUList, by rfl⟩
    obtain ⟨l, hc⟩ := isLfu_runOps hlfu0 ops
    exact lfu_evict_min_aux hwf hc htrue hfindEv hmem2

/-- Witness for C7 (amended), at a concrete LFU shard holding `k1`
(count 0, written at 0) and `k2` (count 0, written at 2): the eviction pass
removes `k1`, whose `max(1, count)` is indeed minimal. -/
theorem lfu_retention_witness :
    ([Op.set "k1" [1, 1, 1, 1] 0 0, Op.set "k2" [1, 1, 1, 1] 0 2].all
      Op.keysNonempty = true) ∧
    max 1 (⟨"k1", [1, 1, 1, 1], 4, none, 0, 0, 0, false⟩ : CacheItem).AccessCount ≤
      max 1 (⟨"k2", [1, 1, 1, 1], 4, none, 2, 2, 0, false⟩ : CacheItem).AccessCount :=
  ⟨by decide,
    (lfu_retention 10 none 100
        [Op.set "k1" [1, 1, 1, 1] 0 0, Op.set "k2" [1, 1, 1, 1] 0 2]
        (by decide)).2 (by decide)
      ⟨"k1", [1, 1, 1, 1], 4, none, 0, 0, 0, false⟩ (by decide)
      "k2" ⟨"k2", [1, 1, 1, 1], 4, none, 2, 2, 0, false⟩ (by decide)⟩

end TSCache
